import Mathlib

/-!
# multiphenicsx: restricted dof maps

A shallow embedding of `multiphenicsx/fem/DofMapRestriction.cpp` and a verification of the
contract its specification states: the owned and ghost numbering of a restriction, the three
exchange rounds that resolve the ghosts of every rank, and the restricted cell-dof table.

Conventions of the embedding.

* `std::int32_t`, `std::int64_t`, `int` are `Int`; sizes and offsets (`std::size_t`, and the
  non-negative `std::int32_t` offsets of an adjacency list) are `Nat`. Wrap-around is not
  modelled: every counter of the source is bounded by the length of a vector held in memory.
* `std::map` is a key-sorted association list with one entry per key.
* A `std::vector` is a `List`. An access outside its bounds is undefined behaviour in C++ and is
  the error `Error.undefined_behaviour` here; `std::map::at` on a missing key throws
  `std::out_of_range`, which is `Error.out_of_range`; a failing `assert` is `Error.assertion`.
* The ranks of the communicator are the positions of a list, one entry per rank, and a
  collective call is one function over that list.
-/

namespace Multiphenicsx

/-! ## Errors and containers -/

/-- The ways in which the construction of a restriction can fail. -/
inductive Error where
  | out_of_range
  | undefined_behaviour
  | assertion
  deriving DecidableEq, Repr

/-- A `std::map` with integer keys: entries sorted by key, one entry per key. -/
abbrev StdMap (ν : Type) := List (Int × ν)

namespace StdMap

/-- The lookup `find`: the value stored under `k`, if any. -/
def find {ν : Type} : StdMap ν → Int → Option ν
  | [], _ => none
  | (k', v) :: m, k => if k = k' then some v else find m k

/-- The assignment `m[k] = v`: insert at the sorted position, or overwrite. -/
def insert {ν : Type} : StdMap ν → Int → ν → StdMap ν
  | [], k, v => [(k, v)]
  | (k', v') :: m, k, v =>
    if k < k' then (k, v) :: (k', v') :: m
    else if k = k' then (k, v) :: m
    else (k', v') :: insert m k v

/-- The member `count(k)`: 1 when the key is present, 0 otherwise. -/
def count {ν : Type} (m : StdMap ν) (k : Int) : Nat :=
  if (find m k).isSome then 1 else 0

/-- The member `at(k)`: throws `std::out_of_range` when the key is missing. -/
def lookupAt {ν : Type} (m : StdMap ν) (k : Int) : Except Error ν :=
  match find m k with
  | some v => .ok v
  | none => .error .out_of_range

end StdMap

/-- Read `xs[i]` of a vector with a signed index. -/
def vecGet {α : Type} (xs : List α) (i : Int) : Except Error α :=
  if 0 ≤ i then
    match xs[i.toNat]? with
    | some x => .ok x
    | none => .error .undefined_behaviour
  else .error .undefined_behaviour

/-- Write `xs[i] = x` of a vector with a signed index. -/
def vecSet {α : Type} (xs : List α) (i : Int) (x : α) : Except Error (List α) :=
  if 0 ≤ i ∧ i.toNat < xs.length then .ok (xs.set i.toNat x) else .error .undefined_behaviour

/-- The statement `send_buffer[i].push_back(..)` repeated for the values `xs`. -/
def pushAt (buf : List (List Int)) (i : Int) (xs : List Int) : Except Error (List (List Int)) :=
  if 0 ≤ i ∧ i.toNat < buf.length then
    .ok (buf.set i.toNat (buf.getD i.toNat [] ++ xs))
  else .error .undefined_behaviour

/-- Run a fallible loop body over a list, left to right, stopping at the first error. -/
def foldlE {σ α : Type} (f : σ → α → Except Error σ) : σ → List α → Except Error σ
  | s, [] => .ok s
  | s, a :: as =>
    match f s a with
    | .ok s' => foldlE f s' as
    | .error e => .error e

/-- Run a fallible computation on every element, stopping at the first error. -/
def mapE {α β : Type} (f : α → Except Error β) : List α → Except Error (List β)
  | [] => .ok []
  | a :: as =>
    match f a with
    | .error e => .error e
    | .ok b =>
      match mapE f as with
      | .error e => .error e
      | .ok bs => .ok (b :: bs)

/-! ## The collaborators: index map, dof map, adjacency list -/

/-- Modelled from the spec: the `dolfinx::common::IndexMap` of one rank, which is not part of
the sources. It holds the start of the rank's owned block in the global numbering
(`local_range()[0]`), the number of owned indices (`size_local()`), and for every ghost its
global index and its owning rank (`owners()`). -/
structure IndexMap where
  range0 : Int
  size_local : Int
  ghosts : List Int
  owners : List Int
  deriving DecidableEq, Repr, Inhabited

/-- Modelled from the spec: `IndexMap::global_indices()`, the global index of every local index:
the owned block `range0, range0 + 1, ..`, then the ghosts. -/
def IndexMap.global_indices (im : IndexMap) : List Int :=
  (List.range im.size_local.toNat).map (fun (i : Nat) => im.range0 + (i : Int)) ++ im.ghosts

/-- Modelled from the spec: the collective constructor `IndexMap(comm, local_size, ghosts,
owners)` on rank `r`, where `sizes` lists the `local_size` every rank passes: the owned blocks
are laid out by rank, so the block of rank `r` starts at the sum of the sizes of lower ranks. -/
def IndexMap.create (sizes : List Int) (r : Nat) (ghosts owners : List Int) : IndexMap :=
  { range0 := (sizes.take r).sum
    size_local := sizes.getD r 0
    ghosts := ghosts
    owners := owners }

/-- Modelled from the spec: what the constructor reads of a `dolfinx::fem::DofMap`: its index
map and its cell-dof table `map()`, one row of dofs per cell. -/
structure DofMap where
  index_map : IndexMap
  cell_dofs : List (List Int)
  deriving DecidableEq, Repr, Inhabited

/-- Modelled from the spec: a `dolfinx::graph::AdjacencyList`, a flattened array of values and
the offsets of the nodes in it. -/
structure AdjacencyList where
  array : List Int
  offsets : List Nat
  deriving DecidableEq, Repr, Inhabited

/-- The offsets of the rows of `data` in their concatenation, starting at `start`. -/
def offsetsFrom (start : Nat) : List (List Int) → List Nat
  | [] => [start]
  | row :: rows => start :: offsetsFrom (start + row.length) rows

/-- Modelled from the spec: the constructor of an adjacency list from a vector of vectors. -/
def AdjacencyList.ofLists (data : List (List Int)) : AdjacencyList :=
  { array := data.flatten, offsets := offsetsFrom 0 data }

/-- Modelled from the spec: `AdjacencyList::num_nodes()`. -/
def AdjacencyList.num_nodes (a : AdjacencyList) : Nat := a.offsets.length - 1

/-- Modelled from the spec: `AdjacencyList::links(i)`, the values between two offsets. -/
def AdjacencyList.links (a : AdjacencyList) (i : Nat) : List Int :=
  (a.array.drop (a.offsets.getD i 0)).take (a.offsets.getD (i + 1) 0 - a.offsets.getD i 0)

/-! ## The restriction object -/

/-- The members of a `DofMapRestriction`. -/
structure DofMapRestriction where
  unrestricted_to_restricted : StdMap Int
  restricted_to_unrestricted : StdMap Int
  index_map : IndexMap
  dof_array : List Int
  cell_bounds : List Nat
  deriving DecidableEq, Repr

/-- The two local maps and a running counter, the state of the numbering loops. -/
structure Numbering where
  unrestricted_to_restricted : StdMap Int
  restricted_to_unrestricted : StdMap Int
  size : Int
  deriving DecidableEq, Repr, Inhabited

/-! ## `_map_owned_dofs` -/

/-- The body of the loop of `_map_owned_dofs` for one entry of the restriction. -/
def map_owned_step (unrestricted_owned_size : Int) (s : Numbering) (unrestricted_dof : Int) :
    Numbering :=
  if unrestricted_dof < unrestricted_owned_size then
    { unrestricted_to_restricted := s.unrestricted_to_restricted.insert unrestricted_dof s.size
      restricted_to_unrestricted := s.restricted_to_unrestricted.insert s.size unrestricted_dof
      size := s.size + 1 }
  else s

/-- The loop of `_map_owned_dofs`: the local maps of the owned dofs, and
`restricted_owned_size`. -/
def map_owned_dofs (unrestricted_owned_size : Int) (restriction : List Int) : Numbering :=
  restriction.foldl (map_owned_step unrestricted_owned_size) ⟨[], [], 0⟩

/-! ## `_map_ghost_dofs`: local numbering -/

/-- The body of the first loop of `_map_ghost_dofs` for one entry of the restriction;
`size_local` is `index_map->size_local()` and the counter is `restricted_ghost_size`. -/
def map_ghost_step (unrestricted_owned_size size_local : Int) (s : Numbering)
    (unrestricted_local_dof : Int) : Numbering :=
  if unrestricted_local_dof ≥ unrestricted_owned_size then
    { unrestricted_to_restricted :=
        s.unrestricted_to_restricted.insert unrestricted_local_dof (size_local + s.size)
      restricted_to_unrestricted :=
        s.restricted_to_unrestricted.insert (size_local + s.size) unrestricted_local_dof
      size := s.size + 1 }
  else s

/-- The first loop of `_map_ghost_dofs`, run on the maps that `_map_owned_dofs` left; the
counter of the result is `restricted_ghost_size`. -/
def map_ghost_numbering (unrestricted_owned_size : Int) (restriction : List Int)
    (owned : Numbering) : Numbering :=
  restriction.foldl (map_ghost_step unrestricted_owned_size owned.size)
    ⟨owned.unrestricted_to_restricted, owned.restricted_to_unrestricted, 0⟩

/-! ## `all_to_all` -/

/-- The tail of `std::adjacent_difference`: each element minus its predecessor `prev`. -/
def adjacentDifferenceFrom (prev : Nat) : List Nat → List Nat
  | [] => []
  | x :: xs => (x - prev) :: adjacentDifferenceFrom x xs

/-- The algorithm `std::adjacent_difference`: the first element is copied, every later one is
replaced by its difference with the element before it. -/
def adjacent_difference : List Nat → List Nat
  | [] => []
  | x :: xs => x :: adjacentDifferenceFrom x xs

/-- The tail of `std::partial_sum`, continuing from the running sum `acc`. -/
def partialSumFrom (acc : Nat) : List Nat → List Nat
  | [] => []
  | x :: xs => (acc + x) :: partialSumFrom (acc + x) xs

/-- The algorithm `std::partial_sum`. -/
def partial_sum (xs : List Nat) : List Nat := partialSumFrom 0 xs

/-- The vector `send_size` of `all_to_all`: the adjacent differences of `send_offsets` from its
second element on. -/
def send_size (send_data : AdjacencyList) : List Nat :=
  adjacent_difference send_data.offsets.tail

/-- What `all_to_all` returns on rank `j` when rank `i` calls it with `send_data[i]`.
`MPI_Alltoall` gives rank `j` the size every rank declared for it, the receive offsets are the
partial sums of those sizes, and `MPI_Alltoallv` stores at the offset of source `i` the
`send_size[j]` values of rank `i` that start at its `send_offsets[j]`; the regions of the
sources follow each other, so the received values are their concatenation. -/
def all_to_all_rank (send_data : List AdjacencyList) (j : Nat) : AdjacencyList :=
  let recv_size := send_data.map (fun s => (send_size s).getD j 0)
  let recv_offset := 0 :: partial_sum recv_size
  let recv_values := (send_data.map (fun s =>
    (s.array.drop (s.offsets.getD j 0)).take ((send_size s).getD j 0))).flatten
  { array := recv_values, offsets := recv_offset }

/-- The collective `all_to_all` over all ranks: `send_data[i]` is the argument of rank `i` and
the result lists what every rank receives. The `assert` on the number of nodes is checked on
every rank. -/
def all_to_all (send_data : List AdjacencyList) : Except Error (List AdjacencyList) :=
  if send_data.all (fun s => s.num_nodes == send_data.length) then
    .ok ((List.range send_data.length).map (all_to_all_rank send_data))
  else .error .assertion

/-! ## `_map_ghost_dofs`: the three exchange rounds -/

/-- What one rank holds when the exchange starts: its dof map and restriction, the local maps
after both numbering loops (the counter is `restricted_ghost_size`), and the provisional index
map that `_map_owned_dofs` built. -/
structure RankState where
  dofmap : DofMap
  restriction : List Int
  maps : Numbering
  index_map : IndexMap
  deriving DecidableEq, Repr, Inhabited

/-- Step 1, the body of the loop for one entry of the restriction. -/
def step1_body (st : RankState) (mpi_rank : Nat) (send_buffer : List (List Int))
    (unrestricted_local_dof : Int) : Except Error (List (List Int)) :=
  if unrestricted_local_dof ≥ st.dofmap.index_map.size_local then do
    let unrestricted_global_dof ←
      vecGet st.dofmap.index_map.global_indices unrestricted_local_dof
    let index_owner ← vecGet st.dofmap.index_map.owners
      (unrestricted_local_dof - st.dofmap.index_map.size_local)
    if index_owner = (mpi_rank : Int) then .error .assertion
    else
      let triple := [unrestricted_local_dof, unrestricted_global_dof, (mpi_rank : Int)]
      pushAt send_buffer index_owner triple
  else .ok send_buffer

/-- Step 1 on one rank: the send buffer, one vector per destination rank. -/
def step1_compute (mpi_size : Nat) (mpi_rank : Nat) (st : RankState) :
    Except Error (List (List Int)) :=
  foldlE (step1_body st mpi_rank) (List.replicate mpi_size []) st.restriction

/-- Step 2, the body of the inner loop for one received triple. -/
def step2_body (st : RankState) (send_buffer : List (List Int))
    (unrestricted_local_dof_on_sender unrestricted_global_dof sender_rank : Int) :
    Except Error (List (List Int)) := do
  let unrestricted_local_dof := unrestricted_global_dof - st.dofmap.index_map.range0
  let restricted_local_dof ← st.maps.unrestricted_to_restricted.lookupAt unrestricted_local_dof
  let restricted_global_dof ← vecGet st.index_map.global_indices restricted_local_dof
  pushAt send_buffer sender_rank [restricted_global_dof, unrestricted_local_dof_on_sender]

/-- Step 2, the inner loop over the values received from one rank, three at a time. -/
def step2_links (st : RankState) : List (List Int) → List Int → Except Error (List (List Int))
  | send_buffer, [] => .ok send_buffer
  | send_buffer, l :: g :: s :: data_r =>
    match step2_body st send_buffer l g s with
    | .ok send_buffer' => step2_links st send_buffer' data_r
    | .error e => .error e
  | _, _ => .error .undefined_behaviour

/-- Step 2 on one rank: the reply buffer, one vector per destination rank. -/
def step2_compute (mpi_size : Nat) (st : RankState) (received_buffer_1 : AdjacencyList) :
    Except Error (List (List Int)) :=
  foldlE (fun send_buffer r => step2_links st send_buffer (received_buffer_1.links r))
    (List.replicate mpi_size []) (List.range mpi_size)

/-- Step 3, the body of the inner loop for one received pair; the state is
`(local_to_global_ghost, src_ranks_ghost)`. -/
def step3_body (st : RankState) (arrays : List Int × List Int)
    (restricted_global_dof unrestricted_local_dof : Int) : Except Error (List Int × List Int) := do
  let index_owner ← vecGet st.dofmap.index_map.owners
    (unrestricted_local_dof - st.dofmap.index_map.size_local)
  let restricted_local_dof ← st.maps.unrestricted_to_restricted.lookupAt unrestricted_local_dof
  let restricted_local_dof_ghost := restricted_local_dof - st.index_map.size_local
  let local_to_global_ghost ← vecSet arrays.1 restricted_local_dof_ghost restricted_global_dof
  let src_ranks_ghost ← vecSet arrays.2 restricted_local_dof_ghost index_owner
  pure (local_to_global_ghost, src_ranks_ghost)

/-- Step 3, the inner loop over the values received from one rank, two at a time. -/
def step3_links (st : RankState) :
    List Int × List Int → List Int → Except Error (List Int × List Int)
  | arrays, [] => .ok arrays
  | arrays, g :: l :: data_r =>
    match step3_body st arrays g l with
    | .ok arrays' => step3_links st arrays' data_r
    | .error e => .error e
  | _, _ => .error .undefined_behaviour

/-- Step 3 on one rank: the arrays `local_to_global_ghost` and `src_ranks_ghost`. -/
def step3_compute (mpi_size : Nat) (st : RankState) (received_buffer_2 : AdjacencyList) :
    Except Error (List Int × List Int) :=
  foldlE (fun arrays r => step3_links st arrays (received_buffer_2.links r))
    (List.replicate st.maps.size.toNat 0, List.replicate st.maps.size.toNat 0)
    (List.range mpi_size)

/-! ## `_compute_cell_dofs` -/

/-- The inner loop of the first pass: the restricted dofs of one cell. The map is read with
`operator[]` only under `count(..) > 0`, so the read never inserts. -/
def restrict_cell (unrestricted_to_restricted : StdMap Int) (unrestricted_cell_dofs_c : List Int) :
    List Int :=
  unrestricted_cell_dofs_c.foldl (fun restricted_cell_dofs_c unrestricted_dof =>
    if unrestricted_to_restricted.count unrestricted_dof > 0 then
      restricted_cell_dofs_c ++ [(unrestricted_to_restricted.find unrestricted_dof).getD 0]
    else restricted_cell_dofs_c) []

/-- The first pass for cell `c`; the state is `(restricted_cell_dofs,
restricted_cell_dofs_total_size)`. -/
def first_pass_step (unrestricted_to_restricted : StdMap Int)
    (unrestricted_cell_dofs : List (List Int)) (s : StdMap (List Int) × Nat) (c : Nat) :
    StdMap (List Int) × Nat :=
  let restricted_cell_dofs_c :=
    restrict_cell unrestricted_to_restricted (unrestricted_cell_dofs.getD c [])
  if restricted_cell_dofs_c.length > 0 then
    (s.1.insert (c : Int) ((s.1.find (c : Int)).getD [] ++ restricted_cell_dofs_c),
      s.2 + restricted_cell_dofs_c.length)
  else s

/-- The state of the second pass: `_dof_array`, `_cell_bounds`, `current_cell_bound`. -/
structure CellTable where
  dof_array : List Int
  cell_bounds : List Nat
  current_cell_bound : Nat
  deriving DecidableEq, Repr, Inhabited

/-- The second pass for cell `c`. -/
def second_pass_step (restricted_cell_dofs : StdMap (List Int))
    (restricted_cell_dofs_total_size : Nat) (t : CellTable) (c : Nat) : Except Error CellTable :=
  if restricted_cell_dofs.count (c : Int) > 0 then do
    let restricted_cell_dofs_c ← restricted_cell_dofs.lookupAt (c : Int)
    if t.current_cell_bound + restricted_cell_dofs_c.length ≤ restricted_cell_dofs_total_size then
      let current_cell_bound := t.current_cell_bound + restricted_cell_dofs_c.length
      .ok { dof_array := t.dof_array ++ restricted_cell_dofs_c
            cell_bounds := t.cell_bounds ++ [current_cell_bound]
            current_cell_bound := current_cell_bound }
    else .error .assertion
  else .ok { t with cell_bounds := t.cell_bounds ++ [t.current_cell_bound] }

/-- The function `_compute_cell_dofs`: both passes over the cells `0, .., num_cells - 1`. -/
def compute_cell_dofs (unrestricted_to_restricted : StdMap Int)
    (unrestricted_cell_dofs : List (List Int)) : Except Error CellTable :=
  let num_cells := unrestricted_cell_dofs.length
  let first := (List.range num_cells).foldl
    (first_pass_step unrestricted_to_restricted unrestricted_cell_dofs) ([], 0)
  foldlE (second_pass_step first.1 first.2) ⟨[], [0], 0⟩ (List.range num_cells)

/-! ## The constructor -/

/-- The state of rank `r` when the exchange starts; `sizes` lists `restricted_owned_size` of
every rank, from which the collective constructor of the provisional index map lays out the
owned blocks. -/
def rank_state (sizes : List Int) (r : Nat) (w : DofMap × List Int) : RankState :=
  let owned := map_owned_dofs w.1.index_map.size_local w.2
  { dofmap := w.1
    restriction := w.2
    maps := map_ghost_numbering w.1.index_map.size_local w.2 owned
    index_map := IndexMap.create sizes r [] [] }

/-- The value of `restricted_owned_size` that `_map_owned_dofs` computes on every rank. -/
def restricted_owned_sizes (world : List (DofMap × List Int)) : List Int :=
  world.map (fun w => (map_owned_dofs w.1.index_map.size_local w.2).size)

/-- The state of rank `r` of `world` when the exchange starts. -/
def state_of (world : List (DofMap × List Int)) (r : Nat) : RankState :=
  rank_state (restricted_owned_sizes world) r (world.getD r default)

/-- The object that rank `r` holds when `_map_ghost_dofs` has filled the ghost arrays and
`_compute_cell_dofs` has run. -/
def finish (world : List (DofMap × List Int)) (ghosts : List (List Int × List Int)) (r : Nat) :
    Except Error DofMapRestriction := do
  let table ← compute_cell_dofs (state_of world r).maps.unrestricted_to_restricted
    (state_of world r).dofmap.cell_dofs
  pure { unrestricted_to_restricted := (state_of world r).maps.unrestricted_to_restricted
         restricted_to_unrestricted := (state_of world r).maps.restricted_to_unrestricted
         index_map := IndexMap.create (restricted_owned_sizes world) r
           (ghosts.getD r default).1 (ghosts.getD r default).2
         dof_array := table.dof_array
         cell_bounds := table.cell_bounds }

/-- The constructor `DofMapRestriction(dofmap, restriction)` called collectively: `world[r]` is
the dof map and the restriction of rank `r`, and the result lists the object built on every
rank. An error on any rank makes the collective construction fail. -/
def construct (world : List (DofMap × List Int)) : Except Error (List DofMapRestriction) := do
  let mpi_size := world.length
  let ranks := List.range mpi_size
  let send_buffer_1 ← mapE (fun r => step1_compute mpi_size r (state_of world r)) ranks
  let received_buffer_1 ← all_to_all (send_buffer_1.map AdjacencyList.ofLists)
  let send_buffer_2 ← mapE (fun r =>
    step2_compute mpi_size (state_of world r) (received_buffer_1.getD r default)) ranks
  let received_buffer_2 ← all_to_all (send_buffer_2.map AdjacencyList.ofLists)
  let ghosts ← mapE (fun r =>
    step3_compute mpi_size (state_of world r) (received_buffer_2.getD r default)) ranks
  mapE (finish world ghosts) ranks

/-! ## Notions used to state the contract -/

/-- The entries of the restriction that are owned dofs, in restriction order. -/
def owned_entries (unrestricted_owned_size : Int) (restriction : List Int) : List Int :=
  restriction.filter (fun d => decide (d < unrestricted_owned_size))

/-- The entries of the restriction that are ghost dofs, in restriction order. -/
def ghost_entries (unrestricted_owned_size : Int) (restriction : List Int) : List Int :=
  restriction.filter (fun d => decide (d ≥ unrestricted_owned_size))

/-- The local maps of a rank after both numbering loops. -/
def local_maps (unrestricted_owned_size : Int) (restriction : List Int) : Numbering :=
  map_ghost_numbering unrestricted_owned_size restriction
    (map_owned_dofs unrestricted_owned_size restriction)

/-- One numbering step without its guard: `d` gets the next index after `base`. -/
def assign_step (base : Int) (s : Numbering) (d : Int) : Numbering :=
  { unrestricted_to_restricted := s.unrestricted_to_restricted.insert d (base + s.size)
    restricted_to_unrestricted := s.restricted_to_unrestricted.insert (base + s.size) d
    size := s.size + 1 }

/-- The slice `_dof_array[_cell_bounds[c] : _cell_bounds[c + 1]]` of the cell table. -/
def cell_slice (t : CellTable) (c : Nat) : List Int :=
  (t.dof_array.drop (t.cell_bounds.getD c 0)).take
    (t.cell_bounds.getD (c + 1) 0 - t.cell_bounds.getD c 0)

/-- What the destination `o` holds after the items `xs` were pushed: the payloads of the items
that send to `o`, in the order of `xs`. -/
def collect {α : Type} (sel : α → Bool) (dest : α → Int) (payload : α → List Int) (xs : List α)
    (o : Nat) : List Int :=
  ((xs.filter (fun x => sel x && decide (dest x = (o : Int)))).map payload).flatten

/-- The dof map of rank `r`. -/
def dofmap_of (world : List (DofMap × List Int)) (r : Nat) : DofMap := (world.getD r default).1

/-- The restriction of rank `r`. -/
def restriction_of (world : List (DofMap × List Int)) (r : Nat) : List Int :=
  (world.getD r default).2

/-- The owning rank that the unrestricted index map records for the ghost dof `d`. -/
def ghost_owner (dm : DofMap) (d : Int) : Int :=
  dm.index_map.owners.getD (d - dm.index_map.size_local).toNat 0

/-- The unrestricted global index that the unrestricted index map records for the ghost dof
`d`. -/
def ghost_global (dm : DofMap) (d : Int) : Int :=
  dm.index_map.ghosts.getD (d - dm.index_map.size_local).toNat 0

/-- A valid unrestricted distributed dof map: on every rank the owned size is not negative,
every ghost has an owner, and the owner of a ghost is another rank of the communicator in whose
owned block the global index of the ghost lies. -/
def ValidWorld (world : List (DofMap × List Int)) : Prop :=
  ∀ r, r < world.length →
    0 ≤ (dofmap_of world r).index_map.size_local ∧
    (dofmap_of world r).index_map.owners.length = (dofmap_of world r).index_map.ghosts.length ∧
    ∀ k, k < (dofmap_of world r).index_map.ghosts.length →
      0 ≤ (dofmap_of world r).index_map.owners.getD k 0 ∧
      ((dofmap_of world r).index_map.owners.getD k 0).toNat < world.length ∧
      (dofmap_of world r).index_map.owners.getD k 0 ≠ (r : Int) ∧
      (dofmap_of world ((dofmap_of world r).index_map.owners.getD k 0).toNat).index_map.range0
        ≤ (dofmap_of world r).index_map.ghosts.getD k 0 ∧
      (dofmap_of world r).index_map.ghosts.getD k 0
        < (dofmap_of world ((dofmap_of world r).index_map.owners.getD k 0).toNat).index_map.range0
          + (dofmap_of world ((dofmap_of world r).index_map.owners.getD k 0).toNat
            ).index_map.size_local

/-- Every entry of every restriction is below the number of local dofs, owned and ghost. -/
def ValidRestrictions (world : List (DofMap × List Int)) : Prop :=
  ∀ r, r < world.length → ∀ d, d ∈ restriction_of world r →
    d < (dofmap_of world r).index_map.size_local
      + ((dofmap_of world r).index_map.ghosts.length : Int)

/-- No restriction lists a dof twice. -/
def NodupRestrictions (world : List (DofMap × List Int)) : Prop :=
  ∀ r, r < world.length → (restriction_of world r).Nodup

/-- The local index, on the owner, of the ghost dof `d` of the dof map `dm`. -/
def local_on_owner (world : List (DofMap × List Int)) (dm : DofMap) (d : Int) : Int :=
  ghost_global dm d - (dofmap_of world (ghost_owner dm d).toNat).index_map.range0

/-- Consistent restrictions: every restricted ghost dof is restricted on its owning rank. -/
def Consistent (world : List (DofMap × List Int)) : Prop :=
  ∀ r, r < world.length → ∀ d, d ∈ restriction_of world r →
    (dofmap_of world r).index_map.size_local ≤ d →
    local_on_owner world (dofmap_of world r) d
      ∈ restriction_of world (ghost_owner (dofmap_of world r) d).toNat

/-- The three values of a request, as `step1_body` pushes them. -/
def enc3 (t : Int × Int × Int) : List Int := [t.1, t.2.1, t.2.2]

/-- The two values of a reply, as `step2_body` pushes them. -/
def enc2 (p : Int × Int) : List Int := [p.1, p.2]

/-- The requests that rank `r` addresses to rank `o` in round 1: one triple per ghost entry of
its restriction owned by `o`, in restriction order. -/
def requests (world : List (DofMap × List Int)) (r o : Nat) : List (Int × Int × Int) :=
  ((restriction_of world r).filter (fun d =>
      decide (d ≥ (dofmap_of world r).index_map.size_local)
        && decide (ghost_owner (dofmap_of world r) d = (o : Int)))).map
    (fun d => (d, ghost_global (dofmap_of world r) d, (r : Int)))

/-- The restricted global index that the owner `o` answers for the unrestricted global index
`g`: what its provisional index map gives for the restricted local index of its dof. -/
def restricted_global (world : List (DofMap × List Int)) (o : Nat) (g : Int) : Int :=
  (state_of world o).index_map.range0
    + (StdMap.find (state_of world o).maps.unrestricted_to_restricted
        (g - (dofmap_of world o).index_map.range0)).getD 0

/-- The replies that rank `o` addresses to rank `r` in round 2, one pair per request. -/
def replies (world : List (DofMap × List Int)) (o r : Nat) : List (Int × Int) :=
  (requests world r o).map (fun t => (restricted_global world o t.2.1, t.1))

/-- The position in the ghost arrays at which round 3 on rank `r` installs the reply for the
echoed dof `d`. -/
def ghost_position (world : List (DofMap × List Int)) (r : Nat) (d : Int) : Nat :=
  ((StdMap.find (state_of world r).maps.unrestricted_to_restricted d).getD 0
    - (state_of world r).index_map.size_local).toNat

/-- The body of step 2 applied to a request. -/
def step2_request (st : RankState) (send_buffer : List (List Int)) (t : Int × Int × Int) :
    Except Error (List (List Int)) :=
  step2_body st send_buffer t.1 t.2.1 t.2.2

/-- The body of step 3 applied to a reply. -/
def step3_reply (st : RankState) (arrays : List Int × List Int) (p : Int × Int) :
    Except Error (List Int × List Int) :=
  step3_body st arrays p.1 p.2

/-- The two-rank world of the scenarios: rank 0 owns the global dofs 0 and 1, rank 1 owns the
global dof 2 and has the global dof 1 as its ghost, local index 1. Rank 0 restricts its dof 1
and rank 1 restricts its ghost and its owned dof. -/
def two_rank_world : List (DofMap × List Int) :=
  [(⟨⟨0, 2, [], []⟩, [[0, 1]]⟩, [1]), (⟨⟨2, 1, [1], [0]⟩, [[0, 1]]⟩, [1, 0])]

/-- The same two ranks, but rank 0 restricts only its dof 0 while rank 1 still restricts its
ghost of the dof 1 of rank 0. -/
def two_rank_world_inconsistent : List (DofMap × List Int) :=
  [(⟨⟨0, 2, [], []⟩, [[0, 1]]⟩, [0]), (⟨⟨2, 1, [1], [0]⟩, [[0, 1]]⟩, [1, 0])]

/-- The two-rank world again, with an empty restriction on rank 1. -/
def two_rank_world_empty : List (DofMap × List Int) :=
  [(⟨⟨0, 2, [], []⟩, [[0, 1]]⟩, [1]), (⟨⟨2, 1, [1], [0]⟩, [[0, 1]]⟩, [])]

/-- A two-rank world in which rank 1 has two ghosts: rank 0 owns the global dofs 0 and 1, rank 1
owns the global dof 2 and has the global dofs 0 and 1 as ghosts, local indices 1 and 2. Rank 0
restricts both its dofs and rank 1 restricts both its ghosts. -/
def two_ghost_world : List (DofMap × List Int) :=
  [(⟨⟨0, 2, [], []⟩, [[0, 1]]⟩, [0, 1]), (⟨⟨2, 1, [0, 1], [0, 0]⟩, [[0, 1, 2]]⟩, [1, 2])]

/-- The restricted global index that step 2 reads for the received unrestricted global index
`g`: the entry of `restricted_global_indices` at the restricted local index of the dof. -/
def reply_value (st : RankState) (g : Int) : Int :=
  st.index_map.global_indices.getD
    ((StdMap.find st.maps.unrestricted_to_restricted (g - st.dofmap.index_map.range0)).getD
      0).toNat 0

/-- The restriction that lists every unrestricted local dof once, in increasing order:
`0, 1, .., num_dofs - 1`. -/
def full_restriction (num_dofs : Nat) : List Int :=
  (List.range num_dofs).map (fun (k : Nat) => (k : Int))

/-! ## Verification: containers and numbering loops -/

theorem StdMap.find_insert {ν : Type} (m : StdMap ν) (k : Int) (v : ν) (x : Int) :
    StdMap.find (StdMap.insert m k v) x = if x = k then some v else StdMap.find m x := by
  induction m with
  | nil => simp [StdMap.insert, StdMap.find]
  | cons p m ih =>
    obtain ⟨k', v'⟩ := p
    simp only [StdMap.insert]
    by_cases h1 : k < k'
    · simp only [if_pos h1, StdMap.find]
    · simp only [if_neg h1]
      by_cases h2 : k = k'
      · subst h2
        simp only [if_true, StdMap.find]
        by_cases h3 : x = k <;> simp [h3]
      · simp only [if_neg h2, StdMap.find, ih]
        by_cases h3 : x = k'
        · have : x ≠ k := fun h => h2 (h ▸ h3)
          simp [h3, this, Ne.symm h2]
        · simp [h3]

theorem owned_fold_filter (n : Int) (ds : List Int) (s : Numbering) :
    ds.foldl (map_owned_step n) s = (owned_entries n ds).foldl (assign_step 0) s := by
  unfold owned_entries
  induction ds generalizing s with
  | nil => rfl
  | cons d ds ih =>
    simp only [List.foldl_cons, List.filter_cons]
    by_cases h : d < n
    · simp only [h, decide_True, if_true, List.foldl_cons]
      rw [ih]
      congr 1
      simp [map_owned_step, assign_step, h]
    · simp only [h, decide_False, if_false]
      rw [ih]
      congr 1
      simp [map_owned_step, h]

theorem ghost_fold_filter (n base : Int) (ds : List Int) (s : Numbering) :
    ds.foldl (map_ghost_step n base) s
      = (ghost_entries n ds).foldl (assign_step base) s := by
  unfold ghost_entries
  induction ds generalizing s with
  | nil => rfl
  | cons d ds ih =>
    simp only [List.foldl_cons, List.filter_cons]
    by_cases h : d ≥ n
    · simp only [h, decide_True, if_true, List.foldl_cons]
      rw [ih]
      congr 1
      simp [map_ghost_step, assign_step, h]
    · simp only [h, decide_False, if_false]
      rw [ih]
      congr 1
      simp [map_ghost_step, h]

theorem assign_fold_size (base : Int) (F : List Int) (s : Numbering) :
    (F.foldl (assign_step base) s).size = s.size + F.length := by
  induction F generalizing s with
  | nil => simp
  | cons d F ih =>
    simp only [List.foldl_cons, ih, assign_step, List.length_cons]
    push_cast
    ring

theorem assign_fold_u2r (base : Int) (F : List Int) (hF : F.Nodup) (s : Numbering) :
    (∀ x, x ∉ F → StdMap.find (F.foldl (assign_step base) s).unrestricted_to_restricted x
        = StdMap.find s.unrestricted_to_restricted x) ∧
    (∀ i (h : i < F.length),
      StdMap.find (F.foldl (assign_step base) s).unrestricted_to_restricted F[i]
        = some (base + s.size + i)) := by
  induction F generalizing s with
  | nil => simp
  | cons d F ih =>
    have hd : d ∉ F := (List.nodup_cons.mp hF).1
    obtain ⟨ih1, ih2⟩ := ih (List.nodup_cons.mp hF).2 (assign_step base s d)
    refine ⟨?_, ?_⟩
    · intro x hx
      have hx1 : x ≠ d := fun h => hx (h ▸ List.mem_cons_self _ _)
      have hx2 : x ∉ F := fun h => hx (List.mem_cons_of_mem _ h)
      simp only [List.foldl_cons]
      rw [ih1 x hx2]
      simp [assign_step, StdMap.find_insert, hx1]
    · intro i h
      cases i with
      | zero =>
        simp only [List.foldl_cons, List.getElem_cons_zero]
        rw [ih1 d hd]
        simp [assign_step, StdMap.find_insert]
      | succ i =>
        simp only [List.foldl_cons, List.getElem_cons_succ]
        rw [ih2 i (by simpa using h)]
        simp only [assign_step]
        push_cast
        congr 1
        ring

theorem assign_fold_r2u (base : Int) (F : List Int) (s : Numbering) :
    (∀ j, (j < base + s.size ∨ base + s.size + F.length ≤ j) →
      StdMap.find (F.foldl (assign_step base) s).restricted_to_unrestricted j
        = StdMap.find s.restricted_to_unrestricted j) ∧
    (∀ i (h : i < F.length),
      StdMap.find (F.foldl (assign_step base) s).restricted_to_unrestricted (base + s.size + i)
        = some F[i]) := by
  induction F generalizing s with
  | nil => simp
  | cons d F ih =>
    obtain ⟨ih1, ih2⟩ := ih (assign_step base s d)
    have hsz : (assign_step base s d).size = s.size + 1 := rfl
    refine ⟨?_, ?_⟩
    · intro j hj
      simp only [List.foldl_cons]
      rw [ih1 j (by simp only [hsz, List.length_cons] at hj ⊢; push_cast at hj; omega)]
      have : j ≠ base + s.size := by
        simp only [List.length_cons] at hj; push_cast at hj; omega
      simp [assign_step, StdMap.find_insert, this]
    · intro i h
      cases i with
      | zero =>
        simp only [List.foldl_cons, List.getElem_cons_zero]
        rw [ih1 _ (by simp only [hsz]; left; push_cast; omega)]
        simp [assign_step, StdMap.find_insert]
      | succ i =>
        simp only [List.foldl_cons, List.getElem_cons_succ]
        have := ih2 i (by simpa using h)
        rw [hsz] at this
        rw [← this]
        congr 1
        push_cast
        ring

theorem mem_owned_entries {n : Int} {ds : List Int} {x : Int} :
    x ∈ owned_entries n ds ↔ x ∈ ds ∧ x < n := by
  simp [owned_entries, List.mem_filter]

theorem mem_ghost_entries {n : Int} {ds : List Int} {x : Int} :
    x ∈ ghost_entries n ds ↔ x ∈ ds ∧ n ≤ x := by
  simp [ghost_entries, List.mem_filter]

theorem owned_entries_nodup {n : Int} {ds : List Int} (h : ds.Nodup) :
    (owned_entries n ds).Nodup := h.filter _

theorem ghost_entries_nodup {n : Int} {ds : List Int} (h : ds.Nodup) :
    (ghost_entries n ds).Nodup := h.filter _

theorem length_owned_add_ghost (n : Int) (ds : List Int) :
    (owned_entries n ds).length + (ghost_entries n ds).length = ds.length := by
  induction ds with
  | nil => rfl
  | cons d ds ih =>
    simp only [owned_entries, ghost_entries, List.filter_cons, List.length_cons] at ih ⊢
    by_cases h : d < n
    · have h' : ¬ d ≥ n := by omega
      simp only [h, h', decide_True, decide_False, if_true, List.length_cons]
      simp only [Bool.false_eq_true, if_false]
      omega
    · have h' : d ≥ n := by omega
      simp only [h, h', decide_True, decide_False, if_true, List.length_cons]
      simp only [Bool.false_eq_true, if_false]
      omega

theorem map_owned_dofs_size (n : Int) (ds : List Int) :
    (map_owned_dofs n ds).size = (owned_entries n ds).length := by
  simp [map_owned_dofs, owned_fold_filter, assign_fold_size]

theorem map_owned_dofs_u2r (n : Int) (ds : List Int) (hnd : ds.Nodup) :
    (∀ x, x ∉ owned_entries n ds →
      StdMap.find (map_owned_dofs n ds).unrestricted_to_restricted x = none) ∧
    (∀ k (h : k < (owned_entries n ds).length),
      StdMap.find (map_owned_dofs n ds).unrestricted_to_restricted (owned_entries n ds)[k]
        = some (k : Int)) := by
  obtain ⟨h1, h2⟩ := assign_fold_u2r 0 (owned_entries n ds) (owned_entries_nodup hnd) ⟨[], [], 0⟩
  simp only [map_owned_dofs, owned_fold_filter]
  refine ⟨fun x hx => ?_, fun k h => ?_⟩
  · rw [h1 x hx]; rfl
  · rw [h2 k h]; simp

theorem map_owned_dofs_r2u (n : Int) (ds : List Int) :
    (∀ j, (j < 0 ∨ ((owned_entries n ds).length : Int) ≤ j) →
      StdMap.find (map_owned_dofs n ds).restricted_to_unrestricted j = none) ∧
    (∀ k (h : k < (owned_entries n ds).length),
      StdMap.find (map_owned_dofs n ds).restricted_to_unrestricted (k : Int)
        = some (owned_entries n ds)[k]) := by
  obtain ⟨h1, h2⟩ := assign_fold_r2u 0 (owned_entries n ds) ⟨[], [], 0⟩
  simp only [map_owned_dofs, owned_fold_filter]
  refine ⟨fun j hj => ?_, fun k h => ?_⟩
  · rw [h1 j (by simpa using hj)]; rfl
  · have := h2 k h
    simpa using this

theorem local_maps_size (n : Int) (ds : List Int) :
    (local_maps n ds).size = (ghost_entries n ds).length := by
  simp [local_maps, map_ghost_numbering, ghost_fold_filter, assign_fold_size]

theorem local_maps_u2r (n : Int) (ds : List Int) (hnd : ds.Nodup) :
    (∀ x, x ∉ ds → StdMap.find (local_maps n ds).unrestricted_to_restricted x = none) ∧
    (∀ k (h : k < (owned_entries n ds).length),
      StdMap.find (local_maps n ds).unrestricted_to_restricted (owned_entries n ds)[k]
        = some (k : Int)) ∧
    (∀ k (h : k < (ghost_entries n ds).length),
      StdMap.find (local_maps n ds).unrestricted_to_restricted (ghost_entries n ds)[k]
        = some (((owned_entries n ds).length : Int) + k)) := by
  obtain ⟨o1, o2⟩ := map_owned_dofs_u2r n ds hnd
  obtain ⟨h1, h2⟩ := assign_fold_u2r (map_owned_dofs n ds).size (ghost_entries n ds)
    (ghost_entries_nodup hnd)
    ⟨(map_owned_dofs n ds).unrestricted_to_restricted,
      (map_owned_dofs n ds).restricted_to_unrestricted, 0⟩
  simp only [local_maps, map_ghost_numbering, ghost_fold_filter]
  refine ⟨fun x hx => ?_, fun k h => ?_, fun k h => ?_⟩
  · rw [h1 x (fun hm => hx (mem_ghost_entries.mp hm).1)]
    exact o1 x (fun hm => hx (mem_owned_entries.mp hm).1)
  · have hm : (owned_entries n ds)[k] ∈ owned_entries n ds := List.getElem_mem _
    have hlt := (mem_owned_entries.mp hm).2
    rw [h1 _ (fun hg => by have := (mem_ghost_entries.mp hg).2; omega)]
    exact o2 k h
  · rw [h2 k h, map_owned_dofs_size]
    simp

theorem local_maps_r2u (n : Int) (ds : List Int) :
    (∀ j, (j < 0 ∨ (ds.length : Int) ≤ j) →
      StdMap.find (local_maps n ds).restricted_to_unrestricted j = none) ∧
    (∀ k (h : k < (owned_entries n ds).length),
      StdMap.find (local_maps n ds).restricted_to_unrestricted (k : Int)
        = some (owned_entries n ds)[k]) ∧
    (∀ k (h : k < (ghost_entries n ds).length),
      StdMap.find (local_maps n ds).restricted_to_unrestricted
        (((owned_entries n ds).length : Int) + k) = some (ghost_entries n ds)[k]) := by
  obtain ⟨o1, o2⟩ := map_owned_dofs_r2u n ds
  obtain ⟨h1, h2⟩ := assign_fold_r2u (map_owned_dofs n ds).size (ghost_entries n ds)
    ⟨(map_owned_dofs n ds).unrestricted_to_restricted,
      (map_owned_dofs n ds).restricted_to_unrestricted, 0⟩
  have hlen := length_owned_add_ghost n ds
  simp only [local_maps, map_ghost_numbering, ghost_fold_filter]
  simp only [map_owned_dofs_size, add_zero] at h1 h2 ⊢
  refine ⟨fun j hj => ?_, fun k h => ?_, fun k h => ?_⟩
  · rw [h1 j (by omega)]
    exact o1 j (by omega)
  · rw [h1 _ (by omega)]
    exact o2 k h
  · exact h2 k h

/-! ## The numbering claims -/

/-- C1: for every owned size `n` and every duplicate-free restriction, `_map_owned_dofs` maps the
`k`-th entry of the restriction that is below `n`, in restriction order, to the restricted local
index `k`; `restricted_owned_size`, the size of the index map it builds, is the number of such
entries; and the map sends nothing else anywhere, so the owned restricted dofs occupy exactly
`[0, n_owned_restricted)`. -/
theorem map_owned_dofs_dense (n : Int) (restriction : List Int) (hnd : restriction.Nodup) :
    (map_owned_dofs n restriction).size = (owned_entries n restriction).length ∧
    (∀ k (h : k < (owned_entries n restriction).length),
      StdMap.find (map_owned_dofs n restriction).unrestricted_to_restricted
        (owned_entries n restriction)[k] = some (k : Int)) ∧
    (∀ d i, StdMap.find (map_owned_dofs n restriction).unrestricted_to_restricted d = some i →
      d ∈ owned_entries n restriction ∧ 0 ≤ i ∧ i < (map_owned_dofs n restriction).size) := by
  obtain ⟨h1, h2⟩ := map_owned_dofs_u2r n restriction hnd
  refine ⟨map_owned_dofs_size n restriction, h2, fun d i hd => ?_⟩
  by_cases hm : d ∈ owned_entries n restriction
  · obtain ⟨k, hk, rfl⟩ := List.mem_iff_getElem.mp hm
    rw [h2 k hk] at hd
    rw [map_owned_dofs_size]
    have : (k : Int) = i := by simpa using hd
    refine ⟨hm, ?_, ?_⟩ <;> omega
  · rw [h1 d hm] at hd
    cases hd

/-- The scenario of C1: five owned dofs and the restriction `[1, 3, 4]` give the owned map
`1 ↦ 0, 3 ↦ 1, 4 ↦ 2` and `n_owned_restricted = 3`. -/
theorem map_owned_dofs_dense_witness :
    (map_owned_dofs 5 [1, 3, 4]).size = 3 ∧
    (map_owned_dofs 5 [1, 3, 4]).unrestricted_to_restricted = [(1, 0), (3, 1), (4, 2)] :=
  ⟨(map_owned_dofs_dense 5 [1, 3, 4] (by decide)).1, by decide⟩

/-- C6: for every duplicate-free restriction, the first loop of `_map_ghost_dofs` maps the `k`-th
entry of the restriction that is at or above the unrestricted owned size, in restriction order,
to `n_owned_restricted + k`; its counter `restricted_ghost_size` is the number of such entries;
and every ghost key of the map has its value in
`[n_owned_restricted, n_owned_restricted + n_ghost_restricted)`. -/
theorem map_ghost_numbering_dense (n : Int) (restriction : List Int) (hnd : restriction.Nodup) :
    (local_maps n restriction).size = (ghost_entries n restriction).length ∧
    (∀ k (h : k < (ghost_entries n restriction).length),
      StdMap.find (local_maps n restriction).unrestricted_to_restricted
        (ghost_entries n restriction)[k] = some ((map_owned_dofs n restriction).size + (k : Int))) ∧
    (∀ d i, n ≤ d →
      StdMap.find (local_maps n restriction).unrestricted_to_restricted d = some i →
      d ∈ ghost_entries n restriction ∧ (map_owned_dofs n restriction).size ≤ i ∧
        i < (map_owned_dofs n restriction).size + (local_maps n restriction).size) := by
  obtain ⟨h0, _, h2⟩ := local_maps_u2r n restriction hnd
  rw [map_owned_dofs_size, local_maps_size]
  refine ⟨rfl, h2, fun d i hn hd => ?_⟩
  by_cases hm : d ∈ restriction
  · have hg : d ∈ ghost_entries n restriction := mem_ghost_entries.mpr ⟨hm, hn⟩
    obtain ⟨k, hk, rfl⟩ := List.mem_iff_getElem.mp hg
    rw [h2 k hk] at hd
    have : ((owned_entries n restriction).length : Int) + (k : Int) = i := by simpa using hd
    refine ⟨hg, ?_, ?_⟩ <;> omega
  · rw [h0 d hm] at hd
    cases hd

/-- An instance of C6: two owned dofs and the restriction `[3, 1, 2, 0]`, whose ghosts `3` and `2`
get the restricted local indices `2` and `3` after the two owned ones. -/
theorem map_ghost_numbering_dense_witness :
    (local_maps 2 [3, 1, 2, 0]).size = 2 ∧
    (local_maps 2 [3, 1, 2, 0]).unrestricted_to_restricted = [(0, 1), (1, 0), (2, 3), (3, 2)] :=
  ⟨(map_ghost_numbering_dense 2 [3, 1, 2, 0] (by decide)).1, by decide⟩

/-- C2: for every duplicate-free restriction, after the owned and the ghost numbering loops the
keys of `unrestricted_to_restricted` are exactly the entries of the restriction, the keys of
`restricted_to_unrestricted` are exactly `0, .., restriction.length - 1`, and the two maps are
inverse to each other. -/
theorem local_maps_bijective (n : Int) (restriction : List Int) (hnd : restriction.Nodup) :
    (∀ d, (StdMap.find (local_maps n restriction).unrestricted_to_restricted d).isSome
      ↔ d ∈ restriction) ∧
    (∀ i, (StdMap.find (local_maps n restriction).restricted_to_unrestricted i).isSome
      ↔ 0 ≤ i ∧ i < (restriction.length : Int)) ∧
    (∀ d, d ∈ restriction →
      ∃ i, StdMap.find (local_maps n restriction).unrestricted_to_restricted d = some i ∧
        StdMap.find (local_maps n restriction).restricted_to_unrestricted i = some d) ∧
    (∀ i, 0 ≤ i → i < (restriction.length : Int) →
      ∃ d, StdMap.find (local_maps n restriction).restricted_to_unrestricted i = some d ∧
        StdMap.find (local_maps n restriction).unrestricted_to_restricted d = some i) := by
  obtain ⟨u0, u1, u2⟩ := local_maps_u2r n restriction hnd
  obtain ⟨r0, r1, r2⟩ := local_maps_r2u n restriction
  have hlen := length_owned_add_ghost n restriction
  have fwd : ∀ d, d ∈ restriction →
      ∃ i, StdMap.find (local_maps n restriction).unrestricted_to_restricted d = some i ∧
        StdMap.find (local_maps n restriction).restricted_to_unrestricted i = some d := by
    intro d hd
    by_cases hlt : d < n
    · obtain ⟨k, hk, rfl⟩ := List.mem_iff_getElem.mp (mem_owned_entries.mpr ⟨hd, hlt⟩)
      exact ⟨k, u1 k hk, r1 k hk⟩
    · obtain ⟨k, hk, rfl⟩ :=
        List.mem_iff_getElem.mp (mem_ghost_entries.mpr ⟨hd, not_lt.mp hlt⟩)
      exact ⟨_, u2 k hk, r2 k hk⟩
  have bwd : ∀ i, 0 ≤ i → i < (restriction.length : Int) →
      ∃ d, StdMap.find (local_maps n restriction).restricted_to_unrestricted i = some d ∧
        StdMap.find (local_maps n restriction).unrestricted_to_restricted d = some i := by
    intro i h0 h1
    by_cases hlt : i < ((owned_entries n restriction).length : Int)
    · have hk : i.toNat < (owned_entries n restriction).length := by omega
      have hi : ((i.toNat : Nat) : Int) = i := Int.toNat_of_nonneg h0
      refine ⟨(owned_entries n restriction)[i.toNat], ?_, ?_⟩
      · have := r1 _ hk
        rwa [hi] at this
      · rw [u1 _ hk, hi]
    · have hk : (i - (owned_entries n restriction).length).toNat
          < (ghost_entries n restriction).length := by omega
      have hi : ((owned_entries n restriction).length : Int)
          + (((i - (owned_entries n restriction).length).toNat : Nat) : Int) = i := by omega
      refine ⟨(ghost_entries n restriction)[(i - (owned_entries n restriction).length).toNat],
        ?_, ?_⟩
      · have := r2 _ hk
        rwa [hi] at this
      · rw [u2 _ hk, hi]
  refine ⟨fun d => ⟨fun h => ?_, fun h => ?_⟩, fun i => ⟨fun h => ?_, fun h => ?_⟩, fwd, bwd⟩
  · by_contra hd
    rw [u0 d hd] at h
    cases h
  · obtain ⟨i, hi, _⟩ := fwd d h
    simp [hi]
  · by_contra hi
    rw [r0 i (by omega)] at h
    cases h
  · obtain ⟨d, hd, _⟩ := bwd i h.1 h.2
    simp [hd]

/-- An instance of C2: the restriction `[3, 1, 2, 0]` over two owned dofs; the restricted index of
dof `3` is `2`, and index `2` leads back to dof `3`. -/
theorem local_maps_bijective_witness :
    (StdMap.find (local_maps 2 [3, 1, 2, 0]).unrestricted_to_restricted 3).isSome ∧
    ∃ i, StdMap.find (local_maps 2 [3, 1, 2, 0]).unrestricted_to_restricted 3 = some i ∧
      StdMap.find (local_maps 2 [3, 1, 2, 0]).restricted_to_unrestricted i = some 3 :=
  ⟨((local_maps_bijective 2 [3, 1, 2, 0] (by decide)).1 3).mpr (by decide),
    (local_maps_bijective 2 [3, 1, 2, 0] (by decide)).2.2.1 3 (by decide)⟩

/-! ## Verification: fallible loops -/

theorem foldlE_append {σ α : Type} (f : σ → α → Except Error σ) (s : σ) (xs ys : List α) :
    foldlE f s (xs ++ ys) =
      match foldlE f s xs with
      | .ok s' => foldlE f s' ys
      | .error e => .error e := by
  induction xs generalizing s with
  | nil => rfl
  | cons x xs ih =>
    simp only [List.cons_append, foldlE]
    cases f s x with
    | error e => rfl
    | ok s' => exact ih s'

theorem mapE_ok {α β : Type} (f : α → Except Error β) (g : α → β) (xs : List α)
    (h : ∀ a, a ∈ xs → f a = .ok (g a)) : mapE f xs = .ok (xs.map g) := by
  induction xs with
  | nil => rfl
  | cons x xs ih =>
    simp only [mapE, h x (List.mem_cons_self _ _),
      ih (fun a ha => h a (List.mem_cons_of_mem _ ha)), List.map_cons]

/-! ## Verification: offsets and slices of flattened rows -/

theorem offsetsFrom_length (start : Nat) (rows : List (List Int)) :
    (offsetsFrom start rows).length = rows.length + 1 := by
  induction rows generalizing start with
  | nil => rfl
  | cons row rows ih => simp [offsetsFrom, ih]

theorem offsetsFrom_getD (start : Nat) (rows : List (List Int)) (k : Nat) (hk : k ≤ rows.length) :
    (offsetsFrom start rows).getD k 0 = start + ((rows.take k).map List.length).sum := by
  induction rows generalizing start k with
  | nil =>
    have : k = 0 := by simpa using hk
    subst this
    simp [offsetsFrom]
  | cons row rows ih =>
    cases k with
    | zero => simp [offsetsFrom]
    | succ k =>
      simp only [offsetsFrom, List.getD_cons_succ, List.take_succ_cons, List.map_cons,
        List.sum_cons]
      rw [ih _ k (by simpa using hk)]
      omega

theorem offsetsFrom_snoc (start : Nat) (rows : List (List Int)) (row : List Int) :
    offsetsFrom start (rows ++ [row])
      = offsetsFrom start rows ++ [start + (rows.map List.length).sum + row.length] := by
  induction rows generalizing start with
  | nil => simp [offsetsFrom]
  | cons r rows ih =>
    have e : start + r.length + (rows.map List.length).sum + row.length
      = start + (r.length + (rows.map List.length).sum) + row.length := by omega
    show start :: offsetsFrom (start + r.length) (rows ++ [row]) = _
    rw [ih, e]
    simp [offsetsFrom]

theorem flatten_slice (rows : List (List Int)) (k : Nat) (hk : k < rows.length) :
    (rows.flatten.drop ((rows.take k).map List.length).sum).take rows[k].length = rows[k] := by
  induction rows generalizing k with
  | nil => simp at hk
  | cons row rows ih =>
    cases k with
    | zero => simp
    | succ k =>
      simp only [List.flatten_cons, List.take_succ_cons, List.map_cons, List.sum_cons,
        List.getElem_cons_succ]
      rw [List.drop_append_eq_append_drop]
      have h1 : List.drop (row.length + ((rows.take k).map List.length).sum) row = [] :=
        List.drop_eq_nil_of_le (by omega)
      rw [h1, List.nil_append]
      have h2 : row.length + ((rows.take k).map List.length).sum - row.length
          = ((rows.take k).map List.length).sum := by omega
      rw [h2]
      exact ih k (by simpa using hk)

theorem links_ofLists (rows : List (List Int)) (k : Nat) (hk : k < rows.length) :
    (AdjacencyList.ofLists rows).links k = rows[k] := by
  simp only [AdjacencyList.links, AdjacencyList.ofLists]
  rw [offsetsFrom_getD 0 rows k (by omega), offsetsFrom_getD 0 rows (k + 1) (by omega)]
  have : ((rows.take (k + 1)).map List.length).sum
      = ((rows.take k).map List.length).sum + rows[k].length := by
    rw [List.take_succ, List.getElem?_eq_getElem hk]
    simp only [Option.toList, List.map_append, List.sum_append, List.map_cons, List.map_nil,
      List.sum_cons, List.sum_nil, Nat.add_zero]
  rw [this]
  simp only [Nat.zero_add, Nat.add_sub_cancel_left]
  exact flatten_slice rows k hk

/-! ## Verification: `_compute_cell_dofs` -/

theorem restrict_cell_eq (u2r : StdMap Int) (cell : List Int) :
    restrict_cell u2r cell = cell.filterMap (StdMap.find u2r) := by
  have key : ∀ (acc : List Int),
      cell.foldl (fun restricted_cell_dofs_c unrestricted_dof =>
        if StdMap.count u2r unrestricted_dof > 0 then
          restricted_cell_dofs_c ++ [(StdMap.find u2r unrestricted_dof).getD 0]
        else restricted_cell_dofs_c) acc = acc ++ cell.filterMap (StdMap.find u2r) := by
    induction cell with
    | nil => simp
    | cons d cell ih =>
      intro acc
      simp only [List.foldl_cons, List.filterMap_cons]
      cases hf : StdMap.find u2r d with
      | none =>
        have hc : ¬ StdMap.count u2r d > 0 := by simp [StdMap.count, hf]
        simp only [if_neg hc]
        exact ih acc
      | some v =>
        have hc : StdMap.count u2r d > 0 := by simp [StdMap.count, hf]
        simp only [if_pos hc, hf, Option.getD_some]
        rw [ih]
        simp
  simpa using key []

/-- The state of the first pass after the cells `0, .., k - 1`. -/
theorem first_pass_spec (u2r : StdMap Int) (cells : List (List Int)) (k : Nat) :
    (∀ c : Nat, StdMap.find ((List.range k).foldl (first_pass_step u2r cells) ([], 0)).1 (c : Int)
      = if c < k ∧ (restrict_cell u2r (cells.getD c [])).length > 0
        then some (restrict_cell u2r (cells.getD c [])) else none) ∧
    ((List.range k).foldl (first_pass_step u2r cells) ([], 0)).2
      = (((List.range k).map (fun c => restrict_cell u2r (cells.getD c []))).map List.length).sum := by
  induction k with
  | zero => simp [StdMap.find]
  | succ k ih =>
    obtain ⟨ih1, ih2⟩ := ih
    simp only [List.range_succ, List.foldl_append, List.foldl_cons, List.foldl_nil,
      List.map_append, List.map_cons, List.map_nil, List.sum_append, List.sum_cons,
      List.sum_nil, Nat.add_zero]
    by_cases hpos : (restrict_cell u2r (cells.getD k [])).length > 0
    · refine ⟨fun c => ?_, ?_⟩
      · simp only [first_pass_step, if_pos hpos, StdMap.find_insert]
        by_cases hc : c = k
        · subst hc
          rw [ih1 c, if_pos rfl, if_neg (by omega), if_pos ⟨by omega, hpos⟩]
          rfl
        · have hc' : (c : Int) ≠ (k : Int) := by exact_mod_cast hc
          rw [if_neg hc', ih1 c]
          by_cases hlt : c < k
          · have : c < k + 1 := by omega
            simp [hlt, this]
          · have : ¬ c < k + 1 := by omega
            simp [hlt, this]
      · simp only [first_pass_step, if_pos hpos, ih2]
    · refine ⟨fun c => ?_, ?_⟩
      · simp only [first_pass_step, if_neg hpos]
        rw [ih1 c]
        by_cases hc : c = k
        · subst hc
          rw [if_neg (by omega), if_neg (fun h => hpos h.2)]
        · by_cases hlt : c < k
          · have : c < k + 1 := by omega
            simp [hlt, this]
          · have : ¬ c < k + 1 := by omega
            simp [hlt, this]
      · simp only [first_pass_step, if_neg hpos, ih2]
        have : (restrict_cell u2r (cells.getD k [])).length = 0 := by omega
        omega

theorem range_map_getD {β : Type} (cells : List (List Int)) (f : List Int → β) :
    (List.range cells.length).map (fun c => f (cells.getD c [])) = cells.map f := by
  apply List.ext_getElem
  · simp
  · intro i h1 h2
    simp only [List.getElem_map, List.getElem_range]
    have hi : i < cells.length := by simpa using h2
    rw [List.getD_eq_getElem _ _ hi]

theorem sum_range_mono (g : Nat → Nat) (k n : Nat) (h : k ≤ n) :
    ((List.range k).map g).sum ≤ ((List.range n).map g).sum := by
  induction n, h using Nat.le_induction with
  | base => exact Nat.le_refl _
  | succ n _ ih =>
    simp only [List.range_succ, List.map_append, List.sum_append, List.map_cons, List.map_nil,
      List.sum_cons, List.sum_nil]
    omega

/-- The state of the second pass after the cells `0, .., k - 1`, run on the result of the first
pass over all cells: the assertion holds at every cell. -/
theorem second_pass_spec (u2r : StdMap Int) (cells : List (List Int)) (k : Nat)
    (hk : k ≤ cells.length) :
    foldlE (second_pass_step
        ((List.range cells.length).foldl (first_pass_step u2r cells) ([], 0)).1
        ((List.range cells.length).foldl (first_pass_step u2r cells) ([], 0)).2)
      ⟨[], [0], 0⟩ (List.range k)
    = .ok ⟨((List.range k).map (fun c => restrict_cell u2r (cells.getD c []))).flatten,
        offsetsFrom 0 ((List.range k).map (fun c => restrict_cell u2r (cells.getD c []))),
        (((List.range k).map (fun c => restrict_cell u2r (cells.getD c []))).map
          List.length).sum⟩ := by
  obtain ⟨f1, f2⟩ := first_pass_spec u2r cells cells.length
  induction k with
  | zero => rfl
  | succ k ih =>
    have hk' : k < cells.length := hk
    rw [List.range_succ, foldlE_append, ih (by omega)]
    simp only [foldlE]
    have hmono := sum_range_mono (fun c => (restrict_cell u2r (cells.getD c [])).length)
      (k + 1) cells.length hk
    simp only [List.range_succ, List.map_append, List.sum_append, List.map_cons, List.map_nil,
      List.sum_cons, List.sum_nil, Nat.add_zero] at hmono
    simp only [List.map_append, List.map_cons, List.map_nil, List.flatten_append,
      List.sum_append, List.sum_cons, List.sum_nil, Nat.add_zero, offsetsFrom_snoc,
      Nat.zero_add, List.map_map]
    by_cases hpos : (restrict_cell u2r (cells.getD k [])).length > 0
    · have hfind := f1 k
      rw [if_pos ⟨hk', hpos⟩] at hfind
      have hcount : StdMap.count
          ((List.range cells.length).foldl (first_pass_step u2r cells) ([], 0)).1 (k : Int) > 0 := by
        simp [StdMap.count, hfind]
      simp only [second_pass_step, if_pos hcount, StdMap.lookupAt, hfind, bind, Except.bind]
      rw [f2]
      simp only [List.map_map, Function.comp_def]
      rw [if_pos hmono]
      simp
    · have hfind := f1 k
      rw [if_neg (fun h => hpos h.2)] at hfind
      have hcount : ¬ StdMap.count
          ((List.range cells.length).foldl (first_pass_step u2r cells) ([], 0)).1 (k : Int) > 0 := by
        simp [StdMap.count, hfind]
      have hnil : restrict_cell u2r (cells.getD k []) = [] :=
        List.eq_nil_of_length_eq_zero (by omega)
      simp only [second_pass_step, if_neg hcount, hnil]
      simp

/-- The table that `_compute_cell_dofs` builds, in closed form. -/
theorem compute_cell_dofs_eq (u2r : StdMap Int) (cells : List (List Int)) :
    compute_cell_dofs u2r cells
      = .ok ⟨(cells.map (restrict_cell u2r)).flatten, offsetsFrom 0 (cells.map (restrict_cell u2r)),
          ((cells.map (restrict_cell u2r)).map List.length).sum⟩ := by
  have h := second_pass_spec u2r cells cells.length (Nat.le_refl _)
  rw [range_map_getD cells (restrict_cell u2r)] at h
  exact h

theorem cell_slice_eq (u2r : StdMap Int) (cells : List (List Int)) (c : Nat)
    (hc : c < cells.length) :
    cell_slice ⟨(cells.map (restrict_cell u2r)).flatten,
        offsetsFrom 0 (cells.map (restrict_cell u2r)),
        ((cells.map (restrict_cell u2r)).map List.length).sum⟩ c
      = cells[c].filterMap (StdMap.find u2r) := by
  have h := links_ofLists (cells.map (restrict_cell u2r)) c (by simpa using hc)
  simp only [AdjacencyList.links, AdjacencyList.ofLists, List.getElem_map] at h
  simp only [cell_slice]
  rw [h, restrict_cell_eq]

theorem offsetsFrom_getElem? (start : Nat) (rows : List (List Int)) (k : Nat)
    (hk : k ≤ rows.length) :
    (offsetsFrom start rows)[k]? = some (start + ((rows.take k).map List.length).sum) := by
  have hlt : k < (offsetsFrom start rows).length := by rw [offsetsFrom_length]; omega
  rw [List.getElem?_eq_getElem hlt, ← offsetsFrom_getD start rows k hk,
    List.getD_eq_getElem _ _ hlt]

theorem count_filterMap (f : Int → Option Int) (l : List Int) (v : Int) :
    (l.filterMap f).count v = l.countP (fun d => decide (f d = some v)) := by
  induction l with
  | nil => rfl
  | cons d l ih =>
    simp only [List.filterMap_cons, List.countP_cons]
    cases hf : f d with
    | none => simp [ih]
    | some w =>
      simp only [List.count_cons, ih, Option.some.injEq, beq_iff_eq, decide_eq_true_eq]

theorem length_filterMap_eq_countP (f : Int → Option Int) (l : List Int) :
    (l.filterMap f).length = l.countP (fun d => (f d).isSome) := by
  induction l with
  | nil => rfl
  | cons d l ih =>
    simp only [List.filterMap_cons, List.countP_cons]
    cases hf : f d with
    | none => simp [ih]
    | some w => simp [ih]

/-! ## The cell table claims -/

/-- C5: for every unrestricted cell-dof table and every map `unrestricted_to_restricted`,
`_compute_cell_dofs` returns, and for every cell `c` the slice
`_dof_array[_cell_bounds[c] : _cell_bounds[c + 1]]` is the dof list of the cell with the dofs
that are not keys of the map removed and every other dof replaced by its restricted local index,
in the original order. -/
theorem compute_cell_dofs_slice (u2r : StdMap Int) (cells : List (List Int)) :
    ∃ t, compute_cell_dofs u2r cells = .ok t ∧
      ∀ c (h : c < cells.length), cell_slice t c = cells[c].filterMap (StdMap.find u2r) :=
  ⟨_, compute_cell_dofs_eq u2r cells, fun c h => cell_slice_eq u2r cells c h⟩

/-- The scenario of C5: a cell with the dofs `[2, 5, 7]` and the map `5 ↦ 0` has the slice
`[0]`. -/
theorem compute_cell_dofs_slice_witness :
    ∃ t, compute_cell_dofs [(5, 0)] [[2, 5, 7]] = .ok t ∧ cell_slice t 0 = [0] := by
  obtain ⟨t, h, hs⟩ := compute_cell_dofs_slice [(5, 0)] [[2, 5, 7]]
  exact ⟨t, h, by rw [hs 0 (by decide)]; decide⟩

/-- C9: for every unrestricted cell-dof table, `_cell_bounds` has `num_cells + 1` entries, and a
cell none of whose dofs is a key of `unrestricted_to_restricted` keeps its slot:
`_cell_bounds[c + 1] = _cell_bounds[c]`. -/
theorem compute_cell_dofs_bounds (u2r : StdMap Int) (cells : List (List Int)) :
    ∃ t, compute_cell_dofs u2r cells = .ok t ∧
      t.cell_bounds.length = cells.length + 1 ∧
      ∀ c (h : c < cells.length), (∀ d, d ∈ cells[c] → StdMap.find u2r d = none) →
        ∃ b, t.cell_bounds[c]? = some b ∧ t.cell_bounds[c + 1]? = some b := by
  refine ⟨_, compute_cell_dofs_eq u2r cells, ?_, fun c h hnone => ?_⟩
  · simp [offsetsFrom_length]
  · have hc : c < (cells.map (restrict_cell u2r)).length := by simpa using h
    have hrow : (cells.map (restrict_cell u2r))[c] = [] := by
      rw [List.getElem_map, restrict_cell_eq]
      exact List.filterMap_eq_nil_iff.mpr hnone
    refine ⟨_, offsetsFrom_getElem? 0 _ c (by omega), ?_⟩
    show (offsetsFrom 0 (cells.map (restrict_cell u2r)))[c + 1]? = _
    rw [offsetsFrom_getElem? 0 _ (c + 1) (by omega), List.take_succ,
      List.getElem?_eq_getElem hc, hrow]
    simp

/-- An instance of C9: of three cells the middle one has no restricted dof; the table has four
bounds and the second and the third are equal. -/
theorem compute_cell_dofs_bounds_witness :
    ∃ t, compute_cell_dofs [(5, 0)] [[2, 5, 7], [1, 2, 3], [5, 5, 1]] = .ok t ∧
      t.cell_bounds.length = 4 ∧ ∃ b, t.cell_bounds[1]? = some b ∧ t.cell_bounds[2]? = some b := by
  obtain ⟨t, h, hl, hb⟩ := compute_cell_dofs_bounds [(5, 0)] [[2, 5, 7], [1, 2, 3], [5, 5, 1]]
  exact ⟨t, h, hl, hb 1 (by decide) (by decide)⟩

/-- C10: for every cell `c`, every restricted index in the slice of `c` is
`unrestricted_to_restricted[d]` for a dof `d` of the cell; every value occurs in the slice as
often as dofs mapped to it occur in the dof list of the cell, one entry per occurrence; and the
length of the slice is the number of dofs of the cell that are keys of the map. -/
theorem compute_cell_dofs_containment (u2r : StdMap Int) (cells : List (List Int)) :
    ∃ t, compute_cell_dofs u2r cells = .ok t ∧
      ∀ c (h : c < cells.length),
        (∀ x, x ∈ cell_slice t c → ∃ d, d ∈ cells[c] ∧ StdMap.find u2r d = some x) ∧
        (∀ v, (cell_slice t c).count v
          = cells[c].countP (fun d => decide (StdMap.find u2r d = some v))) ∧
        (cell_slice t c).length = cells[c].countP (fun d => (StdMap.find u2r d).isSome) := by
  refine ⟨_, compute_cell_dofs_eq u2r cells, fun c h => ?_⟩
  rw [cell_slice_eq u2r cells c h]
  refine ⟨fun x hx => ?_, fun v => count_filterMap _ _ v, length_filterMap_eq_countP _ _⟩
  obtain ⟨d, hd, hf⟩ := List.mem_filterMap.mp hx
  exact ⟨d, hd, hf⟩

/-- An instance of C10: the cell `[5, 5, 1]` under the map `5 ↦ 0` has a slice of length two in
which the value `0` occurs twice, once per occurrence of the dof `5`. -/
theorem compute_cell_dofs_containment_witness :
    ∃ t, compute_cell_dofs [(5, 0)] [[2, 5, 7], [1, 2, 3], [5, 5, 1]] = .ok t ∧
      (cell_slice t 2).count 0 = 2 ∧ (cell_slice t 2).length = 2 := by
  obtain ⟨t, h, hs⟩ := compute_cell_dofs_containment [(5, 0)] [[2, 5, 7], [1, 2, 3], [5, 5, 1]]
  obtain ⟨_, h2, h3⟩ := hs 2 (by decide)
  exact ⟨t, h, by rw [h2 0]; decide, by rw [h3]; decide⟩

/-! ## Verification: scattering into send buffers -/

theorem foldlE_flatMap {σ α β : Type} (f : σ → β → Except Error σ) (T : α → List β) (s : σ)
    (rs : List α) :
    foldlE (fun s r => foldlE f s (T r)) s rs = foldlE f s (rs.flatMap T) := by
  induction rs generalizing s with
  | nil => rfl
  | cons r rs ih =>
    simp only [foldlE, List.flatMap_cons, foldlE_append]
    cases foldlE f s (T r) with
    | error e => rfl
    | ok s' => exact ih s'

theorem foldlE_congr {σ α : Type} (f g : σ → α → Except Error σ) (s : σ) (xs : List α)
    (h : ∀ s x, x ∈ xs → f s x = g s x) : foldlE f s xs = foldlE g s xs := by
  induction xs generalizing s with
  | nil => rfl
  | cons x xs ih =>
    simp only [foldlE, h s x (List.mem_cons_self _ _)]
    cases g s x with
    | error e => rfl
    | ok s' => exact ih s' (fun s y hy => h s y (List.mem_cons_of_mem _ hy))

/-- A loop whose body keeps an invariant or fails with `e` does the same as a whole. -/
theorem foldlE_inv {σ α : Type} (f : σ → α → Except Error σ) (I : σ → Prop) (e : Error)
    (xs : List α)
    (h : ∀ s x, x ∈ xs → I s → f s x = .error e ∨ ∃ s', f s x = .ok s' ∧ I s')
    (s : σ) (hs : I s) :
    foldlE f s xs = .error e ∨ ∃ s', foldlE f s xs = .ok s' ∧ I s' := by
  induction xs generalizing s with
  | nil => exact Or.inr ⟨s, rfl, hs⟩
  | cons x xs ih =>
    simp only [foldlE]
    rcases h s x (List.mem_cons_self _ _) hs with he | ⟨s', hs', hI⟩
    · rw [he]; exact Or.inl rfl
    · rw [hs']
      exact ih (fun s y hy => h s y (List.mem_cons_of_mem _ hy)) s' hI

/-- A loop whose body keeps an invariant or fails with `e`, and fails on one item, fails. -/
theorem foldlE_error {σ α : Type} (f : σ → α → Except Error σ) (I : σ → Prop) (e : Error)
    (xs : List α)
    (h : ∀ s x, x ∈ xs → I s → f s x = .error e ∨ ∃ s', f s x = .ok s' ∧ I s')
    (x0 : α) (hx0 : x0 ∈ xs) (hfail : ∀ s, I s → f s x0 = .error e)
    (s : σ) (hs : I s) :
    foldlE f s xs = .error e := by
  induction xs generalizing s with
  | nil => cases hx0
  | cons x xs ih =>
    simp only [foldlE]
    rcases h s x (List.mem_cons_self _ _) hs with he | ⟨s', hs', hI⟩
    · rw [he]
    · rw [hs']
      rcases List.mem_cons.mp hx0 with rfl | hmem
      · rw [hfail s hs] at hs'
        cases hs'
      · exact ih (fun s y hy => h s y (List.mem_cons_of_mem _ hy)) hmem s' hI

theorem mapE_error {α β : Type} (f : α → Except Error β) (e : Error) (xs : List α)
    (h : ∀ a, a ∈ xs → f a = .error e ∨ ∃ b, f a = .ok b)
    (a0 : α) (ha0 : a0 ∈ xs) (hfail : f a0 = .error e) : mapE f xs = .error e := by
  induction xs with
  | nil => cases ha0
  | cons x xs ih =>
    simp only [mapE]
    rcases h x (List.mem_cons_self _ _) with he | ⟨b, hb⟩
    · rw [he]
    · rw [hb]
      rcases List.mem_cons.mp ha0 with rfl | hmem
      · rw [hfail] at hb
        cases hb
      · rw [ih (fun a ha => h a (List.mem_cons_of_mem _ ha)) hmem]

theorem pushAt_ok (buf : List (List Int)) (i : Int) (xs : List Int) (h0 : 0 ≤ i)
    (h1 : i.toNat < buf.length) :
    pushAt buf i xs = .ok (buf.set i.toNat (buf.getD i.toNat [] ++ xs)) := by
  simp [pushAt, h0, h1]

theorem collect_nil {α : Type} (sel : α → Bool) (dest : α → Int) (payload : α → List Int)
    (o : Nat) : collect sel dest payload [] o = [] := rfl

theorem collect_cons {α : Type} (sel : α → Bool) (dest : α → Int) (payload : α → List Int)
    (x : α) (xs : List α) (o : Nat) :
    collect sel dest payload (x :: xs) o
      = (if sel x = true ∧ dest x = (o : Int) then payload x else [])
        ++ collect sel dest payload xs o := by
  simp only [collect, List.filter_cons]
  by_cases h : sel x = true ∧ dest x = (o : Int)
  · simp [h]
  · rw [if_neg h]
    have : (sel x && decide (dest x = (o : Int))) = false := by
      rcases Bool.eq_false_or_eq_true (sel x) with hs | hs
      · have hd : ¬ dest x = (o : Int) := fun hd => h ⟨hs, hd⟩
        simp [hs, hd]
      · simp [hs]
    simp [this]

/-- A loop that pushes, for every selected item, its payload to its destination, fills the
buffers with what `collect` describes, when every destination is a rank. -/
theorem foldlE_scatter {α : Type} (f : List (List Int) → α → Except Error (List (List Int)))
    (sel : α → Bool) (dest : α → Int) (payload : α → List Int) (n : Nat) (xs : List α)
    (hf : ∀ buf x, x ∈ xs → buf.length = n →
      f buf x = if sel x = true then pushAt buf (dest x) (payload x) else .ok buf)
    (hd : ∀ x, x ∈ xs → sel x = true → 0 ≤ dest x ∧ (dest x).toNat < n)
    (buf : List (List Int)) (hlen : buf.length = n) :
    foldlE f buf xs
      = .ok ((List.range n).map (fun o => buf.getD o [] ++ collect sel dest payload xs o)) := by
  induction xs generalizing buf with
  | nil =>
    simp only [foldlE, collect_nil, List.append_nil]
    congr 1
    apply List.ext_getElem
    · simp [hlen]
    · intro i h1 h2
      simp only [List.getElem_map, List.getElem_range]
      rw [List.getD_eq_getElem _ _ h1]
  | cons x xs ih =>
    have hf' : ∀ buf y, y ∈ xs → buf.length = n →
        f buf y = if sel y = true then pushAt buf (dest y) (payload y) else .ok buf :=
      fun buf y hy => hf buf y (List.mem_cons_of_mem _ hy)
    have hd' : ∀ y, y ∈ xs → sel y = true → 0 ≤ dest y ∧ (dest y).toNat < n :=
      fun y hy => hd y (List.mem_cons_of_mem _ hy)
    simp only [foldlE]
    rw [hf buf x (List.mem_cons_self _ _) hlen]
    by_cases hs : sel x = true
    · obtain ⟨h0, h1⟩ := hd x (List.mem_cons_self _ _) hs
      rw [if_pos hs, pushAt_ok buf (dest x) (payload x) h0 (by omega)]
      simp only []
      rw [ih hf' hd' _ (by simp [hlen])]
      congr 1
      apply List.map_congr_left
      intro o ho
      rw [collect_cons]
      by_cases hdo : dest x = (o : Int)
      · have ho' : (dest x).toNat = o := by omega
        rw [if_pos ⟨hs, hdo⟩, ho']
        have hlt : o < buf.length := by rw [hlen]; exact List.mem_range.mp ho
        simp [List.getD_eq_getElem?_getD, List.getElem?_set, hlt]
      · have ho' : (dest x).toNat ≠ o := by omega
        rw [if_neg (fun h => hdo h.2)]
        simp [List.getD_eq_getElem?_getD, List.getElem?_set, ho']
    · rw [if_neg hs]
      simp only []
      rw [ih hf' hd' buf hlen]
      congr 1
      apply List.map_congr_left
      intro o _
      rw [collect_cons, if_neg (fun h => hs h.1)]
      rfl

/-! ## Verification: `all_to_all` -/

theorem adjacentDifferenceFrom_offsetsFrom (prev start : Nat) (rows : List (List Int)) :
    adjacentDifferenceFrom prev (offsetsFrom start rows)
      = (start - prev) :: rows.map List.length := by
  induction rows generalizing prev start with
  | nil => rfl
  | cons row rows ih =>
    simp only [offsetsFrom, adjacentDifferenceFrom, ih, List.map_cons]
    congr 2
    omega

theorem send_size_ofLists (rows : List (List Int)) :
    send_size (AdjacencyList.ofLists rows) = rows.map List.length := by
  cases rows with
  | nil => rfl
  | cons row rows =>
    simp only [send_size, AdjacencyList.ofLists, offsetsFrom, List.tail_cons, List.map_cons]
    cases rows with
    | nil => simp [offsetsFrom, adjacent_difference, adjacentDifferenceFrom]
    | cons row2 rows =>
      simp only [offsetsFrom, adjacent_difference, adjacentDifferenceFrom_offsetsFrom,
        List.map_cons]
      simp

theorem partialSumFrom_lengths (start : Nat) (rows : List (List Int)) :
    start :: partialSumFrom start (rows.map List.length) = offsetsFrom start rows := by
  induction rows generalizing start with
  | nil => rfl
  | cons row rows ih =>
    simp only [List.map_cons, partialSumFrom, offsetsFrom, ih]

theorem num_nodes_ofLists (rows : List (List Int)) :
    (AdjacencyList.ofLists rows).num_nodes = rows.length := by
  simp [AdjacencyList.num_nodes, AdjacencyList.ofLists, offsetsFrom_length]

theorem all_to_all_rank_ofLists (bufs : List (List (List Int))) (j : Nat)
    (h : ∀ b, b ∈ bufs → j < b.length) :
    all_to_all_rank (bufs.map AdjacencyList.ofLists) j
      = AdjacencyList.ofLists (bufs.map (fun b => b.getD j [])) := by
  simp only [all_to_all_rank, List.map_map, partial_sum]
  have hsize : bufs.map ((fun s => (send_size s).getD j 0) ∘ AdjacencyList.ofLists)
      = (bufs.map (fun b => b.getD j [])).map List.length := by
    rw [List.map_map]
    apply List.map_congr_left
    intro b hb
    have hj := h b hb
    simp only [Function.comp, send_size_ofLists]
    rw [List.getD_eq_getElem _ _ (by simpa using hj), List.getD_eq_getElem _ _ hj,
      List.getElem_map]
  have hval : bufs.map ((fun s => (s.array.drop (s.offsets.getD j 0)).take
        ((send_size s).getD j 0)) ∘ AdjacencyList.ofLists)
      = bufs.map (fun b => b.getD j []) := by
    apply List.map_congr_left
    intro b hb
    have hj := h b hb
    simp only [Function.comp, send_size_ofLists]
    show ((AdjacencyList.ofLists b).array.drop ((AdjacencyList.ofLists b).offsets.getD j 0)).take
      ((b.map List.length).getD j 0) = b.getD j []
    simp only [AdjacencyList.ofLists]
    rw [offsetsFrom_getD 0 b j (by omega), List.getD_eq_getElem _ _ (by simpa using hj),
      List.getD_eq_getElem _ _ hj, List.getElem_map, Nat.zero_add]
    exact flatten_slice b j hj
  rw [hsize, hval, partialSumFrom_lengths]
  rfl

/-- The exchange: when every rank holds one buffer per rank, rank `j` receives, as node `i`,
the buffer that rank `i` built for `j`. -/
theorem all_to_all_ofLists (bufs : List (List (List Int)))
    (h : ∀ b, b ∈ bufs → b.length = bufs.length) :
    all_to_all (bufs.map AdjacencyList.ofLists)
      = .ok ((List.range bufs.length).map
          (fun j => AdjacencyList.ofLists (bufs.map (fun b => b.getD j [])))) := by
  have hall : (bufs.map AdjacencyList.ofLists).all
      (fun s => s.num_nodes == bufs.length) = true := by
    rw [List.all_eq_true]
    intro s hs
    obtain ⟨b, hb, rfl⟩ := List.mem_map.mp hs
    simp [num_nodes_ofLists, h b hb]
  simp only [all_to_all, List.length_map, hall, if_true]
  congr 1
  apply List.map_congr_left
  intro j hj
  exact all_to_all_rank_ofLists bufs j (fun b hb => by rw [h b hb]; exact List.mem_range.mp hj)

theorem received_links (bufs : List (List (List Int))) (i j : Nat) (hi : i < bufs.length)
    (hj : j < bufs.length) :
    (((List.range bufs.length).map
        (fun j => AdjacencyList.ofLists (bufs.map (fun b => b.getD j [])))).getD j default).links i
      = (bufs.getD i []).getD j [] := by
  rw [List.getD_eq_getElem _ _ (by simpa using hj), List.getElem_map, List.getElem_range,
    links_ofLists _ i (by simpa using hi), List.getElem_map, List.getD_eq_getElem _ _ hi]

/-! ## Verification: vectors and index maps -/

theorem vecGet_ok (xs : List Int) (i : Int) (h0 : 0 ≤ i) (h1 : i.toNat < xs.length) :
    vecGet xs i = .ok (xs.getD i.toNat 0) := by
  simp only [vecGet, if_pos h0, List.getElem?_eq_getElem h1, List.getD_eq_getElem _ _ h1]

theorem vecSet_ok (xs : List Int) (i : Int) (x : Int) (h0 : 0 ≤ i) (h1 : i.toNat < xs.length) :
    vecSet xs i x = .ok (xs.set i.toNat x) := by
  simp [vecSet, h0, h1]

theorem global_indices_ghost (im : IndexMap) (d : Int) (hn : 0 ≤ im.size_local)
    (hd : im.size_local ≤ d) (hk : (d - im.size_local).toNat < im.ghosts.length) :
    vecGet im.global_indices d = .ok (im.ghosts.getD (d - im.size_local).toNat 0) := by
  have h0 : 0 ≤ d := by omega
  have hlen : im.global_indices.length = im.size_local.toNat + im.ghosts.length := by
    simp [IndexMap.global_indices]
  rw [vecGet_ok _ d h0 (by rw [hlen]; omega)]
  congr 1
  simp only [IndexMap.global_indices, List.getD_eq_getElem?_getD]
  rw [List.getElem?_append_right (by simp; omega)]
  congr 2
  simp only [List.length_map, List.length_range]
  omega

theorem global_indices_owned (im : IndexMap) (j : Int) (h0 : 0 ≤ j) (h1 : j < im.size_local) :
    vecGet im.global_indices j = .ok (im.range0 + j) := by
  have hlen : im.global_indices.length = im.size_local.toNat + im.ghosts.length := by
    simp [IndexMap.global_indices]
  rw [vecGet_ok _ j h0 (by rw [hlen]; omega)]
  congr 1
  simp only [IndexMap.global_indices, List.getD_eq_getElem?_getD]
  rw [List.getElem?_append_left (by simp; omega)]
  simp only [List.getElem?_map]
  rw [List.getElem?_range (by omega)]
  simp only [Option.map_some', Option.getD_some]
  omega

theorem getD_replicate_nil (n o : Nat) :
    (List.replicate n ([] : List Int)).getD o [] = [] := by
  rw [List.getD_eq_getElem?_getD, List.getElem?_replicate]
  split <;> rfl

/-! ## Verification: the state of a rank -/

theorem state_of_dofmap (world : List (DofMap × List Int)) (r : Nat) :
    (state_of world r).dofmap = dofmap_of world r := rfl

theorem state_of_restriction (world : List (DofMap × List Int)) (r : Nat) :
    (state_of world r).restriction = restriction_of world r := rfl

theorem state_of_maps (world : List (DofMap × List Int)) (r : Nat) :
    (state_of world r).maps
      = local_maps (dofmap_of world r).index_map.size_local (restriction_of world r) := rfl

theorem state_of_size_local (world : List (DofMap × List Int)) (r : Nat)
    (hr : r < world.length) :
    (state_of world r).index_map.size_local
      = (map_owned_dofs (dofmap_of world r).index_map.size_local (restriction_of world r)).size := by
  simp only [state_of, rank_state, IndexMap.create, restricted_owned_sizes]
  rw [List.getD_eq_getElem _ _ (by simpa using hr), List.getElem_map,
    dofmap_of, restriction_of, List.getD_eq_getElem _ _ hr]

theorem state_of_ghosts (world : List (DofMap × List Int)) (r : Nat) :
    (state_of world r).index_map.ghosts = [] := rfl

/-! ## Verification: round 1 -/

theorem step1_body_eq (world : List (DofMap × List Int)) (hv : ValidWorld world)
    (hr : ValidRestrictions world) (r : Nat) (hrP : r < world.length)
    (buf : List (List Int)) (d : Int) (hd : d ∈ restriction_of world r) :
    step1_body (state_of world r) r buf d
      = if decide (d ≥ (dofmap_of world r).index_map.size_local) = true
        then pushAt buf (ghost_owner (dofmap_of world r) d)
          (enc3 (d, ghost_global (dofmap_of world r) d, (r : Int)))
        else .ok buf := by
  obtain ⟨hn, hlen, hg⟩ := hv r hrP
  have hlt := hr r hrP d hd
  simp only [step1_body, state_of_dofmap, decide_eq_true_eq]
  by_cases hge : d ≥ (dofmap_of world r).index_map.size_local
  · have hk : (d - (dofmap_of world r).index_map.size_local).toNat
        < (dofmap_of world r).index_map.ghosts.length := by omega
    obtain ⟨_, _, hne, _, _⟩ := hg _ hk
    rw [if_pos hge, if_pos hge, global_indices_ghost _ d hn hge hk,
      vecGet_ok _ _ (by omega) (by rw [hlen]; simpa using hk)]
    simp only [bind, Except.bind]
    have hne' : ¬ ghost_owner (dofmap_of world r) d = (r : Int) := hne
    have e : (dofmap_of world r).index_map.owners.getD
        (d - (dofmap_of world r).index_map.size_local).toNat 0
        = ghost_owner (dofmap_of world r) d := rfl
    rw [e, if_neg hne']
    rfl
  · rw [if_neg hge, if_neg hge]

theorem step1_compute_eq (world : List (DofMap × List Int)) (hv : ValidWorld world)
    (hr : ValidRestrictions world) (r : Nat) (hrP : r < world.length) :
    step1_compute world.length r (state_of world r)
      = .ok ((List.range world.length).map
          (fun o => ((requests world r o).map enc3).flatten)) := by
  obtain ⟨hn, hlen, hg⟩ := hv r hrP
  simp only [step1_compute, state_of_restriction]
  rw [foldlE_scatter (step1_body (state_of world r) r)
    (fun d => decide (d ≥ (dofmap_of world r).index_map.size_local))
    (ghost_owner (dofmap_of world r))
    (fun d => enc3 (d, ghost_global (dofmap_of world r) d, (r : Int)))
    world.length (restriction_of world r)
    (fun buf d hd _ => step1_body_eq world hv hr r hrP buf d hd)
    (fun d hd hs => by
      have hge : d ≥ (dofmap_of world r).index_map.size_local := by simpa using hs
      have hlt := hr r hrP d hd
      have hk : (d - (dofmap_of world r).index_map.size_local).toNat
          < (dofmap_of world r).index_map.ghosts.length := by omega
      obtain ⟨h0, h1, _, _, _⟩ := hg _ hk
      exact ⟨h0, h1⟩)
    _ (by simp)]
  congr 1
  apply List.map_congr_left
  intro o _
  simp only [collect, requests, List.map_map, Function.comp_def, getD_replicate_nil,
    List.nil_append]

/-! ## Verification: the local maps of any restriction -/

theorem assign_fold_u2r_range (base : Int) (F : List Int) (s : Numbering) :
    (∀ x, x ∉ F → StdMap.find (F.foldl (assign_step base) s).unrestricted_to_restricted x
        = StdMap.find s.unrestricted_to_restricted x) ∧
    (∀ x, x ∈ F → ∃ i,
      StdMap.find (F.foldl (assign_step base) s).unrestricted_to_restricted x = some i ∧
        base + s.size ≤ i ∧ i < base + s.size + F.length) := by
  induction F generalizing s with
  | nil => simp
  | cons d F ih =>
    obtain ⟨ih1, ih2⟩ := ih (assign_step base s d)
    have hsz : (assign_step base s d).size = s.size + 1 := rfl
    refine ⟨?_, ?_⟩
    · intro x hx
      have hx1 : x ≠ d := fun h => hx (h ▸ List.mem_cons_self _ _)
      have hx2 : x ∉ F := fun h => hx (List.mem_cons_of_mem _ h)
      simp only [List.foldl_cons]
      rw [ih1 x hx2]
      simp [assign_step, StdMap.find_insert, hx1]
    · intro x hx
      simp only [List.foldl_cons, List.length_cons]
      by_cases hxF : x ∈ F
      · obtain ⟨i, hi, hlo, hhi⟩ := ih2 x hxF
        rw [hsz] at hlo hhi
        exact ⟨i, hi, by omega, by push_cast; omega⟩
      · have hxd : x = d := by
          rcases List.mem_cons.mp hx with h | h
          · exact h
          · exact absurd h hxF
        subst hxd
        refine ⟨base + s.size, ?_, by omega, by push_cast; omega⟩
        rw [ih1 x hxF]
        simp [assign_step, StdMap.find_insert]

/-- The map `unrestricted_to_restricted` of any restriction, with or without duplicates: its keys
are the entries, owned entries have their value below `restricted_owned_size` and ghost entries
at or above it. -/
theorem local_maps_u2r_range (n : Int) (ds : List Int) :
    (∀ x, x ∉ ds → StdMap.find (local_maps n ds).unrestricted_to_restricted x = none) ∧
    (∀ x, x ∈ ds → x < n → ∃ i,
      StdMap.find (local_maps n ds).unrestricted_to_restricted x = some i ∧
        0 ≤ i ∧ i < (map_owned_dofs n ds).size) ∧
    (∀ x, x ∈ ds → n ≤ x → ∃ i,
      StdMap.find (local_maps n ds).unrestricted_to_restricted x = some i ∧
        (map_owned_dofs n ds).size ≤ i ∧
        i < (map_owned_dofs n ds).size + (local_maps n ds).size) := by
  obtain ⟨o1, o2⟩ := assign_fold_u2r_range 0 (owned_entries n ds) ⟨[], [], 0⟩
  obtain ⟨g1, g2⟩ := assign_fold_u2r_range (map_owned_dofs n ds).size (ghost_entries n ds)
    ⟨(map_owned_dofs n ds).unrestricted_to_restricted,
      (map_owned_dofs n ds).restricted_to_unrestricted, 0⟩
  have hsize := local_maps_size n ds
  have hosize := map_owned_dofs_size n ds
  simp only [local_maps, map_ghost_numbering, ghost_fold_filter] at hsize ⊢
  refine ⟨fun x hx => ?_, fun x hx hlt => ?_, fun x hx hge => ?_⟩
  · rw [g1 x (fun hm => hx (mem_ghost_entries.mp hm).1)]
    simp only [map_owned_dofs, owned_fold_filter]
    rw [o1 x (fun hm => hx (mem_owned_entries.mp hm).1)]
    rfl
  · rw [g1 x (fun hm => by have := (mem_ghost_entries.mp hm).2; omega)]
    obtain ⟨i, hi, hlo, hhi⟩ := o2 x (mem_owned_entries.mpr ⟨hx, hlt⟩)
    refine ⟨i, ?_, by simpa using hlo, ?_⟩
    · simp only [map_owned_dofs, owned_fold_filter]
      exact hi
    · rw [hosize]
      simpa using hhi
  · obtain ⟨i, hi, hlo, hhi⟩ := g2 x (mem_ghost_entries.mpr ⟨hx, hge⟩)
    refine ⟨i, hi, by simpa using hlo, ?_⟩
    rw [hsize]
    simpa using hhi

/-! ## Verification: round 2 -/

theorem step2_links_enc (st : RankState) (buf : List (List Int)) (ts : List (Int × Int × Int)) :
    step2_links st buf ((ts.map enc3).flatten)
      = foldlE (step2_request st) buf ts := by
  induction ts generalizing buf with
  | nil => rfl
  | cons t ts ih =>
    obtain ⟨l, g, s⟩ := t
    simp only [List.map_cons, List.flatten_cons, enc3, List.cons_append, List.nil_append,
      step2_links, foldlE, step2_request]
    cases step2_body st buf l g s with
    | error e => rfl
    | ok buf' => exact ih buf'

theorem step2_compute_flat (n : Nat) (st : RankState) (received : AdjacencyList)
    (T : Nat → List (Int × Int × Int))
    (h : ∀ r, r < n → received.links r = ((T r).map enc3).flatten) :
    step2_compute n st received
      = foldlE (step2_request st) (List.replicate n []) ((List.range n).flatMap T) := by
  rw [← foldlE_flatMap]
  apply foldlE_congr
  intro buf r hr
  rw [h r (List.mem_range.mp hr), step2_links_enc]

theorem flatMap_filter_tag {α : Type} (T : Nat → List α) (tag : α → Int)
    (htag : ∀ r t, t ∈ T r → tag t = (r : Int)) (n r' : Nat) :
    ((List.range n).flatMap T).filter (fun t => decide (tag t = (r' : Int)))
      = if r' < n then T r' else [] := by
  induction n with
  | zero => simp
  | succ n ih =>
    rw [List.range_succ, List.flatMap_append, List.filter_append, ih]
    simp only [List.flatMap_cons, List.flatMap_nil, List.append_nil]
    by_cases h1 : r' < n
    · have hne : ∀ t, t ∈ T n → ¬ tag t = (r' : Int) := by
        intro t ht he
        have := htag n t ht
        omega
      have : (T n).filter (fun t => decide (tag t = (r' : Int))) = [] := by
        rw [List.filter_eq_nil_iff]
        intro t ht
        simpa using hne t ht
      rw [if_pos h1, if_pos (by omega), this, List.append_nil]
    · rw [if_neg h1, List.nil_append]
      by_cases h2 : r' = n
      · subst h2
        rw [if_pos (by omega)]
        rw [List.filter_eq_self]
        intro t ht
        simpa using htag r' t ht
      · rw [if_neg (by omega)]
        rw [List.filter_eq_nil_iff]
        intro t ht
        have := htag n t ht
        simp only [decide_eq_true_eq]
        omega

theorem mem_requests {world : List (DofMap × List Int)} {r o : Nat} {t : Int × Int × Int}
    (h : t ∈ requests world r o) :
    t.1 ∈ restriction_of world r ∧ (dofmap_of world r).index_map.size_local ≤ t.1 ∧
      ghost_owner (dofmap_of world r) t.1 = (o : Int) ∧
      t.2.1 = ghost_global (dofmap_of world r) t.1 ∧ t.2.2 = (r : Int) := by
  simp only [requests, List.mem_map, List.mem_filter, Bool.and_eq_true, decide_eq_true_eq] at h
  obtain ⟨d, ⟨hd, hge, ho⟩, rfl⟩ := h
  exact ⟨hd, hge, ho, rfl, rfl⟩

theorem requests_of_mem {world : List (DofMap × List Int)} {r : Nat} {d : Int}
    (hd : d ∈ restriction_of world r) (hge : (dofmap_of world r).index_map.size_local ≤ d)
    (o : Nat) (ho : ghost_owner (dofmap_of world r) d = (o : Int)) :
    (d, ghost_global (dofmap_of world r) d, (r : Int)) ∈ requests world r o := by
  simp only [requests, List.mem_map, List.mem_filter, Bool.and_eq_true, decide_eq_true_eq]
  exact ⟨d, ⟨hd, hge, ho⟩, rfl⟩

/-- What validity says about a request: the sender's ghost is one of its ghosts, and its local
index on the owner is an owned index there. -/
theorem request_valid (world : List (DofMap × List Int)) (hv : ValidWorld world)
    (hr : ValidRestrictions world) (r o : Nat) (hrP : r < world.length)
    (t : Int × Int × Int) (ht : t ∈ requests world r o) :
    o < world.length ∧ o ≠ r ∧
      (t.1 - (dofmap_of world r).index_map.size_local).toNat
        < (dofmap_of world r).index_map.ghosts.length ∧
      0 ≤ t.2.1 - (dofmap_of world o).index_map.range0 ∧
      t.2.1 - (dofmap_of world o).index_map.range0 < (dofmap_of world o).index_map.size_local ∧
      local_on_owner world (dofmap_of world r) t.1
        = t.2.1 - (dofmap_of world o).index_map.range0 := by
  obtain ⟨hd, hge, ho, hg, _⟩ := mem_requests ht
  obtain ⟨_, _, hgh⟩ := hv r hrP
  have hlt := hr r hrP t.1 hd
  have hk : (t.1 - (dofmap_of world r).index_map.size_local).toNat
      < (dofmap_of world r).index_map.ghosts.length := by omega
  obtain ⟨h0, h1, hne, hlo, hhi⟩ := hgh _ hk
  have e1 : (dofmap_of world r).index_map.owners.getD
      (t.1 - (dofmap_of world r).index_map.size_local).toNat 0 = (o : Int) := ho
  have e2 : (dofmap_of world r).index_map.ghosts.getD
      (t.1 - (dofmap_of world r).index_map.size_local).toNat 0 = t.2.1 := hg.symm
  rw [e1] at h1 hne hlo hhi
  rw [e2] at hlo hhi
  simp only [Int.toNat_ofNat] at h1 hlo hhi
  refine ⟨h1, ?_, hk, by omega, by omega, ?_⟩
  · intro h
    exact hne (by rw [h])
  · simp only [local_on_owner, ho, Int.toNat_ofNat, hg]

theorem pushAt_length (buf buf' : List (List Int)) (i : Int) (xs : List Int)
    (h : pushAt buf i xs = .ok buf') : buf'.length = buf.length := by
  simp only [pushAt] at h
  split at h
  · cases h
    simp
  · cases h

theorem step2_body_request (world : List (DofMap × List Int)) (hv : ValidWorld world)
    (hr : ValidRestrictions world) (r o : Nat) (hrP : r < world.length)
    (t : Int × Int × Int) (ht : t ∈ requests world r o) (buf : List (List Int)) :
    (t.2.1 - (dofmap_of world o).index_map.range0 ∈ restriction_of world o →
      step2_request (state_of world o) buf t
        = pushAt buf t.2.2 (enc2 (restricted_global world o t.2.1, t.1))) ∧
    (t.2.1 - (dofmap_of world o).index_map.range0 ∉ restriction_of world o →
      step2_request (state_of world o) buf t = .error .out_of_range) := by
  obtain ⟨hoP, _, _, h0, h1, _⟩ := request_valid world hv hr r o hrP t ht
  obtain ⟨u0, u1, _⟩ := local_maps_u2r_range (dofmap_of world o).index_map.size_local
    (restriction_of world o)
  refine ⟨fun hin => ?_, fun hnot => ?_⟩
  · obtain ⟨i, hi, hi0, hi1⟩ := u1 _ hin h1
    have hsl := state_of_size_local world o hoP
    simp only [step2_request, step2_body, state_of_dofmap, state_of_maps, StdMap.lookupAt, hi,
      bind, Except.bind]
    rw [global_indices_owned _ i hi0 (by rw [hsl]; exact hi1)]
    simp only [restricted_global, state_of_maps, hi, Option.getD_some, enc2]
  · simp only [step2_request, step2_body, state_of_dofmap, state_of_maps, StdMap.lookupAt,
      u0 _ hnot, bind, Except.bind]

theorem mem_all_requests {world : List (DofMap × List Int)} {o : Nat} {t : Int × Int × Int}
    (h : t ∈ (List.range world.length).flatMap (fun r => requests world r o)) :
    ∃ r, r < world.length ∧ t ∈ requests world r o := by
  obtain ⟨r, hr, ht⟩ := List.mem_flatMap.mp h
  exact ⟨r, List.mem_range.mp hr, ht⟩

/-- Round 2 on the rank `o` of a consistent world: the reply buffers. -/
theorem step2_compute_eq (world : List (DofMap × List Int)) (hv : ValidWorld world)
    (hr : ValidRestrictions world) (hc : Consistent world) (o : Nat)
    (received : AdjacencyList)
    (hrec : ∀ r, r < world.length →
      received.links r = ((requests world r o).map enc3).flatten) :
    step2_compute world.length (state_of world o) received
      = .ok ((List.range world.length).map
          (fun r => ((replies world o r).map enc2).flatten)) := by
  rw [step2_compute_flat world.length _ received (fun r => requests world r o) hrec]
  rw [foldlE_scatter (step2_request (state_of world o))
    (fun _ => true) (fun t => t.2.2)
    (fun t => enc2 (restricted_global world o t.2.1, t.1)) world.length _
    (fun buf t ht _ => by
      obtain ⟨r, hrP, htr⟩ := mem_all_requests ht
      obtain ⟨hd, hge, ho, _, _⟩ := mem_requests htr
      obtain ⟨_, _, _, _, _, hloc⟩ := request_valid world hv hr r o hrP t htr
      have hin := hc r hrP t.1 hd hge
      rw [ho, Int.toNat_ofNat, hloc] at hin
      simp only [if_true]
      exact (step2_body_request world hv hr r o hrP t htr buf).1 hin)
    (fun t ht _ => by
      obtain ⟨r, hrP, htr⟩ := mem_all_requests ht
      obtain ⟨_, _, _, _, hs⟩ := mem_requests htr
      show 0 ≤ t.2.2 ∧ t.2.2.toNat < world.length
      rw [hs]
      exact ⟨by omega, by simpa using hrP⟩)
    _ (by simp)]
  congr 1
  apply List.map_congr_left
  intro r' hr'
  simp only [collect, Bool.true_and, getD_replicate_nil, List.nil_append]
  rw [flatMap_filter_tag (fun r => requests world r o) (fun t => t.2.2)
    (fun r t ht => (mem_requests ht).2.2.2.2) world.length r', if_pos (List.mem_range.mp hr')]
  simp only [replies, List.map_map, Function.comp_def]

theorem step2_request_cases (world : List (DofMap × List Int)) (hv : ValidWorld world)
    (hr : ValidRestrictions world) (o : Nat) (buf : List (List Int)) (x : Int × Int × Int)
    (hx : x ∈ (List.range world.length).flatMap (fun r => requests world r o))
    (hlen : buf.length = world.length) :
    step2_request (state_of world o) buf x = .error .out_of_range ∨
      ∃ buf', step2_request (state_of world o) buf x = .ok buf' ∧
        buf'.length = world.length := by
  obtain ⟨r', hrP', hxr⟩ := mem_all_requests hx
  by_cases hin : x.2.1 - (dofmap_of world o).index_map.range0 ∈ restriction_of world o
  · right
    rw [(step2_body_request world hv hr r' o hrP' x hxr buf).1 hin]
    obtain ⟨_, _, _, _, hs⟩ := mem_requests hxr
    rw [hs, pushAt_ok buf _ _ (by omega) (by simpa [hlen] using hrP')]
    exact ⟨_, rfl, by simp [hlen]⟩
  · left
    exact (step2_body_request world hv hr r' o hrP' x hxr buf).2 hin

/-- Round 2 on the rank `o` when one of the requests it receives is for a dof that its restriction
does not contain: the lookup throws. -/
theorem step2_compute_error (world : List (DofMap × List Int)) (hv : ValidWorld world)
    (hr : ValidRestrictions world) (o : Nat)
    (received : AdjacencyList)
    (hrec : ∀ r, r < world.length →
      received.links r = ((requests world r o).map enc3).flatten)
    (r : Nat) (hrP : r < world.length) (t : Int × Int × Int) (ht : t ∈ requests world r o)
    (hbad : t.2.1 - (dofmap_of world o).index_map.range0 ∉ restriction_of world o) :
    step2_compute world.length (state_of world o) received = .error .out_of_range := by
  rw [step2_compute_flat world.length _ received (fun r => requests world r o) hrec]
  exact foldlE_error _ (fun buf => buf.length = world.length) .out_of_range _
    (step2_request_cases world hv hr o) t
    (List.mem_flatMap.mpr ⟨r, List.mem_range.mpr hrP, ht⟩)
    (fun buf _ => (step2_body_request world hv hr r o hrP t ht buf).2 hbad)
    _ (by simp)

/-- Round 2 on any rank of a valid world either throws at a lookup or returns. -/
theorem step2_compute_cases (world : List (DofMap × List Int)) (hv : ValidWorld world)
    (hr : ValidRestrictions world) (o : Nat)
    (received : AdjacencyList)
    (hrec : ∀ r, r < world.length →
      received.links r = ((requests world r o).map enc3).flatten) :
    step2_compute world.length (state_of world o) received = .error .out_of_range ∨
      ∃ b, step2_compute world.length (state_of world o) received = .ok b := by
  rw [step2_compute_flat world.length _ received (fun r => requests world r o) hrec]
  rcases foldlE_inv _ (fun buf => buf.length = world.length) .out_of_range _
    (step2_request_cases world hv hr o)
    (List.replicate world.length []) (by simp) with h | ⟨b, hb, _⟩
  · exact Or.inl h
  · exact Or.inr ⟨b, hb⟩

/-! ## Verification: round 3 -/

theorem step3_links_enc (st : RankState) (arrays : List Int × List Int) (ps : List (Int × Int)) :
    step3_links st arrays ((ps.map enc2).flatten) = foldlE (step3_reply st) arrays ps := by
  induction ps generalizing arrays with
  | nil => rfl
  | cons p ps ih =>
    obtain ⟨g, l⟩ := p
    simp only [List.map_cons, List.flatten_cons, enc2, List.cons_append, List.nil_append,
      step3_links, foldlE, step3_reply]
    cases step3_body st arrays g l with
    | error e => rfl
    | ok arrays' => exact ih arrays'

theorem step3_compute_flat (n : Nat) (st : RankState) (received : AdjacencyList)
    (T : Nat → List (Int × Int))
    (h : ∀ r, r < n → received.links r = ((T r).map enc2).flatten) :
    step3_compute n st received
      = foldlE (step3_reply st)
          (List.replicate st.maps.size.toNat 0, List.replicate st.maps.size.toNat 0)
          ((List.range n).flatMap T) := by
  rw [← foldlE_flatMap]
  apply foldlE_congr
  intro arrays r hr
  rw [h r (List.mem_range.mp hr), step3_links_enc]

/-- A loop that writes, for every item, two values at the position of the item, leaves the
other positions alone and leaves at a position the values of the items written there, when they
all carry the same values. -/
theorem foldlE_writes {α : Type}
    (f : List Int × List Int → α → Except Error (List Int × List Int))
    (pos : α → Nat) (v1 v2 : α → Int) (n : Nat) (xs : List α)
    (hf : ∀ arrs x, x ∈ xs → arrs.1.length = n → arrs.2.length = n →
      f arrs x = .ok (arrs.1.set (pos x) (v1 x), arrs.2.set (pos x) (v2 x)))
    (hpos : ∀ x, x ∈ xs → pos x < n)
    (arrs : List Int × List Int) (h1 : arrs.1.length = n) (h2 : arrs.2.length = n) :
    ∃ arrs', foldlE f arrs xs = .ok arrs' ∧ arrs'.1.length = n ∧ arrs'.2.length = n ∧
      (∀ p, (∀ x, x ∈ xs → pos x ≠ p) → arrs'.1[p]? = arrs.1[p]? ∧ arrs'.2[p]? = arrs.2[p]?) ∧
      (∀ x, x ∈ xs → (∀ y, y ∈ xs → pos y = pos x → v1 y = v1 x ∧ v2 y = v2 x) →
        arrs'.1[pos x]? = some (v1 x) ∧ arrs'.2[pos x]? = some (v2 x)) := by
  induction xs generalizing arrs with
  | nil => exact ⟨arrs, rfl, h1, h2, fun p _ => ⟨rfl, rfl⟩, fun x hx => by cases hx⟩
  | cons a xs ih =>
    have hfa := hf arrs a (List.mem_cons_self _ _) h1 h2
    obtain ⟨arrs', hfold, hl1, hl2, hkeep, hval⟩ :=
      ih (fun arrs x hx => hf arrs x (List.mem_cons_of_mem _ hx))
        (fun x hx => hpos x (List.mem_cons_of_mem _ hx))
        (arrs.1.set (pos a) (v1 a), arrs.2.set (pos a) (v2 a)) (by simp [h1]) (by simp [h2])
    have hpa : pos a < n := hpos a (List.mem_cons_self _ _)
    refine ⟨arrs', ?_, hl1, hl2, ?_, ?_⟩
    · simp only [foldlE, hfa]
      exact hfold
    · intro p hp
      have hne : pos a ≠ p := hp a (List.mem_cons_self _ _)
      obtain ⟨k1, k2⟩ := hkeep p (fun x hx => hp x (List.mem_cons_of_mem _ hx))
      rw [k1, k2]
      simp [List.getElem?_set, hne]
    · intro x hx hun
      by_cases hex : ∃ y, y ∈ xs ∧ pos y = pos x
      · obtain ⟨y, hy, hyx⟩ := hex
        obtain ⟨e1, e2⟩ := hun y (List.mem_cons_of_mem _ hy) hyx
        have := hval y hy (fun z hz hzy => by
          obtain ⟨z1, z2⟩ := hun z (List.mem_cons_of_mem _ hz) (hzy.trans hyx)
          exact ⟨z1.trans e1.symm, z2.trans e2.symm⟩)
        rw [hyx, e1, e2] at this
        exact this
      · have hno : ∀ y, y ∈ xs → pos y ≠ pos x := fun y hy h => hex ⟨y, hy, h⟩
        have hxa : x = a := by
          rcases List.mem_cons.mp hx with h | h
          · exact h
          · exact absurd rfl (hno x h)
        subst hxa
        obtain ⟨k1, k2⟩ := hkeep (pos x) hno
        rw [k1, k2]
        simp [List.getElem?_set, h1, h2, hpa]

theorem mem_replies {world : List (DofMap × List Int)} {o r : Nat} {p : Int × Int}
    (h : p ∈ replies world o r) :
    p.2 ∈ restriction_of world r ∧ (dofmap_of world r).index_map.size_local ≤ p.2 ∧
      ghost_owner (dofmap_of world r) p.2 = (o : Int) ∧
      p.1 = restricted_global world o (ghost_global (dofmap_of world r) p.2) := by
  simp only [replies, List.mem_map] at h
  obtain ⟨t, ht, rfl⟩ := h
  obtain ⟨hd, hge, ho, hg, _⟩ := mem_requests ht
  exact ⟨hd, hge, ho, by rw [hg]⟩

theorem mem_all_replies {world : List (DofMap × List Int)} {r : Nat} {p : Int × Int}
    (h : p ∈ (List.range world.length).flatMap (fun o => replies world o r)) :
    ∃ o, o < world.length ∧ p ∈ replies world o r := by
  obtain ⟨o, ho, hp⟩ := List.mem_flatMap.mp h
  exact ⟨o, List.mem_range.mp ho, hp⟩

/-- The body of step 3 on a reply that rank `r` receives: no error, and two writes at the
position of the echoed dof. -/
theorem step3_reply_eq (world : List (DofMap × List Int)) (hv : ValidWorld world)
    (hr : ValidRestrictions world) (r : Nat) (hrP : r < world.length) (d : Int)
    (hd : d ∈ restriction_of world r) (hge : (dofmap_of world r).index_map.size_local ≤ d)
    (g : Int) (arrs : List Int × List Int)
    (h1 : arrs.1.length = (state_of world r).maps.size.toNat)
    (h2 : arrs.2.length = (state_of world r).maps.size.toNat) :
    ghost_position world r d < (state_of world r).maps.size.toNat ∧
    step3_reply (state_of world r) arrs (g, d)
      = .ok (arrs.1.set (ghost_position world r d) g,
          arrs.2.set (ghost_position world r d) (ghost_owner (dofmap_of world r) d)) := by
  obtain ⟨hn, hlen, _⟩ := hv r hrP
  have hlt := hr r hrP d hd
  have hk : (d - (dofmap_of world r).index_map.size_local).toNat
      < (dofmap_of world r).index_map.ghosts.length := by omega
  obtain ⟨_, _, u2⟩ := local_maps_u2r_range (dofmap_of world r).index_map.size_local
    (restriction_of world r)
  obtain ⟨i, hi, hlo, hhi⟩ := u2 d hd hge
  have hsl := state_of_size_local world r hrP
  have hpos : ghost_position world r d
      = (i - (state_of world r).index_map.size_local).toNat := by
    simp only [ghost_position, state_of_maps, hi, Option.getD_some]
  have hposlt : ghost_position world r d < (state_of world r).maps.size.toNat := by
    rw [hpos, hsl, state_of_maps]
    omega
  refine ⟨hposlt, ?_⟩
  simp only [step3_reply, step3_body, state_of_dofmap]
  rw [vecGet_ok _ _ (by omega) (by rw [hlen]; exact hk)]
  simp only [bind, Except.bind, state_of_maps, StdMap.lookupAt, hi]
  rw [hpos] at hposlt ⊢
  rw [vecSet_ok _ _ _ (by rw [hsl]; omega) (by rw [h1]; exact hposlt),
    vecSet_ok _ _ _ (by rw [hsl]; omega) (by rw [h2]; exact hposlt)]
  rfl

theorem ghost_position_entry (world : List (DofMap × List Int)) (r : Nat)
    (hrP : r < world.length) (hnd : (restriction_of world r).Nodup) (k : Nat)
    (hk : k < (ghost_entries (dofmap_of world r).index_map.size_local
      (restriction_of world r)).length) :
    ghost_position world r
      (ghost_entries (dofmap_of world r).index_map.size_local (restriction_of world r))[k] = k := by
  obtain ⟨_, _, u2⟩ := local_maps_u2r (dofmap_of world r).index_map.size_local
    (restriction_of world r) hnd
  simp only [ghost_position, state_of_maps, u2 k hk, Option.getD_some,
    state_of_size_local world r hrP, map_owned_dofs_size]
  omega

theorem ghost_position_inj (world : List (DofMap × List Int)) (r : Nat)
    (hrP : r < world.length) (hnd : (restriction_of world r).Nodup) (d d' : Int)
    (hd : d ∈ restriction_of world r) (hge : (dofmap_of world r).index_map.size_local ≤ d)
    (hd' : d' ∈ restriction_of world r) (hge' : (dofmap_of world r).index_map.size_local ≤ d')
    (h : ghost_position world r d = ghost_position world r d') : d = d' := by
  obtain ⟨k, hk, rfl⟩ := List.mem_iff_getElem.mp (mem_ghost_entries.mpr ⟨hd, hge⟩)
  obtain ⟨k', hk', rfl⟩ := List.mem_iff_getElem.mp (mem_ghost_entries.mpr ⟨hd', hge'⟩)
  rw [ghost_position_entry world r hrP hnd k hk,
    ghost_position_entry world r hrP hnd k' hk'] at h
  subst h
  rfl

/-- Round 3 on the rank `r`: it returns, and the ghost arrays hold, at the position of every
restricted ghost dof, the answer of its owner and its owner. -/
theorem step3_compute_spec (world : List (DofMap × List Int)) (hv : ValidWorld world)
    (hr : ValidRestrictions world) (hnd : NodupRestrictions world) (r : Nat)
    (hrP : r < world.length) (received : AdjacencyList)
    (hrec : ∀ o, o < world.length →
      received.links o = ((replies world o r).map enc2).flatten) :
    ∃ arrs, step3_compute world.length (state_of world r) received = .ok arrs ∧
      arrs.1.length = (state_of world r).maps.size.toNat ∧
      arrs.2.length = (state_of world r).maps.size.toNat ∧
      ∀ d, d ∈ restriction_of world r → (dofmap_of world r).index_map.size_local ≤ d →
        arrs.1[ghost_position world r d]?
          = some (restricted_global world (ghost_owner (dofmap_of world r) d).toNat
              (ghost_global (dofmap_of world r) d)) ∧
        arrs.2[ghost_position world r d]? = some (ghost_owner (dofmap_of world r) d) := by
  rw [step3_compute_flat world.length _ received (fun o => replies world o r) hrec]
  obtain ⟨arrs, hfold, hl1, hl2, _, hval⟩ := foldlE_writes (step3_reply (state_of world r))
    (fun p => ghost_position world r p.2) (fun p => p.1)
    (fun p => ghost_owner (dofmap_of world r) p.2) (state_of world r).maps.size.toNat
    ((List.range world.length).flatMap (fun o => replies world o r))
    (fun arrs p hp h1 h2 => by
      obtain ⟨o, _, hpo⟩ := mem_all_replies hp
      obtain ⟨hd, hge, _, _⟩ := mem_replies hpo
      exact (step3_reply_eq world hv hr r hrP p.2 hd hge p.1 arrs h1 h2).2)
    (fun p hp => by
      obtain ⟨o, _, hpo⟩ := mem_all_replies hp
      obtain ⟨hd, hge, _, _⟩ := mem_replies hpo
      exact (step3_reply_eq world hv hr r hrP p.2 hd hge p.1
        (List.replicate (state_of world r).maps.size.toNat 0,
          List.replicate (state_of world r).maps.size.toNat 0) (by simp) (by simp)).1)
    (List.replicate (state_of world r).maps.size.toNat 0,
      List.replicate (state_of world r).maps.size.toNat 0) (by simp) (by simp)
  refine ⟨arrs, hfold, hl1, hl2, fun d hd hge => ?_⟩
  obtain ⟨_, _, hgh⟩ := hv r hrP
  have hlt := hr r hrP d hd
  have hk : (d - (dofmap_of world r).index_map.size_local).toNat
      < (dofmap_of world r).index_map.ghosts.length := by omega
  obtain ⟨ho0, ho1, _, _, _⟩ := hgh _ hk
  have hoi : ghost_owner (dofmap_of world r) d
      = (((ghost_owner (dofmap_of world r) d).toNat : Nat) : Int) :=
    (Int.toNat_of_nonneg ho0).symm
  have hreq := requests_of_mem hd hge (ghost_owner (dofmap_of world r) d).toNat hoi
  have hrep : (restricted_global world (ghost_owner (dofmap_of world r) d).toNat
      (ghost_global (dofmap_of world r) d), d)
      ∈ replies world (ghost_owner (dofmap_of world r) d).toNat r :=
    List.mem_map.mpr ⟨_, hreq, rfl⟩
  have hall : (restricted_global world (ghost_owner (dofmap_of world r) d).toNat
      (ghost_global (dofmap_of world r) d), d)
      ∈ (List.range world.length).flatMap (fun o => replies world o r) :=
    List.mem_flatMap.mpr ⟨_, List.mem_range.mpr ho1, hrep⟩
  refine hval _ hall (fun y hy hpos => ?_)
  obtain ⟨o', _, hyo⟩ := mem_all_replies hy
  obtain ⟨hyd, hyge, hyown, hy1⟩ := mem_replies hyo
  have hyd2 : y.2 = d :=
    ghost_position_inj world r hrP (hnd r hrP) y.2 d hyd hyge hd hge hpos
  refine ⟨?_, by simp only [hyd2]⟩
  simp only [hy1, hyd2]
  have : o' = (ghost_owner (dofmap_of world r) d).toNat := by
    rw [hyd2] at hyown
    rw [hyown]
    simp
  rw [this]

/-! ## Verification: the constructor -/

theorem exchange_received (n : Nat) (S : Nat → List (List Int))
    (hS : ∀ r, r < n → (S r).length = n) :
    ∃ R, all_to_all (((List.range n).map S).map AdjacencyList.ofLists) = .ok R ∧
      ∀ i j, i < n → j < n → (R.getD j default).links i = (S i).getD j [] := by
  have hlen : ((List.range n).map S).length = n := by simp
  have hb : ∀ b, b ∈ (List.range n).map S → b.length = ((List.range n).map S).length := by
    intro b hb
    obtain ⟨r, hr, rfl⟩ := List.mem_map.mp hb
    rw [hlen]
    exact hS r (List.mem_range.mp hr)
  refine ⟨_, all_to_all_ofLists _ hb, fun i j hi hj => ?_⟩
  rw [received_links _ i j (by rw [hlen]; exact hi) (by rw [hlen]; exact hj)]
  congr 1
  rw [List.getD_eq_getElem _ _ (by rw [hlen]; exact hi), List.getElem_map, List.getElem_range]

theorem mapE_range_exists {β : Type} [Inhabited β] (f : Nat → Except Error β) (n : Nat)
    (h : ∀ r, r < n → ∃ b, f r = .ok b) :
    ∃ ys, mapE f (List.range n) = .ok ys ∧ ys.length = n ∧
      ∀ r, r < n → f r = .ok (ys.getD r default) := by
  refine ⟨(List.range n).map (fun r => match f r with | .ok b => b | .error _ => default),
    mapE_ok f _ _ (fun r hr => ?_), by simp, fun r hr => ?_⟩
  · obtain ⟨b, hb⟩ := h r (List.mem_range.mp hr)
    simp only [hb]
  · obtain ⟨b, hb⟩ := h r hr
    rw [List.getD_eq_getElem _ _ (by simpa using hr), List.getElem_map, List.getElem_range]
    simp only [hb]

/-- The exchange of round 1 of a valid world: every rank receives, from every rank, the
requests addressed to it. -/
theorem round1_received (world : List (DofMap × List Int)) (hv : ValidWorld world)
    (hr : ValidRestrictions world) :
    ∃ S1 R1, mapE (fun r => step1_compute world.length r (state_of world r))
        (List.range world.length) = .ok S1 ∧
      all_to_all (S1.map AdjacencyList.ofLists) = .ok R1 ∧
      ∀ r o, r < world.length → o < world.length →
        (R1.getD o default).links r = ((requests world r o).map enc3).flatten := by
  obtain ⟨R1, hR1, hlinks⟩ := exchange_received world.length
    (fun r => (List.range world.length).map (fun o => ((requests world r o).map enc3).flatten))
    (fun r _ => by simp)
  refine ⟨_, R1, mapE_ok _ _ _ (fun r hrr =>
    step1_compute_eq world hv hr r (List.mem_range.mp hrr)), hR1, fun r o hrP hoP => ?_⟩
  rw [hlinks r o hrP hoP, List.getD_eq_getElem _ _ (by simpa using hoP), List.getElem_map,
    List.getElem_range]

/-- The exchange of round 2 of a consistent world: every rank receives, from every rank, the
replies addressed to it. -/
theorem round2_received (world : List (DofMap × List Int)) (hv : ValidWorld world)
    (hr : ValidRestrictions world) (hc : Consistent world) (R1 : List AdjacencyList)
    (hR1 : ∀ r o, r < world.length → o < world.length →
      (R1.getD o default).links r = ((requests world r o).map enc3).flatten) :
    ∃ S2 R2, mapE (fun o => step2_compute world.length (state_of world o)
        (R1.getD o default)) (List.range world.length) = .ok S2 ∧
      all_to_all (S2.map AdjacencyList.ofLists) = .ok R2 ∧
      ∀ o r, o < world.length → r < world.length →
        (R2.getD r default).links o = ((replies world o r).map enc2).flatten := by
  obtain ⟨R2, hR2, hlinks⟩ := exchange_received world.length
    (fun o => (List.range world.length).map (fun r => ((replies world o r).map enc2).flatten))
    (fun r _ => by simp)
  refine ⟨_, R2, mapE_ok _ _ _ (fun o ho =>
    step2_compute_eq world hv hr hc o _ (fun r hrP => hR1 r o hrP (List.mem_range.mp ho))),
    hR2, fun o r hoP hrP => ?_⟩
  rw [hlinks o r hoP hrP, List.getD_eq_getElem _ _ (by simpa using hrP), List.getElem_map,
    List.getElem_range]

theorem finish_eq (world : List (DofMap × List Int)) (ghosts : List (List Int × List Int))
    (r : Nat) :
    finish world ghosts r = .ok
      { unrestricted_to_restricted := (state_of world r).maps.unrestricted_to_restricted
        restricted_to_unrestricted := (state_of world r).maps.restricted_to_unrestricted
        index_map := IndexMap.create (restricted_owned_sizes world) r
          (ghosts.getD r default).1 (ghosts.getD r default).2
        dof_array := (((state_of world r).dofmap.cell_dofs).map
          (restrict_cell (state_of world r).maps.unrestricted_to_restricted)).flatten
        cell_bounds := offsetsFrom 0 (((state_of world r).dofmap.cell_dofs).map
          (restrict_cell (state_of world r).maps.unrestricted_to_restricted)) } := by
  simp only [finish, compute_cell_dofs_eq, bind, Except.bind, pure, Except.pure]

/-- The constructor on a valid world with valid, duplicate-free, consistent restrictions: it
returns, and the object of every rank has the local maps of its restriction, the owned block that
the provisional index map gave it, and ghost arrays that hold at the position of every restricted
ghost dof the answer of its owner and its owner. -/
theorem construct_spec (world : List (DofMap × List Int)) (hv : ValidWorld world)
    (hr : ValidRestrictions world) (hnd : NodupRestrictions world) (hc : Consistent world) :
    ∃ result, construct world = .ok result ∧ result.length = world.length ∧
      ∀ r, r < world.length → ∃ obj, result[r]? = some obj ∧
        obj.unrestricted_to_restricted = (state_of world r).maps.unrestricted_to_restricted ∧
        obj.restricted_to_unrestricted = (state_of world r).maps.restricted_to_unrestricted ∧
        obj.index_map.range0 = (state_of world r).index_map.range0 ∧
        obj.index_map.size_local = (state_of world r).index_map.size_local ∧
        obj.index_map.ghosts.length = (state_of world r).maps.size.toNat ∧
        obj.index_map.owners.length = (state_of world r).maps.size.toNat ∧
        ∀ d, d ∈ restriction_of world r → (dofmap_of world r).index_map.size_local ≤ d →
          obj.index_map.ghosts[ghost_position world r d]?
            = some (restricted_global world (ghost_owner (dofmap_of world r) d).toNat
                (ghost_global (dofmap_of world r) d)) ∧
          obj.index_map.owners[ghost_position world r d]?
            = some (ghost_owner (dofmap_of world r) d) := by
  obtain ⟨S1, R1, hS1, hR1, hl1⟩ := round1_received world hv hr
  obtain ⟨S2, R2, hS2, hR2, hl2⟩ := round2_received world hv hr hc R1 hl1
  obtain ⟨G, hG, _, hGr⟩ := mapE_range_exists
    (fun r => step3_compute world.length (state_of world r) (R2.getD r default)) world.length
    (fun r hrP => by
      obtain ⟨arrs, h, _⟩ := step3_compute_spec world hv hr hnd r hrP (R2.getD r default)
        (fun o hoP => hl2 o r hoP hrP)
      exact ⟨arrs, h⟩)
  have hfin := mapE_ok (finish world G) _ (List.range world.length)
    (fun r _ => finish_eq world G r)
  have hcon : construct world = mapE (finish world G) (List.range world.length) := by
    simp only [construct, bind, Except.bind, hS1, hR1, hS2, hR2, hG]
  rw [hfin] at hcon
  refine ⟨_, hcon, by simp, fun r hrP => ?_⟩
  · obtain ⟨arrs, h, ha1, ha2, hval⟩ := step3_compute_spec world hv hr hnd r hrP
      (R2.getD r default) (fun o hoP => hl2 o r hoP hrP)
    have hGa : G.getD r default = arrs := by
      have := hGr r hrP
      rw [h] at this
      cases this
      rfl
    refine ⟨_, by rw [List.getElem?_map, List.getElem?_range hrP]; rfl, rfl, rfl, rfl, rfl,
      ?_, ?_, ?_⟩
    · simp only [IndexMap.create, hGa, ha1]
    · simp only [IndexMap.create, hGa, ha2]
    · intro d hd hge
      simp only [IndexMap.create, hGa]
      exact hval d hd hge

/-! ## The example worlds -/

theorem two_rank_world_valid : ValidWorld two_rank_world := by
  intro r hr
  have hr' : r < 2 := hr
  interval_cases r
  · refine ⟨by decide, by decide, fun k hk => ?_⟩
    exact absurd hk (Nat.not_lt_zero k)
  · refine ⟨by decide, by decide, fun k hk => ?_⟩
    have hk' : k < 1 := hk
    interval_cases k
    decide

theorem two_rank_world_restrictions : ValidRestrictions two_rank_world := by
  intro r hr
  have hr' : r < 2 := hr
  interval_cases r <;> decide

theorem two_rank_world_nodup : NodupRestrictions two_rank_world := by
  intro r hr
  have hr' : r < 2 := hr
  interval_cases r <;> decide

theorem two_rank_world_consistent : Consistent two_rank_world := by
  intro r hr
  have hr' : r < 2 := hr
  interval_cases r <;> decide

theorem two_rank_world_inconsistent_valid : ValidWorld two_rank_world_inconsistent := by
  intro r hr
  have hr' : r < 2 := hr
  interval_cases r
  · refine ⟨by decide, by decide, fun k hk => ?_⟩
    exact absurd hk (Nat.not_lt_zero k)
  · refine ⟨by decide, by decide, fun k hk => ?_⟩
    have hk' : k < 1 := hk
    interval_cases k
    decide

theorem two_rank_world_inconsistent_restrictions :
    ValidRestrictions two_rank_world_inconsistent := by
  intro r hr
  have hr' : r < 2 := hr
  interval_cases r <;> decide

/-! ## The exchange claims -/

/-- C4: in a valid world, if the restriction of a rank contains a ghost dof and the restriction
of the owning rank does not contain the corresponding owned dof, then on the owner the lookup
`_unrestricted_to_restricted.at(..)` of round 2, at the received global index minus the start of
the owner's range, throws: the body of step 2 produces no reply for that request, whatever the
send buffer holds, and the collective construction fails with that error. -/
theorem construct_inconsistent_error (world : List (DofMap × List Int)) (hv : ValidWorld world)
    (hr : ValidRestrictions world) (r : Nat) (d : Int) (hrP : r < world.length)
    (hd : d ∈ restriction_of world r) (hge : (dofmap_of world r).index_map.size_local ≤ d)
    (hbad : local_on_owner world (dofmap_of world r) d
      ∉ restriction_of world (ghost_owner (dofmap_of world r) d).toNat) :
    StdMap.lookupAt
        (state_of world (ghost_owner (dofmap_of world r) d).toNat).maps.unrestricted_to_restricted
        (ghost_global (dofmap_of world r) d
          - (state_of world (ghost_owner (dofmap_of world r) d).toNat).dofmap.index_map.range0)
      = .error .out_of_range ∧
    (∀ send_buffer, step2_body (state_of world (ghost_owner (dofmap_of world r) d).toNat)
        send_buffer d (ghost_global (dofmap_of world r) d) (r : Int) = .error .out_of_range) ∧
    construct world = .error .out_of_range := by
  obtain ⟨_, _, hgh⟩ := hv r hrP
  have hlt := hr r hrP d hd
  have hk : (d - (dofmap_of world r).index_map.size_local).toNat
      < (dofmap_of world r).index_map.ghosts.length := by omega
  obtain ⟨ho0, ho1, _, _, _⟩ := hgh _ hk
  have hoi : ghost_owner (dofmap_of world r) d
      = (((ghost_owner (dofmap_of world r) d).toNat : Nat) : Int) :=
    (Int.toNat_of_nonneg ho0).symm
  have hreq := requests_of_mem hd hge (ghost_owner (dofmap_of world r) d).toNat hoi
  have hbad' : ghost_global (dofmap_of world r) d
      - (dofmap_of world (ghost_owner (dofmap_of world r) d).toNat).index_map.range0
      ∉ restriction_of world (ghost_owner (dofmap_of world r) d).toNat := hbad
  obtain ⟨u0, _, _⟩ := local_maps_u2r_range
    (dofmap_of world (ghost_owner (dofmap_of world r) d).toNat).index_map.size_local
    (restriction_of world (ghost_owner (dofmap_of world r) d).toNat)
  refine ⟨?_, fun buf => ?_, ?_⟩
  · simp only [StdMap.lookupAt, state_of_maps, state_of_dofmap, u0 _ hbad']
  · exact (step2_body_request world hv hr r _ hrP _ hreq buf).2 hbad'
  · obtain ⟨S1, R1, hS1, hR1, hl1⟩ := round1_received world hv hr
    have hstep2 : mapE (fun o => step2_compute world.length (state_of world o)
        (R1.getD o default)) (List.range world.length) = .error .out_of_range :=
      mapE_error _ _ _
        (fun o ho => step2_compute_cases world hv hr o _
          (fun r' hr' => hl1 r' o hr' (List.mem_range.mp ho)))
        (ghost_owner (dofmap_of world r) d).toNat (List.mem_range.mpr ho1)
        (step2_compute_error world hv hr _ _ (fun r' hr' => hl1 r' _ hr' ho1) r hrP _ hreq
          hbad')
    simp only [construct, bind, Except.bind, hS1, hR1, hstep2]

/-- The scenario of C4: rank 0 omits its dof 1, which rank 1 restricts as a ghost; the
construction fails with the error of the lookup. -/
theorem construct_inconsistent_error_witness :
    construct two_rank_world_inconsistent = .error .out_of_range :=
  (construct_inconsistent_error two_rank_world_inconsistent two_rank_world_inconsistent_valid
    two_rank_world_inconsistent_restrictions 1 1 (by decide) (by decide) (by decide)
    (by decide)).2.2

/-- The owner of a restricted ghost dof in a valid world, and what consistency gives on it: the
owner is a rank, and the dof has, in the owner's map, a restricted local index inside the
owner's restricted owned block. -/
theorem owner_entry (world : List (DofMap × List Int)) (hv : ValidWorld world)
    (hr : ValidRestrictions world) (hc : Consistent world) (r : Nat) (d : Int)
    (hrP : r < world.length) (hd : d ∈ restriction_of world r)
    (hge : (dofmap_of world r).index_map.size_local ≤ d) :
    (ghost_owner (dofmap_of world r) d).toNat < world.length ∧
    ghost_owner (dofmap_of world r) d
      = (((ghost_owner (dofmap_of world r) d).toNat : Nat) : Int) ∧
    (d - (dofmap_of world r).index_map.size_local).toNat
      < (dofmap_of world r).index_map.ghosts.length ∧
    ∃ j, StdMap.find
        (state_of world (ghost_owner (dofmap_of world r) d).toNat).maps.unrestricted_to_restricted
        (local_on_owner world (dofmap_of world r) d) = some j ∧
      0 ≤ j ∧
      j < (state_of world (ghost_owner (dofmap_of world r) d).toNat).index_map.size_local ∧
      restricted_global world (ghost_owner (dofmap_of world r) d).toNat
          (ghost_global (dofmap_of world r) d)
        = (state_of world (ghost_owner (dofmap_of world r) d).toNat).index_map.range0 + j := by
  obtain ⟨_, _, hgh⟩ := hv r hrP
  have hlt := hr r hrP d hd
  have hk : (d - (dofmap_of world r).index_map.size_local).toNat
      < (dofmap_of world r).index_map.ghosts.length := by omega
  obtain ⟨ho0, ho1, _, hlo, hhi⟩ := hgh _ hk
  have hin := hc r hrP d hd hge
  have hL : local_on_owner world (dofmap_of world r) d
      < (dofmap_of world (ghost_owner (dofmap_of world r) d).toNat).index_map.size_local := by
    have e : local_on_owner world (dofmap_of world r) d
        = (dofmap_of world r).index_map.ghosts.getD
            (d - (dofmap_of world r).index_map.size_local).toNat 0
          - (dofmap_of world ((dofmap_of world r).index_map.owners.getD
              (d - (dofmap_of world r).index_map.size_local).toNat 0).toNat).index_map.range0 :=
      rfl
    rw [e]
    have e2 : ghost_owner (dofmap_of world r) d
        = (dofmap_of world r).index_map.owners.getD
            (d - (dofmap_of world r).index_map.size_local).toNat 0 := rfl
    rw [e2]
    omega
  obtain ⟨_, u1, _⟩ := local_maps_u2r_range
    (dofmap_of world (ghost_owner (dofmap_of world r) d).toNat).index_map.size_local
    (restriction_of world (ghost_owner (dofmap_of world r) d).toNat)
  obtain ⟨j, hj, hj0, hj1⟩ := u1 _ hin hL
  have ho1' : (ghost_owner (dofmap_of world r) d).toNat < world.length := ho1
  refine ⟨ho1', (Int.toNat_of_nonneg ho0).symm, hk, j, hj, hj0, ?_, ?_⟩
  · rw [state_of_size_local world _ ho1']
    exact hj1
  · have e : ghost_global (dofmap_of world r) d
        - (dofmap_of world (ghost_owner (dofmap_of world r) d).toNat).index_map.range0
        = local_on_owner world (dofmap_of world r) d := rfl
    simp only [restricted_global, e, state_of_maps, hj, Option.getD_some]

/-- The restricted local index of a restricted ghost dof: it is at or above the restricted
owned size, and its distance to it is the position of the dof in the ghost arrays. -/
theorem ghost_entry (world : List (DofMap × List Int)) (r : Nat) (d : Int)
    (hrP : r < world.length) (hd : d ∈ restriction_of world r)
    (hge : (dofmap_of world r).index_map.size_local ≤ d) :
    ∃ i, StdMap.find (state_of world r).maps.unrestricted_to_restricted d = some i ∧
      (state_of world r).index_map.size_local ≤ i ∧
      (i - (state_of world r).index_map.size_local).toNat = ghost_position world r d ∧
      ghost_position world r d < (state_of world r).maps.size.toNat := by
  obtain ⟨_, _, u2⟩ := local_maps_u2r_range (dofmap_of world r).index_map.size_local
    (restriction_of world r)
  obtain ⟨i, hi, hlo, hhi⟩ := u2 d hd hge
  have hsl := state_of_size_local world r hrP
  refine ⟨i, hi, by rw [hsl]; exact hlo, ?_, ?_⟩
  · simp only [ghost_position, state_of_maps, hi, Option.getD_some]
  · simp only [ghost_position, state_of_maps, hi, Option.getD_some, hsl]
    omega

theorem restricted_owned_size_nonneg (world : List (DofMap × List Int)) (r : Nat)
    (hrP : r < world.length) : 0 ≤ (state_of world r).index_map.size_local := by
  rw [state_of_size_local world r hrP, map_owned_dofs_size]
  omega

/-- C3: for every valid world with valid, duplicate-free and consistent restrictions the
collective construction returns, and for every restricted ghost dof `d` of every rank `r` the
restricted global index that the final index map of `r` holds for `d` is the restricted global
index that the index map of the owning rank gives to the same dof: the start of the owner's
restricted owned block plus the owner's restricted local index of the dof. -/
theorem ghost_consistency (world : List (DofMap × List Int)) (hv : ValidWorld world)
    (hr : ValidRestrictions world) (hnd : NodupRestrictions world) (hc : Consistent world) :
    ∃ result, construct world = .ok result ∧
      ∀ r d, r < world.length → d ∈ restriction_of world r →
        (dofmap_of world r).index_map.size_local ≤ d →
        ∃ obj own i j,
          result[r]? = some obj ∧
          result[(ghost_owner (dofmap_of world r) d).toNat]? = some own ∧
          StdMap.find obj.unrestricted_to_restricted d = some i ∧
          StdMap.find own.unrestricted_to_restricted
            (local_on_owner world (dofmap_of world r) d) = some j ∧
          vecGet obj.index_map.global_indices i = .ok (own.index_map.range0 + j) ∧
          vecGet own.index_map.global_indices j = .ok (own.index_map.range0 + j) := by
  obtain ⟨result, hres, _, hobj⟩ := construct_spec world hv hr hnd hc
  refine ⟨result, hres, fun r d hrP hd hge => ?_⟩
  obtain ⟨hoP, _, _, j, hj, hj0, hj1, hrg⟩ := owner_entry world hv hr hc r d hrP hd hge
  obtain ⟨i, hi, hilo, hipos, hposlt⟩ := ghost_entry world r d hrP hd hge
  obtain ⟨obj, hobjr, hu, _, _, hsl, hgl, _, hval⟩ := hobj r hrP
  obtain ⟨own, hown, hou, _, horange, hosl, _, _, _⟩ := hobj _ hoP
  obtain ⟨hv1, _⟩ := hval d hd hge
  refine ⟨obj, own, i, j, hobjr, hown, by rw [hu]; exact hi, by rw [hou]; exact hj, ?_, ?_⟩
  · rw [global_indices_ghost obj.index_map i
      (by rw [hsl]; exact restricted_owned_size_nonneg world r hrP) (by rw [hsl]; exact hilo)
      (by rw [hsl, hipos, hgl]; exact hposlt)]
    rw [hsl, hipos, List.getD_eq_getElem?_getD, hv1, Option.getD_some, hrg, horange]
  · exact global_indices_owned own.index_map j hj0 (by rw [hosl]; exact hj1)

/-- The scenario of C3: rank 1 restricts its ghost of the global dof 1 and rank 0 restricts
that dof, its only restricted one; the ghost of rank 1 resolves to the restricted global index 0,
the one that rank 0 gives to the dof. -/
theorem ghost_consistency_witness :
    ∃ result, construct two_rank_world = .ok result ∧
      ∃ obj own i j, result[1]? = some obj ∧ result[0]? = some own ∧
        StdMap.find obj.unrestricted_to_restricted 1 = some i ∧
        StdMap.find own.unrestricted_to_restricted 1 = some j ∧
        vecGet obj.index_map.global_indices i = .ok (own.index_map.range0 + j) ∧
        vecGet own.index_map.global_indices j = .ok (own.index_map.range0 + j) := by
  obtain ⟨result, hres, h⟩ := ghost_consistency two_rank_world two_rank_world_valid
    two_rank_world_restrictions two_rank_world_nodup two_rank_world_consistent
  exact ⟨result, hres, h 1 1 (by decide) (by decide) (by decide)⟩

/-- C8: whenever the body of step 3 handles a reply pair `(restricted_global_dof, echoed dof)`
without error, it writes both ghost arrays at the position
`unrestricted_to_restricted[echoed dof] - n_owned_restricted`, the global index array with the
received index and the owner array with the owner that the unrestricted index map records for the
echoed ghost dof; and in a valid world with valid, duplicate-free, consistent restrictions the
construction returns and the final index map of every rank records, for every restricted ghost
dof, at its position, the owner of the underlying unrestricted ghost. -/
theorem ghost_owner_installed (world : List (DofMap × List Int)) (hv : ValidWorld world)
    (hr : ValidRestrictions world) (hnd : NodupRestrictions world) (hc : Consistent world) :
    (∀ (st : RankState) (arrays arrays' : List Int × List Int) (g d : Int),
      step3_body st arrays g d = .ok arrays' →
      ∃ i owner, StdMap.find st.maps.unrestricted_to_restricted d = some i ∧
        vecGet st.dofmap.index_map.owners (d - st.dofmap.index_map.size_local) = .ok owner ∧
        0 ≤ i - st.index_map.size_local ∧
        arrays'.1 = arrays.1.set (i - st.index_map.size_local).toNat g ∧
        arrays'.2 = arrays.2.set (i - st.index_map.size_local).toNat owner) ∧
    ∃ result, construct world = .ok result ∧
      ∀ r d, r < world.length → d ∈ restriction_of world r →
        (dofmap_of world r).index_map.size_local ≤ d →
        ∃ obj i owner, result[r]? = some obj ∧
          StdMap.find obj.unrestricted_to_restricted d = some i ∧
          vecGet (dofmap_of world r).index_map.owners
            (d - (dofmap_of world r).index_map.size_local) = .ok owner ∧
          obj.index_map.owners[(i - obj.index_map.size_local).toNat]? = some owner := by
  refine ⟨fun st arrays arrays' g d h => ?_, ?_⟩
  · simp only [step3_body, bind, Except.bind, StdMap.lookupAt, pure, Except.pure] at h
    cases hown : vecGet st.dofmap.index_map.owners (d - st.dofmap.index_map.size_local) with
    | error e => rw [hown] at h; cases h
    | ok owner =>
      rw [hown] at h
      cases hfind : StdMap.find st.maps.unrestricted_to_restricted d with
      | none => rw [hfind] at h; cases h
      | some i =>
        rw [hfind] at h
        simp only [vecSet] at h
        by_cases c1 : 0 ≤ i - st.index_map.size_local
            ∧ (i - st.index_map.size_local).toNat < arrays.1.length
        · rw [if_pos c1] at h
          by_cases c2 : 0 ≤ i - st.index_map.size_local
              ∧ (i - st.index_map.size_local).toNat < arrays.2.length
          · rw [if_pos c2] at h
            cases h
            exact ⟨i, owner, rfl, rfl, c1.1, rfl, rfl⟩
          · rw [if_neg c2] at h
            cases h
        · rw [if_neg c1] at h
          cases h
  · obtain ⟨result, hres, _, hobj⟩ := construct_spec world hv hr hnd hc
    refine ⟨result, hres, fun r d hrP hd hge => ?_⟩
    obtain ⟨i, hi, _, hipos, _⟩ := ghost_entry world r d hrP hd hge
    obtain ⟨obj, hobjr, hu, _, _, hsl, _, _, hval⟩ := hobj r hrP
    obtain ⟨_, hv2⟩ := hval d hd hge
    obtain ⟨_, hlen, _⟩ := hv r hrP
    have hlt := hr r hrP d hd
    refine ⟨obj, i, ghost_owner (dofmap_of world r) d, hobjr, by rw [hu]; exact hi, ?_, ?_⟩
    · exact vecGet_ok _ _ (by omega) (by rw [hlen]; omega)
    · rw [hsl, hipos]
      exact hv2

/-- An instance of C8 in the two-rank world: the ghost of rank 1 is installed with owner 0,
the owner that the unrestricted index map of rank 1 records for it. -/
theorem ghost_owner_installed_witness :
    ∃ result, construct two_rank_world = .ok result ∧
      ∃ obj i, result[1]? = some obj ∧
        StdMap.find obj.unrestricted_to_restricted 1 = some i ∧
        obj.index_map.owners[(i - obj.index_map.size_local).toNat]? = some 0 := by
  obtain ⟨result, hres, h⟩ := (ghost_owner_installed two_rank_world two_rank_world_valid
    two_rank_world_restrictions two_rank_world_nodup two_rank_world_consistent).2
  obtain ⟨obj, i, owner, h1, h2, h3, h4⟩ := h 1 1 (by decide) (by decide) (by decide)
  have : owner = 0 := by
    have e : vecGet (dofmap_of two_rank_world 1).index_map.owners
        (1 - (dofmap_of two_rank_world 1).index_map.size_local) = .ok 0 := rfl
    rw [e] at h3
    cases h3
    rfl
  subst this
  exact ⟨result, hres, obj, i, h1, h2, h4⟩

/-! ## Verification: the layout of the owned blocks -/

theorem sum_take_nonneg (l : List Int) (h : ∀ x, x ∈ l → 0 ≤ x) (r : Nat) :
    0 ≤ (l.take r).sum :=
  List.sum_nonneg (fun x hx => h x (List.mem_of_mem_take hx))

theorem sum_take_succ (l : List Int) (r : Nat) :
    (l.take (r + 1)).sum = (l.take r).sum + l.getD r 0 := by
  induction l generalizing r with
  | nil => simp
  | cons x l ih =>
    cases r with
    | zero => simp
    | succ r =>
      simp only [List.take_succ_cons, List.sum_cons, List.getD_cons_succ]
      rw [ih r]
      ring

theorem getD_nonneg (l : List Int) (h : ∀ x, x ∈ l → 0 ≤ x) (r : Nat) : 0 ≤ l.getD r 0 := by
  rw [List.getD_eq_getElem?_getD]
  cases hx : l[r]? with
  | none => simp
  | some x =>
    simp only [Option.getD_some]
    exact h x (List.getElem?_mem hx)

theorem sum_take_mono (l : List Int) (h : ∀ x, x ∈ l → 0 ≤ x) (r r' : Nat) (hrr : r ≤ r') :
    (l.take r).sum ≤ (l.take r').sum := by
  induction r', hrr using Nat.le_induction with
  | base => exact le_refl _
  | succ n _ ih =>
    rw [sum_take_succ]
    have := getD_nonneg l h n
    omega

theorem sum_take_le_sum (l : List Int) (h : ∀ x, x ∈ l → 0 ≤ x) (r : Nat) :
    (l.take r).sum ≤ l.sum := by
  by_cases hr : r ≤ l.length
  · have := sum_take_mono l h r l.length hr
    rwa [List.take_length] at this
  · rw [List.take_of_length_le (by omega)]

/-- Every index below the total lies in the block of one position. -/
theorem sum_take_cover (l : List Int) (G : Int) (h0 : 0 ≤ G) (h1 : G < l.sum) :
    ∃ r, r < l.length ∧ (l.take r).sum ≤ G ∧ G < (l.take r).sum + l.getD r 0 := by
  induction l generalizing G with
  | nil => simp at h1; omega
  | cons x l ih =>
    by_cases hx : G < x
    · exact ⟨0, by simp, by simpa using h0, by simpa using hx⟩
    · simp only [List.sum_cons] at h1
      obtain ⟨r, hr, hlo, hhi⟩ := ih (G - x) (by omega) (by omega)
      refine ⟨r + 1, by simpa using hr, ?_, ?_⟩
      · simp only [List.take_succ_cons, List.sum_cons]
        omega
      · simp only [List.take_succ_cons, List.sum_cons, List.getD_cons_succ]
        omega

theorem restricted_owned_sizes_nonneg (world : List (DofMap × List Int)) :
    ∀ x, x ∈ restricted_owned_sizes world → 0 ≤ x := by
  intro x hx
  obtain ⟨w, _, rfl⟩ := List.mem_map.mp hx
  rw [map_owned_dofs_size]
  omega

theorem state_of_range0 (world : List (DofMap × List Int)) (r : Nat) :
    (state_of world r).index_map.range0 = ((restricted_owned_sizes world).take r).sum := rfl

theorem state_of_size_local_getD (world : List (DofMap × List Int)) (r : Nat) :
    (state_of world r).index_map.size_local = (restricted_owned_sizes world).getD r 0 := rfl

/-- The blocks of two ranks do not meet: an index of the block of a lower rank is below the
start of the block of a higher rank. -/
theorem block_lt (world : List (DofMap × List Int)) (r r' : Nat) (hlt : r < r') (i : Int)
    (hi : i < (state_of world r).index_map.size_local) :
    (state_of world r).index_map.range0 + i < (state_of world r').index_map.range0 := by
  rw [state_of_range0, state_of_range0]
  rw [state_of_size_local_getD] at hi
  have h1 := sum_take_succ (restricted_owned_sizes world) r
  have h2 := sum_take_mono (restricted_owned_sizes world)
    (restricted_owned_sizes_nonneg world) (r + 1) r' hlt
  omega

/-- C7: the index maps built from `restricted_owned_size` of every rank lay the owned blocks
out by rank: the restricted global index of the owned restricted dof `i` of rank `r` is the
start of the block of `r` plus `i`; these indices lie in `[0, total)`, where `total` is the sum
of the restricted owned sizes, are pairwise distinct across ranks, and every index of
`[0, total)` is one of them. In a valid world with valid, duplicate-free, consistent restrictions
the construction returns, the final index map of every rank keeps the block of the provisional
one, and every ghost of it has its restricted global index inside the block of the rank recorded
as its owner. -/
theorem global_uniqueness (world : List (DofMap × List Int)) (hv : ValidWorld world)
    (hr : ValidRestrictions world) (hnd : NodupRestrictions world) (hc : Consistent world) :
    (∀ r i, r < world.length → 0 ≤ i → i < (state_of world r).index_map.size_local →
      vecGet (state_of world r).index_map.global_indices i
        = .ok ((state_of world r).index_map.range0 + i) ∧
      0 ≤ (state_of world r).index_map.range0 + i ∧
      (state_of world r).index_map.range0 + i < (restricted_owned_sizes world).sum) ∧
    (∀ r r' i i', r < world.length → r' < world.length →
      0 ≤ i → i < (state_of world r).index_map.size_local →
      0 ≤ i' → i' < (state_of world r').index_map.size_local →
      (state_of world r).index_map.range0 + i = (state_of world r').index_map.range0 + i' →
      r = r' ∧ i = i') ∧
    (∀ G, 0 ≤ G → G < (restricted_owned_sizes world).sum →
      ∃ r i, r < world.length ∧ 0 ≤ i ∧ i < (state_of world r).index_map.size_local ∧
        (state_of world r).index_map.range0 + i = G) ∧
    ∃ result, construct world = .ok result ∧
      ∀ r, r < world.length → ∃ obj, result[r]? = some obj ∧
        obj.index_map.range0 = (state_of world r).index_map.range0 ∧
        obj.index_map.size_local = (state_of world r).index_map.size_local ∧
        ∀ (p : Nat) (G : Int), obj.index_map.ghosts[p]? = some G →
          ∃ o : Nat, o < world.length ∧ obj.index_map.owners[p]? = some (o : Int) ∧
            (state_of world o).index_map.range0 ≤ G ∧
            G < (state_of world o).index_map.range0 + (state_of world o).index_map.size_local := by
  have hnn := restricted_owned_sizes_nonneg world
  refine ⟨fun r i _ h0 h1 => ⟨global_indices_owned _ i h0 h1, ?_, ?_⟩,
    fun r r' i i' _ _ h0 h1 h0' h1' he => ?_, fun G h0 h1 => ?_, ?_⟩
  · have := sum_take_nonneg (restricted_owned_sizes world) hnn r
    rw [state_of_range0]
    omega
  · have h2 := sum_take_succ (restricted_owned_sizes world) r
    have h3 := sum_take_le_sum (restricted_owned_sizes world) hnn (r + 1)
    rw [state_of_range0]
    rw [state_of_size_local_getD] at h1
    omega
  · rcases Nat.lt_trichotomy r r' with hlt | heq | hgt
    · have := block_lt world r r' hlt i h1
      omega
    · subst heq
      exact ⟨rfl, by omega⟩
    · have := block_lt world r' r hgt i' h1'
      omega
  · obtain ⟨r, hrl, hlo, hhi⟩ := sum_take_cover (restricted_owned_sizes world) G h0 h1
    refine ⟨r, G - (state_of world r).index_map.range0, by simpa [restricted_owned_sizes] using hrl,
      ?_, ?_, by omega⟩
    · rw [state_of_range0]
      omega
    · rw [state_of_range0, state_of_size_local_getD]
      omega
  · obtain ⟨result, hres, _, hobj⟩ := construct_spec world hv hr hnd hc
    refine ⟨result, hres, fun r hrP => ?_⟩
    obtain ⟨obj, hobjr, _, _, hrange, hsl, hgl, _, hval⟩ := hobj r hrP
    refine ⟨obj, hobjr, hrange, hsl, fun p G hpG => ?_⟩
    have hp : p < (ghost_entries (dofmap_of world r).index_map.size_local
        (restriction_of world r)).length := by
      obtain ⟨hp, _⟩ := List.getElem?_eq_some.mp hpG
      rw [hgl, state_of_maps, local_maps_size] at hp
      simpa using hp
    have hmem := mem_ghost_entries.mp (List.getElem_mem hp)
    have hpos := ghost_position_entry world r hrP (hnd r hrP) p hp
    obtain ⟨hv1, hv2⟩ := hval _ hmem.1 hmem.2
    rw [hpos] at hv1 hv2
    obtain ⟨hoP, hoi, _, j, _, hj0, hj1, hrg⟩ :=
      owner_entry world hv hr hc r _ hrP hmem.1 hmem.2
    rw [hpG] at hv1
    have hG : G = restricted_global world _ _ := Option.some.inj hv1
    refine ⟨_, hoP, by rw [hv2, ← hoi], ?_, ?_⟩
    · rw [hG, hrg]; omega
    · rw [hG, hrg]; omega

/-- An instance of C7 in the two-rank world: the two restricted owned blocks are `[0, 1)` and
`[1, 2)`, and the ghost of rank 1 has the restricted global index 0, in the block of its owner,
rank 0. -/
theorem global_uniqueness_witness :
    (restricted_owned_sizes two_rank_world).sum = 2 ∧
    ∃ result, construct two_rank_world = .ok result ∧
      ∃ obj, result[1]? = some obj ∧
        ∀ (p : Nat) (G : Int), obj.index_map.ghosts[p]? = some G →
          ∃ o : Nat, o < 2 ∧ obj.index_map.owners[p]? = some (o : Int) ∧
            (state_of two_rank_world o).index_map.range0 ≤ G ∧
            G < (state_of two_rank_world o).index_map.range0
              + (state_of two_rank_world o).index_map.size_local := by
  obtain ⟨result, hres, h⟩ := (global_uniqueness two_rank_world two_rank_world_valid
    two_rank_world_restrictions two_rank_world_nodup two_rank_world_consistent).2.2.2
  obtain ⟨obj, hobj, _, _, hg⟩ := h 1 (by decide)
  exact ⟨by decide, result, hres, obj, hobj, hg⟩

/-! ## The size of the cell table -/

theorem length_flatten_eq_sum (rows : List (List Int)) :
    rows.flatten.length = (rows.map List.length).sum := by
  induction rows with
  | nil => rfl
  | cons row rows ih => simp [ih]

/-- C11: for every unrestricted cell-dof table and every map `unrestricted_to_restricted`,
`_compute_cell_dofs` returns; `_cell_bounds` starts at 0 and does not decrease from a cell to the
next; its last entry is the length of `_dof_array`; and that length is the sum, over the cells,
of the number of dofs of the cell that are keys of the map, which is the value
`restricted_cell_dofs_total_size` that the first pass computes. -/
theorem compute_cell_dofs_total_size (u2r : StdMap Int) (cells : List (List Int)) :
    ∃ t, compute_cell_dofs u2r cells = .ok t ∧
      t.cell_bounds[0]? = some 0 ∧
      (∀ c, c < cells.length →
        ∃ a b, t.cell_bounds[c]? = some a ∧ t.cell_bounds[c + 1]? = some b ∧ a ≤ b) ∧
      t.cell_bounds[cells.length]? = some t.dof_array.length ∧
      t.dof_array.length
        = (cells.map (fun cell => cell.countP (fun d => (StdMap.find u2r d).isSome))).sum ∧
      ((List.range cells.length).foldl (first_pass_step u2r cells) ([], 0)).2
        = t.dof_array.length := by
  have hlen : (cells.map (restrict_cell u2r)).length = cells.length := by simp
  have hsum : ((cells.map (restrict_cell u2r)).map List.length).sum
      = (cells.map (fun cell => cell.countP (fun d => (StdMap.find u2r d).isSome))).sum := by
    rw [List.map_map]
    congr 1
    apply List.map_congr_left
    intro cell _
    simp only [Function.comp, restrict_cell_eq, length_filterMap_eq_countP]
  refine ⟨_, compute_cell_dofs_eq u2r cells, ?_, fun c hc => ?_, ?_, ?_, ?_⟩
  · exact offsetsFrom_getElem? 0 _ 0 (Nat.zero_le _)
  · refine ⟨_, _, offsetsFrom_getElem? 0 _ c (by omega),
      offsetsFrom_getElem? 0 _ (c + 1) (by omega), ?_⟩
    rw [List.take_succ]
    simp only [List.map_append, List.sum_append]
    omega
  · show (offsetsFrom 0 (cells.map (restrict_cell u2r)))[cells.length]? = _
    rw [offsetsFrom_getElem? 0 _ cells.length (by omega), ← hlen, List.take_length,
      length_flatten_eq_sum]
    simp
  · show (cells.map (restrict_cell u2r)).flatten.length = _
    rw [length_flatten_eq_sum, hsum]
  · obtain ⟨_, f2⟩ := first_pass_spec u2r cells cells.length
    rw [f2, range_map_getD cells (restrict_cell u2r)]
    exact (length_flatten_eq_sum _).symm

/-- An instance of C11: three cells under the map `5 ↦ 0`, with one, none and two restricted
dofs; the bounds are `0, 1, 1, 3` and the table holds three values. -/
theorem compute_cell_dofs_total_size_witness :
    ∃ t, compute_cell_dofs [(5, 0)] [[2, 5, 7], [1, 2, 3], [5, 5, 1]] = .ok t ∧
      t.cell_bounds[3]? = some t.dof_array.length ∧ t.dof_array.length = 3 ∧
      ∃ a b, t.cell_bounds[2]? = some a ∧ t.cell_bounds[3]? = some b ∧ a ≤ b := by
  obtain ⟨t, h, _, hmono, hlast, hsum, _⟩ :=
    compute_cell_dofs_total_size [(5, 0)] [[2, 5, 7], [1, 2, 3], [5, 5, 1]]
  exact ⟨t, h, hlast, by rw [hsum]; decide, hmono 2 (by decide)⟩

/-! ## The empty restriction -/

/-- C12: on a rank whose restriction is empty, whatever its unrestricted dof map, the owned-dof
mapper returns two empty maps and `n_owned_restricted = 0`, the ghost numbering adds nothing, the
provisional index map has no owned entry and no ghost, step 1 returns with an empty buffer for
every destination, and `_compute_cell_dofs` returns a table in which the slice of every cell is
empty. -/
theorem empty_restriction_valid (world : List (DofMap × List Int)) (r : Nat)
    (hrP : r < world.length) (hempty : restriction_of world r = []) :
    map_owned_dofs (dofmap_of world r).index_map.size_local (restriction_of world r)
      = ⟨[], [], 0⟩ ∧
    (state_of world r).maps = ⟨[], [], 0⟩ ∧
    (state_of world r).index_map.size_local = 0 ∧
    (state_of world r).index_map.ghosts = [] ∧
    (state_of world r).index_map.owners = [] ∧
    (state_of world r).index_map.global_indices = [] ∧
    step1_compute world.length r (state_of world r) = .ok (List.replicate world.length []) ∧
    ∃ t, compute_cell_dofs (state_of world r).maps.unrestricted_to_restricted
        (state_of world r).dofmap.cell_dofs = .ok t ∧
      ∀ c, c < (state_of world r).dofmap.cell_dofs.length → cell_slice t c = [] := by
  have hsl : (state_of world r).index_map.size_local = 0 := by
    rw [state_of_size_local world r hrP, hempty]
    rfl
  have hmaps : (state_of world r).maps = ⟨[], [], 0⟩ := by
    rw [state_of_maps, hempty]
    rfl
  refine ⟨by rw [hempty]; rfl, hmaps, hsl, rfl, rfl, ?_, ?_, ?_⟩
  · simp only [IndexMap.global_indices, hsl, state_of_ghosts]
    rfl
  · simp only [step1_compute, state_of_restriction, hempty, foldlE]
  · refine ⟨_, compute_cell_dofs_eq _ _, fun c hc => ?_⟩
    rw [cell_slice_eq _ _ c hc, hmaps]
    exact List.filterMap_eq_nil_iff.mpr (fun d _ => rfl)

/-- An instance of C12: rank 1 of the two-rank world with an empty restriction. -/
theorem empty_restriction_valid_witness :
    (state_of two_rank_world_empty 1).maps = ⟨[], [], 0⟩ ∧
    (state_of two_rank_world_empty 1).index_map.size_local = 0 ∧
    step1_compute 2 1 (state_of two_rank_world_empty 1) = .ok [[], []] := by
  obtain ⟨_, h1, h2, _, _, _, h3, _⟩ :=
    empty_restriction_valid two_rank_world_empty 1 (by decide) rfl
  exact ⟨h1, h2, h3⟩

/-! ## The order of the replies -/

/-- Two orders of the same writes give the same arrays, when the writes at one position all
carry the same values. -/
theorem foldlE_writes_perm {α : Type}
    (f : List Int × List Int → α → Except Error (List Int × List Int))
    (pos : α → Nat) (v1 v2 : α → Int) (n : Nat) (xs ys : List α)
    (hf : ∀ arrs x, x ∈ xs → arrs.1.length = n → arrs.2.length = n →
      f arrs x = .ok (arrs.1.set (pos x) (v1 x), arrs.2.set (pos x) (v2 x)))
    (hpos : ∀ x, x ∈ xs → pos x < n)
    (hun : ∀ x y, x ∈ xs → y ∈ xs → pos y = pos x → v1 y = v1 x ∧ v2 y = v2 x)
    (hperm : ys.Perm xs)
    (arrs : List Int × List Int) (h1 : arrs.1.length = n) (h2 : arrs.2.length = n) :
    foldlE f arrs ys = foldlE f arrs xs := by
  obtain ⟨ax, hx, _, _, hkx, hvx⟩ := foldlE_writes f pos v1 v2 n xs hf hpos arrs h1 h2
  obtain ⟨ay, hy, _, _, hky, hvy⟩ := foldlE_writes f pos v1 v2 n ys
    (fun arrs x hxm => hf arrs x (hperm.mem_iff.mp hxm))
    (fun x hxm => hpos x (hperm.mem_iff.mp hxm)) arrs h1 h2
  rw [hx, hy]
  have key : ∀ p : Nat, ay.1[p]? = ax.1[p]? ∧ ay.2[p]? = ax.2[p]? := by
    intro p
    by_cases hex : ∃ x, x ∈ xs ∧ pos x = p
    · obtain ⟨x, hxm, rfl⟩ := hex
      obtain ⟨a1, a2⟩ := hvx x hxm (fun y hym => hun x y hxm hym)
      obtain ⟨b1, b2⟩ := hvy x (hperm.mem_iff.mpr hxm)
        (fun y hym => hun x y hxm (hperm.mem_iff.mp hym))
      exact ⟨b1.trans a1.symm, b2.trans a2.symm⟩
    · have hno : ∀ x, x ∈ xs → pos x ≠ p := fun x hxm h => hex ⟨x, hxm, h⟩
      obtain ⟨a1, a2⟩ := hkx p hno
      obtain ⟨b1, b2⟩ := hky p (fun x hxm => hno x (hperm.mem_iff.mp hxm))
      exact ⟨b1.trans a1.symm, b2.trans a2.symm⟩
  congr 1
  exact Prod.ext (List.ext_getElem? (fun p => (key p).1)) (List.ext_getElem? (fun p => (key p).2))

/-- Two replies that rank `r` receives for the same position are the same reply. -/
theorem replies_uniform (world : List (DofMap × List Int)) (r : Nat) (hrP : r < world.length)
    (hnd : (restriction_of world r).Nodup) (x y : Int × Int)
    (hx : x ∈ (List.range world.length).flatMap (fun o => replies world o r))
    (hy : y ∈ (List.range world.length).flatMap (fun o => replies world o r))
    (hpos : ghost_position world r y.2 = ghost_position world r x.2) :
    y.1 = x.1 ∧ ghost_owner (dofmap_of world r) y.2 = ghost_owner (dofmap_of world r) x.2 := by
  obtain ⟨o, _, hxo⟩ := mem_all_replies hx
  obtain ⟨o', _, hyo⟩ := mem_all_replies hy
  obtain ⟨hxd, hxge, hxown, hx1⟩ := mem_replies hxo
  obtain ⟨hyd, hyge, hyown, hy1⟩ := mem_replies hyo
  have h2 : y.2 = x.2 := ghost_position_inj world r hrP hnd y.2 x.2 hyd hyge hxd hxge hpos
  rw [h2] at hyown hy1
  have ho : o' = o := by
    have : (o' : Int) = (o : Int) := hyown.symm.trans hxown
    exact_mod_cast this
  rw [ho] at hy1
  exact ⟨hy1.trans hx1.symm, by rw [h2]⟩

/-- C13: on a rank of a valid world with valid, duplicate-free restrictions, step 3 returns and
produces the same ghost global-index and ghost-owner arrays for every order in which the reply
pairs addressed to the rank arrive: whenever the pairs received, source by source, are a
permutation of the replies, across sources and within a source, the arrays are those of the
replies in the order of the sources. -/
theorem install_order_independent (world : List (DofMap × List Int)) (hv : ValidWorld world)
    (hr : ValidRestrictions world) (hnd : NodupRestrictions world) (r : Nat)
    (hrP : r < world.length) (received received' : AdjacencyList)
    (T : Nat → List (Int × Int))
    (hrec : ∀ o, o < world.length →
      received.links o = ((replies world o r).map enc2).flatten)
    (hrec' : ∀ o, o < world.length → received'.links o = ((T o).map enc2).flatten)
    (hperm : ((List.range world.length).flatMap T).Perm
      ((List.range world.length).flatMap (fun o => replies world o r))) :
    (∃ arrays, step3_compute world.length (state_of world r) received = .ok arrays) ∧
    step3_compute world.length (state_of world r) received'
      = step3_compute world.length (state_of world r) received := by
  refine ⟨?_, ?_⟩
  · obtain ⟨arrs, h, _⟩ := step3_compute_spec world hv hr hnd r hrP received hrec
    exact ⟨arrs, h⟩
  · rw [step3_compute_flat world.length _ received (fun o => replies world o r) hrec,
      step3_compute_flat world.length _ received' T hrec']
    exact foldlE_writes_perm (step3_reply (state_of world r))
      (fun p => ghost_position world r p.2) (fun p => p.1)
      (fun p => ghost_owner (dofmap_of world r) p.2) (state_of world r).maps.size.toNat _ _
      (fun arrs p hp h1 h2 => by
        obtain ⟨o, _, hpo⟩ := mem_all_replies hp
        obtain ⟨hd, hge, _, _⟩ := mem_replies hpo
        exact (step3_reply_eq world hv hr r hrP p.2 hd hge p.1 arrs h1 h2).2)
      (fun p hp => by
        obtain ⟨o, _, hpo⟩ := mem_all_replies hp
        obtain ⟨hd, hge, _, _⟩ := mem_replies hpo
        exact (step3_reply_eq world hv hr r hrP p.2 hd hge p.1
          (List.replicate (state_of world r).maps.size.toNat 0,
            List.replicate (state_of world r).maps.size.toNat 0) (by simp) (by simp)).1)
      (fun x y hx hy hpos => replies_uniform world r hrP (hnd r hrP) x y hx hy hpos)
      hperm _ (by simp) (by simp)

theorem two_ghost_world_valid : ValidWorld two_ghost_world := by
  intro r hr
  have hr' : r < 2 := hr
  interval_cases r
  · refine ⟨by decide, by decide, fun k hk => ?_⟩
    exact absurd hk (Nat.not_lt_zero k)
  · refine ⟨by decide, by decide, fun k hk => ?_⟩
    have hk' : k < 2 := hk
    interval_cases k <;> decide

theorem two_ghost_world_restrictions : ValidRestrictions two_ghost_world := by
  intro r hr
  have hr' : r < 2 := hr
  interval_cases r <;> decide

theorem two_ghost_world_nodup : NodupRestrictions two_ghost_world := by
  intro r hr
  have hr' : r < 2 := hr
  interval_cases r <;> decide

theorem two_ghost_world_consistent : Consistent two_ghost_world := by
  intro r hr
  have hr' : r < 2 := hr
  interval_cases r <;> decide

/-- An instance of C13: rank 1 of the world with two ghosts receives from rank 0 the replies
`(0, 1)` and `(1, 2)`; receiving them in the other order gives the same arrays. -/
theorem install_order_independent_witness :
    step3_compute 2 (state_of two_ghost_world 1) (AdjacencyList.ofLists [[1, 2, 0, 1], []])
      = step3_compute 2 (state_of two_ghost_world 1)
          (AdjacencyList.ofLists [[0, 1, 1, 2], []]) :=
  (install_order_independent two_ghost_world two_ghost_world_valid
    two_ghost_world_restrictions two_ghost_world_nodup 1 (by decide)
    (AdjacencyList.ofLists [[0, 1, 1, 2], []]) (AdjacencyList.ofLists [[1, 2, 0, 1], []])
    (fun o => if o = 0 then [(1, 2), (0, 1)] else [])
    (fun o ho => by
      have ho' : o < 2 := ho
      interval_cases o <;> rfl)
    (fun o ho => by
      have ho' : o < 2 := ho
      interval_cases o <;> rfl)
    (List.Perm.swap (0, 1) (1, 2) [])).2

/-! ## The requests of round 1 -/

theorem sum_indicator_range (k : Int) (n : Nat) :
    ((List.range n).map (fun (o : Nat) => if k = (o : Int) then 1 else 0)).sum
      = if 0 ≤ k ∧ k.toNat < n then 1 else 0 := by
  induction n with
  | zero => simp
  | succ n ih =>
    rw [List.range_succ, List.map_append, List.sum_append, ih]
    simp only [List.map_cons, List.map_nil, List.sum_cons, List.sum_nil, Nat.add_zero]
    by_cases h1 : 0 ≤ k ∧ k.toNat < n
    · have h2 : ¬ k = (n : Int) := by omega
      have h3 : 0 ≤ k ∧ k.toNat < n + 1 := ⟨h1.1, by omega⟩
      rw [if_pos h1, if_neg h2, if_pos h3]
    · by_cases h2 : k = (n : Int)
      · have h3 : 0 ≤ k ∧ k.toNat < n + 1 := by omega
        rw [if_neg h1, if_pos h2, if_pos h3]
      · have h3 : ¬ (0 ≤ k ∧ k.toNat < n + 1) := by omega
        rw [if_neg h1, if_neg h2, if_neg h3]

/-- Sorting a list by destination loses nothing: the parts have, together, the length of the
list, when every destination is a rank. -/
theorem sum_length_filter_dest (L : List Int) (dest : Int → Int) (n : Nat)
    (h : ∀ d, d ∈ L → 0 ≤ dest d ∧ (dest d).toNat < n) :
    ((List.range n).map (fun (o : Nat) =>
        (L.filter (fun d => decide (dest d = (o : Int)))).length)).sum
      = L.length := by
  induction L with
  | nil => simp
  | cons d L ih =>
    have hd := h d (List.mem_cons_self _ _)
    have hstep : ∀ o : Nat, ((d :: L).filter (fun d => decide (dest d = (o : Int)))).length
        = (if dest d = (o : Int) then 1 else 0)
          + (L.filter (fun d => decide (dest d = (o : Int)))).length := by
      intro o
      rw [List.filter_cons]
      by_cases c : dest d = (o : Int)
      · simp [c]; omega
      · simp [c]
    simp only [hstep]
    rw [List.sum_map_add, ih (fun x hx => h x (List.mem_cons_of_mem _ hx)),
      sum_indicator_range, if_pos hd, List.length_cons]
    omega

theorem length_flatten_enc3 (ts : List (Int × Int × Int)) :
    ((ts.map enc3).flatten).length = 3 * ts.length := by
  induction ts with
  | nil => rfl
  | cons t ts ih =>
    simp only [List.map_cons, List.flatten_cons, List.length_append, ih, enc3,
      List.length_cons, List.length_nil]
    omega

theorem requests_eq_filter (world : List (DofMap × List Int)) (r o : Nat) :
    requests world r o
      = ((ghost_entries (dofmap_of world r).index_map.size_local (restriction_of world r)).filter
          (fun d => decide (ghost_owner (dofmap_of world r) d = (o : Int)))).map
        (fun d => (d, ghost_global (dofmap_of world r) d, (r : Int))) := by
  simp only [requests, ghost_entries, List.filter_filter]
  congr 1
  apply List.filter_congr
  intro d _
  exact Bool.and_comm _ _

/-- What validity gives for a ghost entry of a restriction: the reads of step 1 are in range. -/
theorem ghost_reads (world : List (DofMap × List Int)) (hv : ValidWorld world)
    (hr : ValidRestrictions world) (r : Nat) (hrP : r < world.length) (d : Int)
    (hd : d ∈ restriction_of world r) (hge : (dofmap_of world r).index_map.size_local ≤ d) :
    vecGet (dofmap_of world r).index_map.global_indices d
      = .ok (ghost_global (dofmap_of world r) d) ∧
    vecGet (dofmap_of world r).index_map.owners (d - (dofmap_of world r).index_map.size_local)
      = .ok (ghost_owner (dofmap_of world r) d) ∧
    0 ≤ ghost_owner (dofmap_of world r) d ∧
    (ghost_owner (dofmap_of world r) d).toNat < world.length ∧
    ghost_owner (dofmap_of world r) d ≠ (r : Int) := by
  obtain ⟨hn, hlen, hgh⟩ := hv r hrP
  have hlt := hr r hrP d hd
  have hk : (d - (dofmap_of world r).index_map.size_local).toNat
      < (dofmap_of world r).index_map.ghosts.length := by omega
  obtain ⟨h0, h1, hne, _, _⟩ := hgh _ hk
  exact ⟨global_indices_ghost _ d hn hge hk,
    vecGet_ok _ _ (by omega) (by rw [hlen]; exact hk), h0, h1, hne⟩

/-- C14: in a valid world with valid restrictions, step 1 on a rank returns one payload per
destination; the payload for the destination `o` is the concatenation, in restriction order, of
the triples (unrestricted local dof, its unrestricted global index, this rank) of the entries of
the restriction that are at or above the unrestricted owned size and whose unrestricted ghost
owner is `o`, the global index and the owner being what step 1 reads in the arrays of the
unrestricted index map; owned entries contribute nothing; and the payloads have, together,
three values per ghost entry. -/
theorem step1_requests (world : List (DofMap × List Int)) (hv : ValidWorld world)
    (hr : ValidRestrictions world) (r : Nat) (hrP : r < world.length) :
    ∃ send_buffer, step1_compute world.length r (state_of world r) = .ok send_buffer ∧
      send_buffer.length = world.length ∧
      (∀ o, o < world.length → send_buffer[o]? = some
        (((restriction_of world r).filter (fun d =>
            decide (d ≥ (dofmap_of world r).index_map.size_local)
              && decide (ghost_owner (dofmap_of world r) d = (o : Int)))).map
          (fun d => [d, ghost_global (dofmap_of world r) d, (r : Int)])).flatten) ∧
      (∀ d, d ∈ restriction_of world r → (dofmap_of world r).index_map.size_local ≤ d →
        vecGet (dofmap_of world r).index_map.global_indices d
          = .ok (ghost_global (dofmap_of world r) d) ∧
        vecGet (dofmap_of world r).index_map.owners
            (d - (dofmap_of world r).index_map.size_local)
          = .ok (ghost_owner (dofmap_of world r) d)) ∧
      (send_buffer.map List.length).sum
        = 3 * (ghost_entries (dofmap_of world r).index_map.size_local
            (restriction_of world r)).length := by
  refine ⟨_, step1_compute_eq world hv hr r hrP, by simp, fun o ho => ?_, fun d hd hge => ?_, ?_⟩
  · rw [List.getElem?_map, List.getElem?_range ho]
    simp only [Option.map_some', requests, List.map_map, Function.comp_def, enc3]
  · obtain ⟨h1, h2, _⟩ := ghost_reads world hv hr r hrP d hd hge
    exact ⟨h1, h2⟩
  · rw [List.map_map]
    have hfun : (List.length ∘ fun o => ((requests world r o).map enc3).flatten)
        = fun (o : Nat) => 3 * ((ghost_entries (dofmap_of world r).index_map.size_local
            (restriction_of world r)).filter
            (fun d => decide (ghost_owner (dofmap_of world r) d = (o : Int)))).length := by
      funext o
      simp only [Function.comp, length_flatten_enc3, requests_eq_filter, List.length_map]
    rw [hfun, List.sum_map_mul_left,
      sum_length_filter_dest _ (ghost_owner (dofmap_of world r)) world.length
        (fun d hd => by
          obtain ⟨hd1, hd2⟩ := mem_ghost_entries.mp hd
          obtain ⟨_, _, h0, h1, _⟩ := ghost_reads world hv hr r hrP d hd1 hd2
          exact ⟨h0, h1⟩)]

/-- An instance of C14: rank 1 of the world with two ghosts sends both requests to rank 0 and
nothing to itself, six values in all. -/
theorem step1_requests_witness :
    ∃ send_buffer, step1_compute 2 1 (state_of two_ghost_world 1) = .ok send_buffer ∧
      send_buffer[0]? = some [1, 0, 1, 2, 1, 1] ∧ send_buffer[1]? = some [] ∧
      (send_buffer.map List.length).sum = 6 := by
  obtain ⟨b, h, _, hb, _, hs⟩ := step1_requests two_ghost_world two_ghost_world_valid
    two_ghost_world_restrictions 1 (by decide)
  exact ⟨b, h, by rw [hb 0 (by decide)]; rfl, by rw [hb 1 (by decide)]; rfl,
    by rw [hs]; rfl⟩

/-! ## The replies of round 2 -/

/-- From the success of a loop, a fact about every item, when the success of the body at an
item gives the fact. -/
theorem foldlE_ok_items {σ α : Type} (f : σ → α → Except Error σ) (I : σ → Prop)
    (Q : α → Prop) (h : ∀ s x s1, I s → f s x = .ok s1 → Q x ∧ I s1) (xs : List α)
    (s s' : σ) (hs : I s) (hfold : foldlE f s xs = .ok s') : ∀ x, x ∈ xs → Q x := by
  induction xs generalizing s with
  | nil => intro x hx; cases hx
  | cons a xs ih =>
    simp only [foldlE] at hfold
    cases hfa : f s a with
    | error e => rw [hfa] at hfold; cases hfold
    | ok s1 =>
      rw [hfa] at hfold
      obtain ⟨hq, hi⟩ := h s a s1 hs hfa
      intro x hx
      rcases List.mem_cons.mp hx with rfl | hmem
      · exact hq
      · exact ih s1 hi hfold x hmem

theorem vecGet_eq_ok (xs : List Int) (i x : Int) (h : vecGet xs i = .ok x) :
    0 ≤ i ∧ i.toNat < xs.length ∧ xs.getD i.toNat 0 = x := by
  simp only [vecGet] at h
  by_cases h0 : 0 ≤ i
  · rw [if_pos h0] at h
    cases hx : xs[i.toNat]? with
    | none => rw [hx] at h; cases h
    | some y =>
      rw [hx] at h
      cases h
      obtain ⟨hlt, hy⟩ := List.getElem?_eq_some.mp hx
      exact ⟨h0, hlt, by rw [List.getD_eq_getElem _ _ hlt]; exact hy⟩
  · rw [if_neg h0] at h
    cases h

theorem pushAt_eq_ok (buf buf' : List (List Int)) (i : Int) (xs : List Int)
    (h : pushAt buf i xs = .ok buf') :
    0 ≤ i ∧ i.toNat < buf.length ∧ buf'.length = buf.length ∧
      buf'.getD i.toNat [] = buf.getD i.toNat [] ++ xs ∧
      ∀ o, o ≠ i.toNat → buf'.getD o [] = buf.getD o [] := by
  simp only [pushAt] at h
  by_cases c : 0 ≤ i ∧ i.toNat < buf.length
  · rw [if_pos c] at h
    cases h
    refine ⟨c.1, c.2, by simp, ?_, fun o ho => ?_⟩
    · simp [List.getD_eq_getElem?_getD, List.getElem?_set, c.2]
    · simp [List.getD_eq_getElem?_getD, List.getElem?_set, Ne.symm ho]
  · rw [if_neg c] at h
    cases h

/-- The body of step 2 when the lookup of the owner finds the key. -/
theorem step2_body_found (st : RankState) (buf : List (List Int)) (l g s j : Int)
    (hj : StdMap.find st.maps.unrestricted_to_restricted (g - st.dofmap.index_map.range0)
      = some j) :
    step2_body st buf l g s =
      match vecGet st.index_map.global_indices j with
      | .ok restricted_global_dof => pushAt buf s [restricted_global_dof, l]
      | .error e => .error e := by
  simp only [step2_body, StdMap.lookupAt, hj, bind, Except.bind]
  cases vecGet st.index_map.global_indices j <;> rfl

theorem step2_request_ok (st : RankState) (buf buf' : List (List Int)) (t : Int × Int × Int)
    (h : step2_request st buf t = .ok buf') :
    (step2_request st buf t = pushAt buf t.2.2 [reply_value st t.2.1, t.1] ∧
      0 ≤ t.2.2 ∧ t.2.2.toNat < buf.length) ∧ buf'.length = buf.length := by
  simp only [step2_request] at h ⊢
  cases hj : StdMap.find st.maps.unrestricted_to_restricted
      (t.2.1 - st.dofmap.index_map.range0) with
  | none =>
    simp only [step2_body, StdMap.lookupAt, hj, bind, Except.bind] at h
    cases h
  | some j =>
    rw [step2_body_found st buf t.1 t.2.1 t.2.2 j hj] at h ⊢
    cases hG : vecGet st.index_map.global_indices j with
    | error e => rw [hG] at h; cases h
    | ok G =>
      rw [hG] at h
      simp only [] at h ⊢
      obtain ⟨_, _, hval⟩ := vecGet_eq_ok _ _ _ hG
      have hrv : reply_value st t.2.1 = G := by
        simp only [reply_value, hj, Option.getD_some]
        exact hval
      obtain ⟨h0, h1, hlen, _, _⟩ := pushAt_eq_ok _ _ _ _ h
      rw [hrv]
      exact ⟨⟨rfl, h0, h1⟩, hlen⟩

/-- The reply buffers of step 2, whenever step 2 returns: the buffer for the rank `s` holds one
pair per received triple that carries the sender rank `s`, in the order received. -/
theorem step2_compute_ok (n : Nat) (st : RankState) (received : AdjacencyList)
    (T : Nat → List (Int × Int × Int))
    (hT : ∀ r, r < n → received.links r = ((T r).map enc3).flatten)
    (send_buffer : List (List Int)) (h : step2_compute n st received = .ok send_buffer) :
    send_buffer = (List.range n).map (fun (s : Nat) =>
      ((((List.range n).flatMap T).filter (fun t => decide (t.2.2 = (s : Int)))).map
        (fun t => [reply_value st t.2.1, t.1])).flatten) := by
  rw [step2_compute_flat n st received T hT] at h
  have hitems := foldlE_ok_items (step2_request st) (fun buf => buf.length = n)
    (fun t => (∀ buf : List (List Int), buf.length = n →
      step2_request st buf t = pushAt buf t.2.2 [reply_value st t.2.1, t.1]) ∧
      0 ≤ t.2.2 ∧ t.2.2.toNat < n)
    (fun buf t buf1 hlen hok => by
      have hlen : buf.length = n := hlen
      obtain ⟨⟨_, h0, h1⟩, hl⟩ := step2_request_ok st buf buf1 t hok
      refine ⟨⟨fun buf2 hlen2 => ?_, h0, by rw [← hlen]; exact h1⟩, hl.trans hlen⟩
      have hpush : ∃ b, pushAt buf2 t.2.2 [reply_value st t.2.1, t.1] = .ok b :=
        ⟨_, pushAt_ok buf2 _ _ h0 (by rw [hlen2, ← hlen]; exact h1)⟩
      simp only [step2_request] at hok ⊢
      cases hj : StdMap.find st.maps.unrestricted_to_restricted
          (t.2.1 - st.dofmap.index_map.range0) with
      | none =>
        simp only [step2_body, StdMap.lookupAt, hj, bind, Except.bind] at hok
        cases hok
      | some j =>
        rw [step2_body_found st buf t.1 t.2.1 t.2.2 j hj] at hok
        rw [step2_body_found st buf2 t.1 t.2.1 t.2.2 j hj]
        cases hG : vecGet st.index_map.global_indices j with
        | error e => rw [hG] at hok; cases hok
        | ok G =>
          obtain ⟨_, _, hval⟩ := vecGet_eq_ok _ _ _ hG
          have hrv : reply_value st t.2.1 = G := by
            simp only [reply_value, hj, Option.getD_some]
            exact hval
          rw [hrv])
    _ _ _ (by simp) h
  rw [foldlE_scatter (step2_request st) (fun _ => true) (fun t => t.2.2)
    (fun t => [reply_value st t.2.1, t.1]) n _
    (fun buf t ht hlen => by
      simp only [if_true]
      exact (hitems t ht).1 buf hlen)
    (fun t ht _ => (hitems t ht).2) _ (by simp)] at h
  cases h
  apply List.map_congr_left
  intro s _
  simp only [collect, Bool.true_and, getD_replicate_nil, List.nil_append]

theorem length_flatten_pairs {α : Type} (f : α → Int) (g : α → Int) (ts : List α) :
    ((ts.map (fun t => [f t, g t])).flatten).length = 2 * ts.length := by
  induction ts with
  | nil => rfl
  | cons t ts ih =>
    simp only [List.map_cons, List.flatten_cons, List.length_append, ih, List.length_cons,
      List.length_nil]
    omega

/-- C15: when the lookup of the owner finds the key for a received triple `(l, g, s)`, the body
of step 2 reads `restricted_global_indices` at the value found and pushes to the buffer of the
rank `s` the pair of that restricted global index and `l`, unchanged, after what the buffer holds,
leaving the other buffers alone. So, whenever step 2 returns, the buffer for every rank `s`
holds one pair per received triple that carries the sender rank `s`, in the order received, twice
as many values as there are such triples. In a valid world with valid, consistent restrictions
step 2 returns on every rank, with one reply per request of every sender. -/
theorem step2_replies (world : List (DofMap × List Int)) (hv : ValidWorld world)
    (hr : ValidRestrictions world) (hc : Consistent world) (o : Nat)
    (received : AdjacencyList)
    (hrec : ∀ r, r < world.length →
      received.links r = ((requests world r o).map enc3).flatten) :
    (∀ (st : RankState) (buf : List (List Int)) (l g s j : Int),
      StdMap.find st.maps.unrestricted_to_restricted (g - st.dofmap.index_map.range0) = some j →
      step2_body st buf l g s =
        match vecGet st.index_map.global_indices j with
        | .ok restricted_global_dof => pushAt buf s [restricted_global_dof, l]
        | .error e => .error e) ∧
    (∀ (buf buf' : List (List Int)) (s : Int) (xs : List Int), pushAt buf s xs = .ok buf' →
      buf'.length = buf.length ∧ buf'.getD s.toNat [] = buf.getD s.toNat [] ++ xs ∧
        ∀ o, o ≠ s.toNat → buf'.getD o [] = buf.getD o []) ∧
    (∀ (n : Nat) (st : RankState) (received : AdjacencyList) (T : Nat → List (Int × Int × Int))
      (send_buffer : List (List Int)),
      (∀ r, r < n → received.links r = ((T r).map enc3).flatten) →
      step2_compute n st received = .ok send_buffer →
      send_buffer.length = n ∧
      ∀ s, s < n →
        send_buffer[s]? = some
          ((((List.range n).flatMap T).filter (fun t => decide (t.2.2 = (s : Int)))).map
            (fun t => [reply_value st t.2.1, t.1])).flatten ∧
        (send_buffer.getD s []).length
          = 2 * (((List.range n).flatMap T).filter
              (fun t => decide (t.2.2 = (s : Int)))).length) ∧
    ∃ send_buffer, step2_compute world.length (state_of world o) received = .ok send_buffer ∧
      ∀ s, s < world.length →
        send_buffer[s]? = some ((replies world o s).map enc2).flatten ∧
        (replies world o s).length = (requests world s o).length := by
  refine ⟨fun st buf l g s j hj => step2_body_found st buf l g s j hj,
    fun buf buf' s xs h => ?_, fun n st received T send_buffer hT h => ?_, ?_⟩
  · obtain ⟨_, _, h1, h2, h3⟩ := pushAt_eq_ok buf buf' s xs h
    exact ⟨h1, h2, h3⟩
  · have hsb := step2_compute_ok n st received T hT send_buffer h
    refine ⟨by rw [hsb]; simp, fun s hs => ?_⟩
    have hget : send_buffer[s]? = some
        ((((List.range n).flatMap T).filter (fun t => decide (t.2.2 = (s : Int)))).map
          (fun t => [reply_value st t.2.1, t.1])).flatten := by
      rw [hsb, List.getElem?_map, List.getElem?_range hs]
      rfl
    refine ⟨hget, ?_⟩
    rw [List.getD_eq_getElem?_getD, hget, Option.getD_some, length_flatten_pairs]
  · refine ⟨_, step2_compute_eq world hv hr hc o received hrec, fun s hs => ⟨?_, ?_⟩⟩
    · rw [List.getElem?_map, List.getElem?_range hs]
      rfl
    · simp [replies]

/-- An instance of C15: rank 0 of the world with two ghosts receives two requests from rank 1
and answers them with the pairs `(0, 1)` and `(1, 2)`, in that order. -/
theorem step2_replies_witness :
    ∃ send_buffer, step2_compute 2 (state_of two_ghost_world 0)
        (AdjacencyList.ofLists [[], [1, 0, 1, 2, 1, 1]]) = .ok send_buffer ∧
      send_buffer[1]? = some [0, 1, 1, 2] := by
  obtain ⟨b, h, hb⟩ := (step2_replies two_ghost_world two_ghost_world_valid
    two_ghost_world_restrictions two_ghost_world_consistent 0
    (AdjacencyList.ofLists [[], [1, 0, 1, 2, 1, 1]])
    (fun r hr => by
      have hr' : r < 2 := hr
      interval_cases r <;> rfl)).2.2.2
  exact ⟨b, h, by rw [(hb 1 (by decide)).1]; rfl⟩

/-! ## The bookkeeping of `all_to_all` -/

theorem adjacentDifferenceFrom_getElem? (prev : Nat) (xs : List Nat) (r : Nat)
    (hr : r < xs.length) :
    (adjacentDifferenceFrom prev xs)[r]? = some (xs.getD r 0 - (prev :: xs).getD r 0) := by
  induction xs generalizing prev r with
  | nil => simp at hr
  | cons x xs ih =>
    cases r with
    | zero => simp [adjacentDifferenceFrom]
    | succ r =>
      simp only [adjacentDifferenceFrom, List.getElem?_cons_succ, List.getD_cons_succ]
      exact ih x r (by simpa using hr)

theorem adjacent_difference_eq (xs : List Nat) :
    adjacent_difference xs = adjacentDifferenceFrom 0 xs := by
  cases xs with
  | nil => rfl
  | cons x xs => simp [adjacent_difference, adjacentDifferenceFrom]

theorem send_size_getElem? (a : AdjacencyList) (h0 : a.offsets[0]? = some 0) (r : Nat)
    (hr : r + 1 < a.offsets.length) :
    (send_size a)[r]? = some (a.offsets.getD (r + 1) 0 - a.offsets.getD r 0) := by
  cases hoff : a.offsets with
  | nil => rw [hoff] at hr; simp at hr
  | cons x rest =>
    rw [hoff] at h0 hr
    have hx : x = 0 := by simpa using h0
    subst hx
    simp only [send_size, hoff, List.tail_cons, adjacent_difference_eq, List.getD_cons_succ]
    exact adjacentDifferenceFrom_getElem? 0 rest r (by simpa using hr)

theorem length_links (a : AdjacencyList) (r : Nat)
    (h : a.offsets.getD (r + 1) 0 ≤ a.array.length) :
    (a.links r).length = a.offsets.getD (r + 1) 0 - a.offsets.getD r 0 := by
  simp only [AdjacencyList.links, List.length_take, List.length_drop]
  omega

theorem partialSumFrom_getElem? (acc : Nat) (xs : List Nat) (k : Nat) (hk : k ≤ xs.length) :
    (acc :: partialSumFrom acc xs)[k]? = some (acc + (xs.take k).sum) := by
  induction xs generalizing acc k with
  | nil =>
    have : k = 0 := by simpa using hk
    subst this
    simp
  | cons x xs ih =>
    cases k with
    | zero => simp
    | succ k =>
      simp only [partialSumFrom, List.getElem?_cons_succ, List.take_succ_cons, List.sum_cons]
      rw [ih (acc + x) k (by simpa using hk)]
      simp only [Option.some.injEq]
      omega

/-- C16: `all_to_all` computes, for an adjacency list whose offsets start at 0, the send size
for the destination `r` as the difference of the offsets `r + 1` and `r`, which is the length of
the payload for `r`; the receive offsets on a rank are the sums of the sizes received from the
lower ranks, starting at 0; and when every rank passes one payload per rank, the exchange returns on every
rank an adjacency list with one node per rank in which `links(i)` on the rank `j` is the payload
that the rank `i` built for `j`, in the order of the sender. -/
theorem all_to_all_bookkeeping (bufs : List (List (List Int)))
    (h : ∀ b, b ∈ bufs → b.length = bufs.length) :
    (∀ (a : AdjacencyList) (r : Nat), a.offsets[0]? = some 0 → r + 1 < a.offsets.length →
      (send_size a)[r]? = some (a.offsets.getD (r + 1) 0 - a.offsets.getD r 0) ∧
      (a.offsets.getD (r + 1) 0 ≤ a.array.length →
        (a.links r).length = a.offsets.getD (r + 1) 0 - a.offsets.getD r 0)) ∧
    (∀ b, b ∈ bufs → send_size (AdjacencyList.ofLists b) = b.map List.length) ∧
    (∀ (send_data : List AdjacencyList) (j k : Nat), k ≤ send_data.length →
      (all_to_all_rank send_data j).offsets[k]?
        = some (((send_data.map (fun s => (send_size s).getD j 0)).take k).sum)) ∧
    ∃ R, all_to_all (bufs.map AdjacencyList.ofLists) = .ok R ∧ R.length = bufs.length ∧
      ∀ j, j < bufs.length → ∃ Rj, R[j]? = some Rj ∧ Rj.num_nodes = bufs.length ∧
        ∀ i, i < bufs.length → Rj.links i = (bufs.getD i []).getD j [] := by
  refine ⟨fun a r h0 hr => ⟨send_size_getElem? a h0 r hr, length_links a r⟩,
    fun b _ => send_size_ofLists b, fun send_data j k hk => ?_, ?_⟩
  · have := partialSumFrom_getElem? 0 (send_data.map (fun s => (send_size s).getD j 0)) k
      (by simpa using hk)
    rw [Nat.zero_add] at this
    exact this
  · refine ⟨_, all_to_all_ofLists bufs h, by simp, fun j hj => ?_⟩
    refine ⟨AdjacencyList.ofLists (bufs.map (fun b => b.getD j [])), ?_, ?_, fun i hi => ?_⟩
    · rw [List.getElem?_map, List.getElem?_range hj]
      rfl
    · rw [num_nodes_ofLists, List.length_map]
    · rw [links_ofLists _ i (by simpa using hi), List.getElem_map, List.getD_eq_getElem _ _ hi]

/-- An instance of C16: two ranks; rank 0 sends `[1]` to itself and `[2, 3]` to rank 1, rank 1
sends `[4, 5, 6]` to rank 0 and nothing to itself; rank 0 receives `[1]` and `[4, 5, 6]`. -/
theorem all_to_all_bookkeeping_witness :
    ∃ R, all_to_all ([[[1], [2, 3]], [[4, 5, 6], []]].map AdjacencyList.ofLists) = .ok R ∧
      ∃ R0, R[0]? = some R0 ∧ R0.num_nodes = 2 ∧ R0.links 0 = [1] ∧ R0.links 1 = [4, 5, 6] := by
  obtain ⟨R, hR, _, hl⟩ := (all_to_all_bookkeeping [[[1], [2, 3]], [[4, 5, 6], []]]
    (by decide)).2.2.2
  obtain ⟨R0, h0, hn, hlinks⟩ := hl 0 (by decide)
  exact ⟨R, hR, R0, h0, hn, hlinks 0 (by decide), hlinks 1 (by decide)⟩

/-! ## Every ghost position is written once -/

theorem countP_flatMap_range {β : Type} (f : Nat → List β) (q : β → Bool) (n : Nat) :
    ((List.range n).flatMap f).countP q = ((List.range n).map (fun o => (f o).countP q)).sum := by
  induction n with
  | zero => rfl
  | succ n ih =>
    rw [List.range_succ, List.flatMap_append, List.countP_append, ih, List.map_append,
      List.sum_append]
    simp

theorem length_filter_position (L : List Int) (pos : Int → Nat) (base p : Nat)
    (h : ∀ k (hk : k < L.length), pos L[k] = base + k) :
    (L.filter (fun d => decide (pos d = p))).length
      = if base ≤ p ∧ p < base + L.length then 1 else 0 := by
  induction L generalizing base with
  | nil =>
    simp only [List.filter_nil, List.length_nil]
    rw [if_neg (by omega)]
  | cons d L ih =>
    have hd : pos d = base := by simpa using h 0 (by simp)
    have hrest : ∀ k (hk : k < L.length), pos L[k] = (base + 1) + k := by
      intro k hk
      have := h (k + 1) (by simpa using hk)
      simp only [List.getElem_cons_succ] at this
      omega
    have ih' := ih (base + 1) hrest
    by_cases c : pos d = p
    · have hf : (d :: L).filter (fun d => decide (pos d = p))
          = d :: L.filter (fun d => decide (pos d = p)) := by
        rw [List.filter_cons]
        simp only [c, decide_True, if_true]
      rw [hf, List.length_cons, ih']
      simp only [List.length_cons]
      split_ifs <;> omega
    · have hf : (d :: L).filter (fun d => decide (pos d = p))
          = L.filter (fun d => decide (pos d = p)) := by
        rw [List.filter_cons]
        simp only [c, decide_False, Bool.false_eq_true, if_false]
      rw [hf, ih']
      simp only [List.length_cons]
      split_ifs <;> omega

theorem replies_countP (world : List (DofMap × List Int)) (r o : Nat) (q : Int → Bool) :
    (replies world o r).countP (fun y => q y.2)
      = (((ghost_entries (dofmap_of world r).index_map.size_local
            (restriction_of world r)).filter q).filter
          (fun d => decide (ghost_owner (dofmap_of world r) d = (o : Int)))).length := by
  rw [replies, requests_eq_filter, List.countP_map, List.countP_map,
    List.countP_eq_length_filter, List.filter_filter, List.filter_filter]
  congr 1
  apply List.filter_congr
  intro d _
  simp only [Function.comp]
  exact Bool.and_comm _ _

/-- The replies that a rank receives hit every ghost position once. -/
theorem replies_position_once (world : List (DofMap × List Int)) (hv : ValidWorld world)
    (hr : ValidRestrictions world) (hnd : NodupRestrictions world) (r : Nat)
    (hrP : r < world.length) (p : Nat) (hp : p < (state_of world r).maps.size.toNat) :
    ((List.range world.length).flatMap (fun o => replies world o r)).countP
      (fun y => decide (ghost_position world r y.2 = p)) = 1 := by
  rw [countP_flatMap_range]
  have hfun : (fun (o : Nat) => (replies world o r).countP
        (fun y => decide (ghost_position world r y.2 = p)))
      = fun (o : Nat) => (((ghost_entries (dofmap_of world r).index_map.size_local
            (restriction_of world r)).filter
            (fun d => decide (ghost_position world r d = p))).filter
          (fun d => decide (ghost_owner (dofmap_of world r) d = (o : Int)))).length := by
    funext o
    exact replies_countP world r o (fun d => decide (ghost_position world r d = p))
  rw [hfun, sum_length_filter_dest _ (ghost_owner (dofmap_of world r)) world.length
    (fun d hd => by
      obtain ⟨hd1, hd2⟩ := mem_ghost_entries.mp (List.mem_of_mem_filter hd)
      obtain ⟨_, _, h0, h1, _⟩ := ghost_reads world hv hr r hrP d hd1 hd2
      exact ⟨h0, h1⟩)]
  rw [length_filter_position _ (ghost_position world r) 0 p
    (fun k hk => by rw [ghost_position_entry world r hrP (hnd r hrP) k hk]; omega)]
  have hlen : p < (ghost_entries (dofmap_of world r).index_map.size_local
      (restriction_of world r)).length := by
    rw [state_of_maps, local_maps_size] at hp
    simpa using hp
  rw [if_pos ⟨Nat.zero_le _, by omega⟩]

/-! ## Error-freedom of the exchange -/

/-- C17: in a valid world with valid, duplicate-free, consistent restrictions no step of
`_map_ghost_dofs` fails on any rank: step 1, both exchanges, step 2 and step 3 return, and so
does the construction. Every read of step 1 in the unrestricted global-index and ghost-owner
arrays is in range and gives another rank of the communicator; for every triple that a rank
receives in round 2 the lookup finds its key and the read in the restricted global-index array
and the destination buffer are in range; for every pair that a rank receives in round 3 the
owner read is in range, the lookup finds its key and the position written lies in
`[0, n_ghost_restricted)`; and every such position is written by exactly one received pair. -/
theorem map_ghost_dofs_error_free (world : List (DofMap × List Int)) (hv : ValidWorld world)
    (hr : ValidRestrictions world) (hnd : NodupRestrictions world) (hc : Consistent world) :
    ∃ S1 R1 S2 R2 G result,
      mapE (fun r => step1_compute world.length r (state_of world r))
        (List.range world.length) = .ok S1 ∧
      all_to_all (S1.map AdjacencyList.ofLists) = .ok R1 ∧
      mapE (fun o => step2_compute world.length (state_of world o) (R1.getD o default))
        (List.range world.length) = .ok S2 ∧
      all_to_all (S2.map AdjacencyList.ofLists) = .ok R2 ∧
      mapE (fun r => step3_compute world.length (state_of world r) (R2.getD r default))
        (List.range world.length) = .ok G ∧
      construct world = .ok result ∧
      (∀ r d, r < world.length → d ∈ restriction_of world r →
        (dofmap_of world r).index_map.size_local ≤ d →
        ∃ g owner, vecGet (dofmap_of world r).index_map.global_indices d = .ok g ∧
          vecGet (dofmap_of world r).index_map.owners
            (d - (dofmap_of world r).index_map.size_local) = .ok owner ∧
          0 ≤ owner ∧ owner.toNat < world.length ∧ owner ≠ (r : Int)) ∧
      (∀ o r, o < world.length → r < world.length →
        (R1.getD o default).links r = ((requests world r o).map enc3).flatten ∧
        ∀ t, t ∈ requests world r o →
          ∃ j g, StdMap.lookupAt (state_of world o).maps.unrestricted_to_restricted
              (t.2.1 - (state_of world o).dofmap.index_map.range0) = .ok j ∧
            vecGet (state_of world o).index_map.global_indices j = .ok g ∧
            0 ≤ t.2.2 ∧ t.2.2.toNat < world.length) ∧
      (∀ r o, r < world.length → o < world.length →
        (R2.getD r default).links o = ((replies world o r).map enc2).flatten ∧
        ∀ y, y ∈ replies world o r →
          ∃ i owner, StdMap.lookupAt (state_of world r).maps.unrestricted_to_restricted y.2
              = .ok i ∧
            vecGet (state_of world r).dofmap.index_map.owners
              (y.2 - (state_of world r).dofmap.index_map.size_local) = .ok owner ∧
            0 ≤ i - (state_of world r).index_map.size_local ∧
            (i - (state_of world r).index_map.size_local).toNat = ghost_position world r y.2 ∧
            ghost_position world r y.2 < (state_of world r).maps.size.toNat) ∧
      (∀ r p, r < world.length → p < (state_of world r).maps.size.toNat →
        ((List.range world.length).flatMap (fun o => replies world o r)).countP
          (fun y => decide (ghost_position world r y.2 = p)) = 1) := by
  obtain ⟨S1, R1, hS1, hR1, hl1⟩ := round1_received world hv hr
  obtain ⟨S2, R2, hS2, hR2, hl2⟩ := round2_received world hv hr hc R1 hl1
  obtain ⟨G, hG, _, _⟩ := mapE_range_exists
    (fun r => step3_compute world.length (state_of world r) (R2.getD r default)) world.length
    (fun r hrP => by
      obtain ⟨arrs, h, _⟩ := step3_compute_spec world hv hr hnd r hrP (R2.getD r default)
        (fun o hoP => hl2 o r hoP hrP)
      exact ⟨arrs, h⟩)
  obtain ⟨result, hres, _⟩ := construct_spec world hv hr hnd hc
  refine ⟨S1, R1, S2, R2, G, result, hS1, hR1, hS2, hR2, hG, hres, ?_, ?_, ?_, ?_⟩
  · intro r d hrP hd hge
    obtain ⟨h1, h2, h3, h4, h5⟩ := ghost_reads world hv hr r hrP d hd hge
    exact ⟨_, _, h1, h2, h3, h4, h5⟩
  · intro o r hoP hrP
    refine ⟨hl1 r o hrP hoP, fun t ht => ?_⟩
    obtain ⟨hd, hge, ho, _, hs⟩ := mem_requests ht
    obtain ⟨_, _, _, h0, h1, hloc⟩ := request_valid world hv hr r o hrP t ht
    have hin := hc r hrP t.1 hd hge
    rw [ho, Int.toNat_ofNat, hloc] at hin
    obtain ⟨_, u1, _⟩ := local_maps_u2r_range (dofmap_of world o).index_map.size_local
      (restriction_of world o)
    obtain ⟨j, hj, hj0, hj1⟩ := u1 _ hin h1
    refine ⟨j, _, ?_, global_indices_owned _ j hj0
      (by rw [state_of_size_local world o hoP]; exact hj1), ?_, ?_⟩
    · simp only [StdMap.lookupAt, state_of_maps, state_of_dofmap, hj]
    · rw [hs]; omega
    · rw [hs]; simpa using hrP
  · intro r o hrP hoP
    refine ⟨hl2 o r hoP hrP, fun y hy => ?_⟩
    obtain ⟨hd, hge, _, _⟩ := mem_replies hy
    obtain ⟨i, hi, hilo, hipos, hposlt⟩ := ghost_entry world r y.2 hrP hd hge
    obtain ⟨_, h2, _⟩ := ghost_reads world hv hr r hrP y.2 hd hge
    refine ⟨i, _, ?_, h2, by omega, hipos, hposlt⟩
    simp only [StdMap.lookupAt, hi]
  · intro r p hrP hp
    exact replies_position_once world hv hr hnd r hrP p hp

/-- An instance of C17: the construction of the world with two ghosts returns, and the two
replies that rank 1 receives write one of the two ghost positions each. -/
theorem map_ghost_dofs_error_free_witness :
    (∃ result, construct two_ghost_world = .ok result) ∧
    ((List.range 2).flatMap (fun o => replies two_ghost_world o 1)).countP
      (fun y => decide (ghost_position two_ghost_world 1 y.2 = 0)) = 1 ∧
    ((List.range 2).flatMap (fun o => replies two_ghost_world o 1)).countP
      (fun y => decide (ghost_position two_ghost_world 1 y.2 = 1)) = 1 := by
  obtain ⟨_, _, _, _, _, result, _, _, _, _, _, hres, _, _, _, hone⟩ :=
    map_ghost_dofs_error_free two_ghost_world two_ghost_world_valid
      two_ghost_world_restrictions two_ghost_world_nodup two_ghost_world_consistent
  exact ⟨⟨result, hres⟩, hone 1 0 (by decide) (by decide), hone 1 1 (by decide) (by decide)⟩

/-! ## Restrictions with duplicates -/

theorem assign_fold_u2r_last (base : Int) (F : List Int) (s : Numbering) (k : Nat)
    (hk : k < F.length)
    (hlast : ∀ k' (hk' : k' < F.length), k < k' → F[k'] ≠ F[k]) :
    StdMap.find (F.foldl (assign_step base) s).unrestricted_to_restricted F[k]
      = some (base + s.size + k) := by
  induction F generalizing s k with
  | nil => simp at hk
  | cons d F ih =>
    cases k with
    | zero =>
      have hd : d ∉ F := by
        intro hmem
        obtain ⟨i, hi, he⟩ := List.mem_iff_getElem.mp hmem
        exact hlast (i + 1) (by simpa using hi) (by omega) (by simpa using he)
      simp only [List.foldl_cons, List.getElem_cons_zero]
      rw [(assign_fold_u2r_range base F (assign_step base s d)).1 d hd]
      simp [assign_step, StdMap.find_insert]
    | succ k =>
      simp only [List.foldl_cons, List.getElem_cons_succ]
      rw [ih (assign_step base s d) k (by simpa using hk)
        (fun k' hk' hlt => by
          have := hlast (k' + 1) (by simpa using hk') (by omega)
          simpa using this)]
      simp only [assign_step]
      push_cast
      congr 1
      ring

/-- C18: for every restriction, duplicates allowed, `restricted_owned_size` is the number of
entries below the owned size counted with multiplicity; `restricted_to_unrestricted` has the keys
`0, .., restricted_owned_size - 1`, the key `k` leading to the `k`-th such entry; and
`unrestricted_to_restricted` maps an owned dof to the position, among the owned entries, of its
last occurrence. For the restriction `[1, 1]` with owned size 2 the index map is sized 2 while
one dof is restricted, and the maps are not inverse to each other: index 0 leads to dof 1, which
leads to index 1. -/
theorem map_owned_dofs_duplicates (n : Int) (restriction : List Int) :
    (map_owned_dofs n restriction).size = (owned_entries n restriction).length ∧
    (∀ k (h : k < (owned_entries n restriction).length),
      StdMap.find (map_owned_dofs n restriction).restricted_to_unrestricted (k : Int)
        = some (owned_entries n restriction)[k]) ∧
    (∀ j, (j < 0 ∨ ((owned_entries n restriction).length : Int) ≤ j) →
      StdMap.find (map_owned_dofs n restriction).restricted_to_unrestricted j = none) ∧
    (∀ k (h : k < (owned_entries n restriction).length),
      (∀ k' (h' : k' < (owned_entries n restriction).length), k < k' →
        (owned_entries n restriction)[k'] ≠ (owned_entries n restriction)[k]) →
      StdMap.find (map_owned_dofs n restriction).unrestricted_to_restricted
        (owned_entries n restriction)[k] = some (k : Int)) ∧
    (∀ d, d ∉ owned_entries n restriction →
      StdMap.find (map_owned_dofs n restriction).unrestricted_to_restricted d = none) ∧
    (map_owned_dofs 2 [1, 1]).size = 2 ∧
    (map_owned_dofs 2 [1, 1]).unrestricted_to_restricted = [(1, 1)] ∧
    StdMap.find (map_owned_dofs 2 [1, 1]).restricted_to_unrestricted 0 = some 1 ∧
    StdMap.find (map_owned_dofs 2 [1, 1]).unrestricted_to_restricted 1 = some 1 := by
  obtain ⟨r0, r1⟩ := map_owned_dofs_r2u n restriction
  refine ⟨map_owned_dofs_size n restriction, r1, r0, fun k h hlast => ?_, fun d hd => ?_,
    by decide, by decide, by decide, by decide⟩
  · have := assign_fold_u2r_last 0 (owned_entries n restriction) ⟨[], [], 0⟩ k h hlast
    simp only [map_owned_dofs, owned_fold_filter]
    rw [this]
    simp
  · simp only [map_owned_dofs, owned_fold_filter]
    rw [(assign_fold_u2r_range 0 (owned_entries n restriction) ⟨[], [], 0⟩).1 d hd]
    rfl

/-- An instance of C18: the restriction `[1, 0, 1]` with owned size 2; the dof 1 occurs at the
positions 0 and 2 and is mapped to 2, the dof 0 is mapped to 1, and the size is 3. -/
theorem map_owned_dofs_duplicates_witness :
    (map_owned_dofs 2 [1, 0, 1]).size = 3 ∧
    StdMap.find (map_owned_dofs 2 [1, 0, 1]).unrestricted_to_restricted 1 = some 2 ∧
    StdMap.find (map_owned_dofs 2 [1, 0, 1]).unrestricted_to_restricted 0 = some 1 := by
  obtain ⟨h1, _, _, h4, _⟩ := map_owned_dofs_duplicates 2 [1, 0, 1]
  exact ⟨h1, h4 2 (by decide) (fun k' hk' hlt => by
      have : k' < 3 := hk'
      omega),
    h4 1 (by decide) (fun k' hk' hlt => by
      have : k' < 3 := hk'
      have : k' = 2 := by omega
      subst this
      simp [owned_entries])⟩

/-! ## The frame of the ghost phase -/

/-- Whenever the construction returns, the objects are what `finish` builds from some ghost
arrays. -/
theorem construct_ok_shape (world : List (DofMap × List Int)) (result : List DofMapRestriction)
    (h : construct world = .ok result) :
    ∃ G, mapE (finish world G) (List.range world.length) = .ok result := by
  simp only [construct, bind, Except.bind] at h
  cases hS1 : mapE (fun r => step1_compute world.length r (state_of world r))
      (List.range world.length) with
  | error e => rw [hS1] at h; cases h
  | ok S1 =>
    rw [hS1] at h
    simp only [] at h
    cases hR1 : all_to_all (S1.map AdjacencyList.ofLists) with
    | error e => rw [hR1] at h; cases h
    | ok R1 =>
      rw [hR1] at h
      simp only [] at h
      cases hS2 : mapE (fun r => step2_compute world.length (state_of world r)
          (R1.getD r default)) (List.range world.length) with
      | error e => rw [hS2] at h; cases h
      | ok S2 =>
        rw [hS2] at h
        simp only [] at h
        cases hR2 : all_to_all (S2.map AdjacencyList.ofLists) with
        | error e => rw [hR2] at h; cases h
        | ok R2 =>
          rw [hR2] at h
          simp only [] at h
          cases hG : mapE (fun r => step3_compute world.length (state_of world r)
              (R2.getD r default)) (List.range world.length) with
          | error e => rw [hG] at h; cases h
          | ok G =>
            rw [hG] at h
            exact ⟨G, h⟩

theorem construct_ok_objects (world : List (DofMap × List Int))
    (result : List DofMapRestriction) (h : construct world = .ok result) (r : Nat)
    (hrP : r < world.length) :
    ∃ obj, result[r]? = some obj ∧
      obj.unrestricted_to_restricted = (state_of world r).maps.unrestricted_to_restricted ∧
      obj.restricted_to_unrestricted = (state_of world r).maps.restricted_to_unrestricted ∧
      obj.index_map.range0 = (state_of world r).index_map.range0 ∧
      obj.index_map.size_local = (state_of world r).index_map.size_local := by
  obtain ⟨G, hG⟩ := construct_ok_shape world result h
  rw [mapE_ok (finish world G) _ (List.range world.length) (fun r _ => finish_eq world G r)]
    at hG
  cases hG
  exact ⟨_, by rw [List.getElem?_map, List.getElem?_range hrP]; rfl, rfl, rfl, rfl, rfl⟩

/-- C19: for every restriction, every pair that `_map_owned_dofs` put into
`unrestricted_to_restricted` and into `restricted_to_unrestricted` is there with the same value
after the numbering loop of `_map_ghost_dofs`, which changes `unrestricted_to_restricted` only at
keys at or above the unrestricted owned size and `restricted_to_unrestricted` only at keys at or
above `n_owned_restricted`; and whenever the construction returns, the object of every rank holds
those maps and an index map with the owned block of the provisional one. -/
theorem ghost_phase_frame (n : Int) (restriction : List Int) :
    (∀ d i, StdMap.find (map_owned_dofs n restriction).unrestricted_to_restricted d = some i →
      StdMap.find (local_maps n restriction).unrestricted_to_restricted d = some i) ∧
    (∀ j d, StdMap.find (map_owned_dofs n restriction).restricted_to_unrestricted j = some d →
      StdMap.find (local_maps n restriction).restricted_to_unrestricted j = some d) ∧
    (∀ d, d < n → StdMap.find (local_maps n restriction).unrestricted_to_restricted d
      = StdMap.find (map_owned_dofs n restriction).unrestricted_to_restricted d) ∧
    (∀ j, j < (map_owned_dofs n restriction).size →
      StdMap.find (local_maps n restriction).restricted_to_unrestricted j
        = StdMap.find (map_owned_dofs n restriction).restricted_to_unrestricted j) ∧
    (∀ (world : List (DofMap × List Int)) (result : List DofMapRestriction) (r : Nat),
      construct world = .ok result → r < world.length →
      ∃ obj, result[r]? = some obj ∧
        obj.unrestricted_to_restricted
          = (local_maps (dofmap_of world r).index_map.size_local
              (restriction_of world r)).unrestricted_to_restricted ∧
        obj.restricted_to_unrestricted
          = (local_maps (dofmap_of world r).index_map.size_local
              (restriction_of world r)).restricted_to_unrestricted ∧
        obj.index_map.range0 = (state_of world r).index_map.range0 ∧
        obj.index_map.size_local = (state_of world r).index_map.size_local ∧
        obj.index_map.size_local
          = (map_owned_dofs (dofmap_of world r).index_map.size_local
              (restriction_of world r)).size) := by
  have hu : ∀ d, d < n → StdMap.find (local_maps n restriction).unrestricted_to_restricted d
      = StdMap.find (map_owned_dofs n restriction).unrestricted_to_restricted d := by
    intro d hd
    simp only [local_maps, map_ghost_numbering, ghost_fold_filter]
    exact (assign_fold_u2r_range _ _ _).1 d
      (fun hm => by have := (mem_ghost_entries.mp hm).2; omega)
  have hr : ∀ j, j < (map_owned_dofs n restriction).size →
      StdMap.find (local_maps n restriction).restricted_to_unrestricted j
        = StdMap.find (map_owned_dofs n restriction).restricted_to_unrestricted j := by
    intro j hj
    simp only [local_maps, map_ghost_numbering, ghost_fold_filter]
    exact (assign_fold_r2u _ _ _).1 j (Or.inl (by simpa using hj))
  refine ⟨fun d i hd => ?_, fun j d hj => ?_, hu, hr, fun world result r h hrP => ?_⟩
  · by_cases hlt : d < n
    · rw [hu d hlt]; exact hd
    · have : d ∉ owned_entries n restriction := fun hm => hlt (mem_owned_entries.mp hm).2
      have hnone : StdMap.find (map_owned_dofs n restriction).unrestricted_to_restricted d
          = none := by
        simp only [map_owned_dofs, owned_fold_filter]
        rw [(assign_fold_u2r_range 0 (owned_entries n restriction) ⟨[], [], 0⟩).1 d this]
        rfl
      rw [hnone] at hd
      cases hd
  · by_cases hlt : j < (map_owned_dofs n restriction).size
    · rw [hr j hlt]; exact hj
    · rw [(map_owned_dofs_r2u n restriction).1 j
        (Or.inr (by rw [map_owned_dofs_size] at hlt; omega))] at hj
      cases hj
  · obtain ⟨obj, h1, h2, h3, h4, h5⟩ := construct_ok_objects world result h r hrP
    exact ⟨obj, h1, h2, h3, h4, h5, h5.trans (state_of_size_local world r hrP)⟩

/-- An instance of C19: two owned dofs and the restriction `[3, 1, 2, 0]`; the owned pair
`1 ↦ 0` survives the ghost numbering. -/
theorem ghost_phase_frame_witness :
    StdMap.find (local_maps 2 [3, 1, 2, 0]).unrestricted_to_restricted 1 = some 0 ∧
    StdMap.find (local_maps 2 [3, 1, 2, 0]).restricted_to_unrestricted 0 = some 1 :=
  ⟨(ghost_phase_frame 2 [3, 1, 2, 0]).1 1 0 (by decide),
    (ghost_phase_frame 2 [3, 1, 2, 0]).2.1 0 1 (by decide)⟩

/-! ## The values of the cell table -/

/-- A value of `unrestricted_to_restricted` of a duplicate-free restriction is a restricted
local index, and `restricted_to_unrestricted` leads back from it. -/
theorem local_maps_inverse (n : Int) (ds : List Int) (hnd : ds.Nodup) (d i : Int)
    (h : StdMap.find (local_maps n ds).unrestricted_to_restricted d = some i) :
    d ∈ ds ∧ 0 ≤ i ∧ i < (ds.length : Int) ∧
      StdMap.find (local_maps n ds).restricted_to_unrestricted i = some d := by
  obtain ⟨u0, u1, u2⟩ := local_maps_u2r n ds hnd
  obtain ⟨_, r1, r2⟩ := local_maps_r2u n ds
  have hlen := length_owned_add_ghost n ds
  have hd : d ∈ ds := by
    by_contra hd
    rw [u0 d hd] at h
    cases h
  by_cases hlt : d < n
  · obtain ⟨k, hk, rfl⟩ := List.mem_iff_getElem.mp (mem_owned_entries.mpr ⟨hd, hlt⟩)
    rw [u1 k hk] at h
    have hi : (k : Int) = i := by simpa using h
    subst hi
    exact ⟨hd, by omega, by omega, r1 k hk⟩
  · obtain ⟨k, hk, rfl⟩ :=
      List.mem_iff_getElem.mp (mem_ghost_entries.mpr ⟨hd, not_lt.mp hlt⟩)
    rw [u2 k hk] at h
    have hi : ((owned_entries n ds).length : Int) + (k : Int) = i := by simpa using h
    subst hi
    exact ⟨hd, by omega, by omega, r2 k hk⟩

/-- C20: for every duplicate-free restriction and every unrestricted cell-dof table,
`_compute_cell_dofs` returns; every value of `_dof_array` is a restricted local index in
`[0, n_owned_restricted + n_ghost_restricted)` and a key of `restricted_to_unrestricted`; and a
value in the slice of a cell is mapped by `restricted_to_unrestricted` to a dof of that cell. -/
theorem cell_values_valid (n : Int) (restriction : List Int) (hnd : restriction.Nodup)
    (cells : List (List Int)) :
    ∃ t, compute_cell_dofs (local_maps n restriction).unrestricted_to_restricted cells = .ok t ∧
      (∀ x, x ∈ t.dof_array →
        0 ≤ x ∧ x < (map_owned_dofs n restriction).size + (local_maps n restriction).size ∧
        (StdMap.find (local_maps n restriction).restricted_to_unrestricted x).isSome) ∧
      (∀ c (h : c < cells.length), ∀ x, x ∈ cell_slice t c →
        ∃ d, d ∈ cells[c] ∧
          StdMap.find (local_maps n restriction).restricted_to_unrestricted x = some d) := by
  have hsize : (map_owned_dofs n restriction).size + (local_maps n restriction).size
      = (restriction.length : Int) := by
    rw [map_owned_dofs_size, local_maps_size]
    have := length_owned_add_ghost n restriction
    omega
  refine ⟨_, compute_cell_dofs_eq _ _, fun x hx => ?_, fun c hc x hx => ?_⟩
  · obtain ⟨row, hrow, hxrow⟩ := List.mem_flatten.mp hx
    obtain ⟨cell, _, rfl⟩ := List.mem_map.mp hrow
    rw [restrict_cell_eq] at hxrow
    obtain ⟨d, _, hf⟩ := List.mem_filterMap.mp hxrow
    obtain ⟨_, h0, h1, hinv⟩ := local_maps_inverse n restriction hnd d x hf
    exact ⟨h0, by rw [hsize]; exact h1, by simp [hinv]⟩
  · rw [cell_slice_eq _ _ c hc] at hx
    obtain ⟨d, hd, hf⟩ := List.mem_filterMap.mp hx
    obtain ⟨_, _, _, hinv⟩ := local_maps_inverse n restriction hnd d x hf
    exact ⟨d, hd, hinv⟩

/-- An instance of C20: two owned dofs, the restriction `[3, 1, 2, 0]` and the cells `[0, 3]`
and `[5, 2]`; the table returns and the value in the slice of the second cell leads back to its
dof 2. -/
theorem cell_values_valid_witness :
    ∃ t, compute_cell_dofs (local_maps 2 [3, 1, 2, 0]).unrestricted_to_restricted
        [[0, 3], [5, 2]] = .ok t ∧
      ∀ x, x ∈ cell_slice t 1 →
        ∃ d, d ∈ [5, 2] ∧
          StdMap.find (local_maps 2 [3, 1, 2, 0]).restricted_to_unrestricted x = some d := by
  obtain ⟨t, h, _, hs⟩ := cell_values_valid 2 [3, 1, 2, 0] (by decide) [[0, 3], [5, 2]]
  exact ⟨t, h, hs 1 (by decide)⟩

/-! ## The full restriction -/

theorem full_restriction_nodup (N : Nat) : (full_restriction N).Nodup := by
  unfold full_restriction
  exact List.Nodup.map (fun a b h => by exact_mod_cast h) (List.nodup_range N)

theorem mem_full_restriction {N : Nat} {d : Int} :
    d ∈ full_restriction N ↔ 0 ≤ d ∧ d < (N : Int) := by
  simp only [full_restriction, List.mem_map, List.mem_range]
  constructor
  · rintro ⟨k, hk, rfl⟩
    omega
  · rintro ⟨h0, h1⟩
    exact ⟨d.toNat, by omega, by omega⟩

theorem owned_entries_full (m N : Nat) :
    owned_entries (m : Int) (full_restriction N)
      = (List.range (min N m)).map (fun (k : Nat) => (k : Int)) := by
  induction N with
  | zero => simp [owned_entries, full_restriction]
  | succ N ih =>
    simp only [owned_entries, full_restriction] at ih ⊢
    rw [List.range_succ, List.map_append, List.filter_append, ih]
    by_cases h : N < m
    · have h1 : min N m = N := by omega
      have h2 : min (N + 1) m = N + 1 := by omega
      have h3 : ((N : Int) < (m : Int)) := by exact_mod_cast h
      rw [h1, h2, List.range_succ, List.map_append]
      simp [h3]
    · have h1 : min N m = m := by omega
      have h2 : min (N + 1) m = m := by omega
      have h3 : ¬ ((N : Int) < (m : Int)) := by exact_mod_cast h
      rw [h1, h2]
      simp [h3]

theorem ghost_entries_full (m N : Nat) :
    ghost_entries (m : Int) (full_restriction N)
      = (List.range (N - m)).map (fun (k : Nat) => ((m + k : Nat) : Int)) := by
  induction N with
  | zero => simp [ghost_entries, full_restriction]
  | succ N ih =>
    simp only [ghost_entries, full_restriction] at ih ⊢
    rw [List.range_succ, List.map_append, List.filter_append, ih]
    by_cases h : m ≤ N
    · have h1 : N + 1 - m = (N - m) + 1 := by omega
      have h3 : ((N : Int) ≥ (m : Int)) := by exact_mod_cast h
      have h4 : m + (N - m) = N := by omega
      rw [h1, List.range_succ, List.map_append]
      simp [h3]
      omega
    · have h1 : N + 1 - m = 0 := by omega
      have h2 : N - m = 0 := by omega
      have h3 : ¬ ((N : Int) ≥ (m : Int)) := by exact_mod_cast h
      rw [h1, h2]
      simp [h3]

theorem filterMap_eq_self (f : Int → Option Int) (l : List Int)
    (h : ∀ d, d ∈ l → f d = some d) : l.filterMap f = l := by
  induction l with
  | nil => rfl
  | cons d l ih =>
    rw [List.filterMap_cons, h d (List.mem_cons_self _ _),
      ih (fun x hx => h x (List.mem_cons_of_mem _ hx))]

theorem sum_lengths_take (rows : List (List Int)) (w c : Nat)
    (h : ∀ row, row ∈ rows → row.length = w) (hc : c ≤ rows.length) :
    ((rows.take c).map List.length).sum = c * w := by
  induction rows generalizing c with
  | nil =>
    have : c = 0 := by simpa using hc
    subst this
    simp
  | cons row rows ih =>
    cases c with
    | zero => simp
    | succ c =>
      simp only [List.take_succ_cons, List.map_cons, List.sum_cons]
      rw [h row (List.mem_cons_self _ _),
        ih c (fun x hx => h x (List.mem_cons_of_mem _ hx)) (by simpa using hc)]
      ring

/-- Both local maps of the full restriction, at a dof of the range. -/
theorem local_maps_full (m N : Nat) (hm : m ≤ N) (d : Int) (h0 : 0 ≤ d) (h1 : d < (N : Int)) :
    StdMap.find (local_maps (m : Int) (full_restriction N)).unrestricted_to_restricted d
      = some d ∧
    StdMap.find (local_maps (m : Int) (full_restriction N)).restricted_to_unrestricted d
      = some d := by
  obtain ⟨_, u1, u2⟩ := local_maps_u2r (m : Int) (full_restriction N) (full_restriction_nodup N)
  obtain ⟨_, r1, r2⟩ := local_maps_r2u (m : Int) (full_restriction N)
  have ho := owned_entries_full m N
  have hg := ghost_entries_full m N
  have hmin : min N m = m := by omega
  have hol : (owned_entries (m : Int) (full_restriction N)).length = m := by
    rw [ho, hmin]; simp
  have hgl : (ghost_entries (m : Int) (full_restriction N)).length = N - m := by
    rw [hg]; simp
  by_cases hlt : d < (m : Int)
  · have hk : d.toNat < (owned_entries (m : Int) (full_restriction N)).length := by
      rw [hol]; omega
    have he : (owned_entries (m : Int) (full_restriction N))[d.toNat] = d := by
      simp only [ho, List.getElem_map, List.getElem_range]
      omega
    have hu := u1 d.toNat hk
    have hr := r1 d.toNat hk
    rw [he] at hu hr
    rw [Int.toNat_of_nonneg h0] at hu hr
    exact ⟨hu, hr⟩
  · have hk : (d - m).toNat < (ghost_entries (m : Int) (full_restriction N)).length := by
      rw [hgl]; omega
    have he : (ghost_entries (m : Int) (full_restriction N))[(d - m).toNat] = d := by
      simp only [hg, List.getElem_map, List.getElem_range]
      omega
    have hu := u2 (d - m).toNat hk
    have hr := r2 (d - m).toNat hk
    rw [he, hol] at hu hr
    have hi : (m : Int) + (((d - m).toNat : Nat) : Int) = d := by omega
    rw [hi] at hu hr
    exact ⟨hu, hr⟩

/-- C21: when the restriction lists every unrestricted local dof once in increasing order,
`0, .., n_owned + n_ghost - 1`, both local maps are the identity on that range and have no other
key, `n_owned_restricted = n_owned` and `n_ghost_restricted = n_ghost`; and for a cell-dof table
with `w` dofs per cell, all of them local dofs, `_compute_cell_dofs` returns the unrestricted
table: `_dof_array` is the flattened table, the slice of every cell is the dof list of the cell,
and `_cell_bounds[c] = c * w`. -/
theorem full_restriction_identity (n : Int) (num_dofs : Nat) (hn0 : 0 ≤ n)
    (hn1 : n ≤ (num_dofs : Int)) (cells : List (List Int)) (w : Nat)
    (hcells : ∀ cell, cell ∈ cells →
      cell.length = w ∧ ∀ d, d ∈ cell → 0 ≤ d ∧ d < (num_dofs : Int)) :
    (∀ d, 0 ≤ d → d < (num_dofs : Int) →
      StdMap.find (local_maps n (full_restriction num_dofs)).unrestricted_to_restricted d
        = some d ∧
      StdMap.find (local_maps n (full_restriction num_dofs)).restricted_to_unrestricted d
        = some d) ∧
    (∀ d, (d < 0 ∨ (num_dofs : Int) ≤ d) →
      StdMap.find (local_maps n (full_restriction num_dofs)).unrestricted_to_restricted d
        = none ∧
      StdMap.find (local_maps n (full_restriction num_dofs)).restricted_to_unrestricted d
        = none) ∧
    (map_owned_dofs n (full_restriction num_dofs)).size = n ∧
    (local_maps n (full_restriction num_dofs)).size = (num_dofs : Int) - n ∧
    ∃ t, compute_cell_dofs
        (local_maps n (full_restriction num_dofs)).unrestricted_to_restricted cells = .ok t ∧
      t.dof_array = cells.flatten ∧
      t.cell_bounds[cells.length]? = some (cells.length * w) ∧
      ∀ c (h : c < cells.length),
        cell_slice t c = cells[c] ∧ t.cell_bounds[c]? = some (c * w) := by
  obtain ⟨m, rfl⟩ : ∃ m : Nat, n = (m : Int) := ⟨n.toNat, (Int.toNat_of_nonneg hn0).symm⟩
  have hm : m ≤ num_dofs := by exact_mod_cast hn1
  have hmin : min num_dofs m = m := by omega
  have hid := local_maps_full m num_dofs hm
  have hrow : ∀ cell, cell ∈ cells →
      restrict_cell (local_maps (m : Int) (full_restriction num_dofs)).unrestricted_to_restricted
        cell = cell := by
    intro cell hc
    rw [restrict_cell_eq]
    exact filterMap_eq_self _ _ (fun d hd =>
      (hid d ((hcells cell hc).2 d hd).1 ((hcells cell hc).2 d hd).2).1)
  have hrows : cells.map (restrict_cell
      (local_maps (m : Int) (full_restriction num_dofs)).unrestricted_to_restricted) = cells := by
    conv_rhs => rw [← List.map_id cells]
    exact List.map_congr_left (fun cell hc => hrow cell hc)
  refine ⟨hid, fun d hd => ⟨?_, ?_⟩, ?_, ?_, ?_⟩
  · exact (local_maps_u2r (m : Int) _ (full_restriction_nodup num_dofs)).1 d
      (fun hmem => by have := mem_full_restriction.mp hmem; omega)
  · exact (local_maps_r2u (m : Int) (full_restriction num_dofs)).1 d
      (by simp only [full_restriction, List.length_map, List.length_range]; omega)
  · rw [map_owned_dofs_size, owned_entries_full, hmin]
    simp
  · rw [local_maps_size, ghost_entries_full]
    simp only [List.length_map, List.length_range]
    omega
  · refine ⟨_, compute_cell_dofs_eq _ _, ?_, ?_, fun c hc => ⟨?_, ?_⟩⟩
    · show (cells.map _).flatten = cells.flatten
      rw [hrows]
    · show (offsetsFrom 0 (cells.map _))[cells.length]? = _
      rw [hrows, offsetsFrom_getElem? 0 cells cells.length (Nat.le_refl _),
        sum_lengths_take cells w cells.length (fun row hrow' => (hcells row hrow').1)
          (Nat.le_refl _)]
      simp
    · rw [cell_slice_eq _ _ c hc]
      rw [← restrict_cell_eq]
      exact hrow _ (List.getElem_mem hc)
    · show (offsetsFrom 0 (cells.map _))[c]? = _
      rw [hrows, offsetsFrom_getElem? 0 cells c (by omega),
        sum_lengths_take cells w c (fun row hrow' => (hcells row hrow').1) (by omega)]
      simp

/-- An instance of C21: two owned dofs and two ghosts, the restriction `[0, 1, 2, 3]` and two
cells of two dofs; the table is the unrestricted one and the bound of the second cell is 2. -/
theorem full_restriction_identity_witness :
    (map_owned_dofs 2 (full_restriction 4)).size = 2 ∧
    StdMap.find (local_maps 2 (full_restriction 4)).unrestricted_to_restricted 3 = some 3 ∧
    ∃ t, compute_cell_dofs (local_maps 2 (full_restriction 4)).unrestricted_to_restricted
        [[0, 3], [1, 2]] = .ok t ∧
      t.dof_array = [0, 3, 1, 2] ∧ cell_slice t 1 = [1, 2] ∧ t.cell_bounds[1]? = some 2 := by
  obtain ⟨hid, _, hsize, _, t, ht, harr, _, hs⟩ :=
    full_restriction_identity 2 4 (by decide) (by decide) [[0, 3], [1, 2]] 2 (by decide)
  exact ⟨hsize, (hid 3 (by decide) (by decide)).1, t, ht, harr, (hs 1 (by decide)).1,
    (hs 1 (by decide)).2⟩

end Multiphenicsx
